import Mathlib

/-!
# KP-ABE (kpabe.cpp): policy tree, Shamir sharing, Lagrange recovery and the scheme algorithms

A shallow embedding of `src/kpabe.cpp` / `src/kpabe.hpp`.

* `Zr` is the scalar field of the Type-A pairing, `ZMod r` with `r` the prime of `TYPE_A_PARAMS`.
* `G1` is a parameter: any monoid `G`; where the group law matters the sampled generator `g`
  is assumed to satisfy `g ^ r = 1`, as every element of the order-`r` group `G1` does.
* `pow(x, power)` of `<cmath>` is the binary64 value nearest to `x ^ power`.
* `element_random` is a parameter of the caller: every function that samples takes the sampled
  values as arguments (a stream `Rng` where several scalars are drawn in sequence).
* `element_s` values are modelled by value. The source copies `element_s` handles shallowly;
  the one place where a copy is used after `element_clear` (`recoverSecret` on a policy that is
  a single leaf) is modelled as a call without result.
* `std::map<int, element_s>` is a partial function `Int → Option α`. `_keyGeneration` reads
  its reference parameter `scramblingKeys` with `operator[]`, which inserts an empty element
  for an absent key: it returns, with its result, the content of that map when the call stops.
* `element_div` by a scalar without inverse has no defined result in the library:
  `element_div` is partial, and `_keyGeneration` stops without a key at such a division.
* Subscripts `v[i]` read a default value in the functions above; the definitions with the
  suffix `Checked` repeat `splitShares`, `getSecretShares`, `satisfyingAttributes` and
  `_keyGeneration` with every subscript and iterator step checked against the size of the
  vector, and have no result when one is out of bounds.
-/

namespace KPABE

/-! ## The scalar field `Zr` -/

/-- The order of `Zr` and `G1`: the value `r` of `TYPE_A_PARAMS` in `kpabe.hpp`. -/
def r : ℕ := 730750818665451621361119245571504901405976559617

/-- Square-and-multiply modular power by recursion on a bound for the bit length of `e`;
only used to certify that `r` is prime. -/
def powMod (m : ℕ) : ℕ → ℕ → ℕ → ℕ
  | 0, _, _ => 1 % m
  | fuel + 1, a, e =>
    if e = 0 then 1 % m
    else
      let h := powMod m fuel a (e / 2)
      if e % 2 = 0 then h * h % m else h * h % m * a % m

theorem powMod_eq (m : ℕ) : ∀ fuel a e, e < 2 ^ fuel → powMod m fuel a e = a ^ e % m
  | 0, a, e, h => by
    have : e = 0 := by simpa using h
    subst this; simp [powMod]
  | fuel + 1, a, e, h => by
    unfold powMod
    by_cases he : e = 0
    · simp [he]
    · have h2 : e / 2 < 2 ^ fuel := by
        rw [Nat.div_lt_iff_lt_mul (by norm_num)]; rw [pow_succ] at h; exact h
      simp only [he, if_false]
      rw [powMod_eq m fuel a (e / 2) h2]
      by_cases hpar : e % 2 = 0
      · simp only [hpar, if_true]
        have : e = (e / 2) + (e / 2) := by omega
        conv_rhs => rw [this, pow_add]
        simp [Nat.mul_mod]
      · simp only [hpar, if_false]
        have : e = (e / 2) + (e / 2) + 1 := by omega
        conv_rhs => rw [this, pow_succ, pow_add]
        simp [Nat.mul_mod]

/-- Trial division by `d, d + 1, …` up to the square root; only used to certify the prime
factors of `r - 1`. -/
def trialDivision (n : ℕ) : ℕ → ℕ → Bool
  | 0, _ => false
  | fuel + 1, d =>
    if n < d * d then true
    else if n % d = 0 then false
    else trialDivision n fuel (d + 1)

theorem trialDivision_sound (n : ℕ) (hn : 2 ≤ n) :
    ∀ fuel d, 2 ≤ d → (∀ m, 2 ≤ m → m < d → ¬ m ∣ n) → trialDivision n fuel d = true →
      Nat.Prime n := by
  intro fuel
  induction fuel with
  | zero => intro d _ _ h; simp [trialDivision] at h
  | succ fuel ih =>
    intro d hd hno h
    rw [trialDivision] at h
    by_cases h1 : n < d * d
    · rw [Nat.prime_def_le_sqrt]
      refine ⟨hn, fun m hm hms => hno m hm ?_⟩
      by_contra hge
      have hdm : d ≤ m := Nat.le_of_not_lt hge
      have : d * d ≤ n := le_trans (Nat.mul_le_mul hdm hdm) (Nat.le_sqrt.1 hms)
      omega
    · rw [if_neg h1] at h
      by_cases h2 : n % d = 0
      · rw [if_pos h2] at h; exact absurd h (by simp)
      · rw [if_neg h2] at h
        apply ih (d + 1) (by omega) _ h
        intro m hm hmd hdiv
        by_cases hmd' : m < d
        · exact hno m hm hmd' hdiv
        · have : m = d := by omega
          subst this
          exact h2 (Nat.mod_eq_zero_of_dvd hdiv)

theorem prime_858001 : Nat.Prime 858001 :=
  trialDivision_sound 858001 (by norm_num) 1000 2 (le_refl _) (fun m h1 h2 => by omega)
    (by decide!)

theorem prime_308761441 : Nat.Prime 308761441 :=
  trialDivision_sound 308761441 (by norm_num) 17600 2 (le_refl _) (fun m h1 h2 => by omega)
    (by decide!)

theorem r_sub_one : r - 1 = 2 ^ 107 * (17 * (858001 * 308761441)) := by decide

theorem zmod_pow_eq (a e v : ℕ) (he : e < 2 ^ 160) (h : powMod r 160 a e = v) :
    ((a : ZMod r)) ^ e = (v : ZMod r) := by
  rw [powMod_eq r 160 a e he] at h
  rw [← h, ZMod.natCast_mod, Nat.cast_pow]

theorem zmod_natCast_ne_one (v : ℕ) (hv : v < r) (h1 : v ≠ 1) : (v : ZMod r) ≠ 1 := by
  intro h
  have h2 : ((v : ℕ) : ZMod r) = ((1 : ℕ) : ZMod r) := by simpa using h
  rw [ZMod.natCast_eq_natCast_iff'] at h2
  rw [Nat.mod_eq_of_lt hv, Nat.mod_eq_of_lt (by decide : 1 < r)] at h2
  exact h1 h2

set_option maxRecDepth 100000 in
/-- The order `r = 2^159 + 2^107 + 1` is prime (Lucas test, base 3). -/
theorem r_prime : Nat.Prime r := by
  apply lucas_primality r ((3 : ℕ) : ZMod r)
  · rw [zmod_pow_eq 3 (r - 1) 1 (by decide) (by decide)]; simp
  · intro q hq hdvd
    have hq' : q = 2 ∨ q = 17 ∨ q = 858001 ∨ q = 308761441 := by
      rw [r_sub_one] at hdvd
      rcases (Nat.Prime.dvd_mul hq).1 hdvd with h | h
      · left; exact (Nat.prime_dvd_prime_iff_eq hq Nat.prime_two).1 (hq.dvd_of_dvd_pow h)
      · rcases (Nat.Prime.dvd_mul hq).1 h with h | h
        · right; left; exact (Nat.prime_dvd_prime_iff_eq hq (by norm_num)).1 h
        · rcases (Nat.Prime.dvd_mul hq).1 h with h | h
          · right; right; left; exact (Nat.prime_dvd_prime_iff_eq hq prime_858001).1 h
          · right; right; right; exact (Nat.prime_dvd_prime_iff_eq hq prime_308761441).1 h
    rcases hq' with rfl | rfl | rfl | rfl
    · rw [zmod_pow_eq 3 ((r - 1) / 2) (powMod r 160 3 ((r - 1) / 2)) (by decide) rfl]
      exact zmod_natCast_ne_one _ (by decide) (by decide)
    · rw [zmod_pow_eq 3 ((r - 1) / 17) (powMod r 160 3 ((r - 1) / 17)) (by decide) rfl]
      exact zmod_natCast_ne_one _ (by decide) (by decide)
    · rw [zmod_pow_eq 3 ((r - 1) / 858001) (powMod r 160 3 ((r - 1) / 858001)) (by decide) rfl]
      exact zmod_natCast_ne_one _ (by decide) (by decide)
    · rw [zmod_pow_eq 3 ((r - 1) / 308761441) (powMod r 160 3 ((r - 1) / 308761441))
        (by decide) rfl]
      exact zmod_natCast_ne_one _ (by decide) (by decide)

instance r_prime_fact : Fact (Nat.Prime r) := ⟨r_prime⟩

/-- The scalar field `Zr` of the pairing (`element_init_Zr`): integers modulo the prime `r`.
`element_add` and `element_mul` are `+` and `*` of this field; `element_div` by a non-zero
scalar is `/` (see `element_div` for the zero divisor). -/
abbrev Zr : Type := ZMod r

/-- The library call `element_div(out, a, b)` in `Zr`: the quotient `a · b⁻¹`. The library
inverts the divisor; `0` has no inverse and the call has no defined result for it (`none`). -/
def element_div (a b : Zr) : Option Zr := if b = 0 then none else some (a / b)

/-- The library call `element_set_si(e, i)` for `e` in `Zr`: the residue of the signed integer. -/
def element_set_si (i : ℤ) : Zr := (i : Zr)

/-- A stream of sampled scalars: `element_random` on a `Zr` element returns the head and
leaves the tail. -/
abbrev Rng : Type := ℕ → Zr

/-! ## `pow(x, power)` of `<cmath>` and its conversion to `signed long` -/

/-- How many low bits a natural number has beyond a 53-bit significand: the least `e` with
`v / 2^e < 2^53` (`fuel` bounds the recursion, `fuel = v` is always enough). -/
def excessBits : ℕ → ℕ → ℕ
  | 0, _ => 0
  | fuel + 1, v => if v < 2 ^ 53 then 0 else excessBits fuel (v / 2) + 1

/-- The IEEE-754 binary64 value nearest to the natural number `v`, ties to even. Numbers below
`2^53` are represented exactly. -/
def roundToDouble (v : ℕ) : ℕ :=
  if v < 2 ^ 53 then v
  else
    let e := excessBits v v
    let q := v / 2 ^ e
    let rem := v % 2 ^ e
    let half := 2 ^ (e - 1)
    if half < rem ∨ (rem = half ∧ q % 2 = 1) then (q + 1) * 2 ^ e else q * 2 ^ e

/-- The call `pow(x, power)` of `splitShares`: both `int` arguments are promoted to `double`,
the result is the `double` nearest to `x ^ power`. -/
def std_pow (x power : ℕ) : ℕ := roundToDouble (x ^ power)

/-- Conversion of the (integral, non-negative) `double` returned by `pow` to the
`signed long int` parameter of `element_set_si`. Values from `2^63` on do not fit; the
conversion then yields `LONG_MIN` (the x86-64 result). -/
def doubleToLong (v : ℕ) : ℤ := if v < 2 ^ 63 then (v : ℤ) else -(2 ^ 63 : ℤ)

/-! ## The policy tree (`class Node`) -/

/-- The gate of a node: `Node::Type`. -/
inductive NodeType where
  | OR
  | AND
  deriving DecidableEq, Repr

/-- The policy node `class Node`: fields `attr`, `type`, `children`. A node without children is
a leaf (the source tests `children.empty()`), whatever its `type`. -/
inductive Node where
  | mk (attr : ℤ) (type : NodeType) (children : List Node)

namespace Node

/-- Field `attr`. -/
def attr : Node → ℤ
  | mk a _ _ => a

/-- Field `type`. -/
def type : Node → NodeType
  | mk _ t _ => t

/-- Field `children` (`getChildren`). -/
def children : Node → List Node
  | mk _ _ cs => cs

/-- The constructor `Node(int attr)`: a leaf. The `type` field is not set by the source and is
never read on a leaf by the scheme. -/
def leaf (attr : ℤ) : Node := mk attr NodeType.OR []

/-- The constructor `Node(Type type, const vector<Node>& children)`. The `attr` field is not
set by the source. -/
def inner (type : NodeType) (children : List Node) : Node := mk 0 type children

mutual
/-- The method `Node::getLeafs`. -/
def getLeafs : Node → List ℤ
  | mk attr _ [] => [attr]
  | mk _ _ (c :: cs) => getLeafsLoop (c :: cs)
/-- The `for(const Node& child: children)` loop of `getLeafs`. -/
def getLeafsLoop : List Node → List ℤ
  | [] => []
  | child :: rest =>
    (if child.children.isEmpty then [child.attr] else getLeafs child) ++ getLeafsLoop rest
end

/-- The method `Node::getThreshold`. Child counts are below `2^32`, so the cast to
`unsigned int` is the identity. -/
def getThreshold (n : Node) : ℕ :=
  match n.type with
  | NodeType.OR => 1
  | NodeType.AND => n.children.length

/-- The method `Node::getPolyDegree`. The threshold of a node with a child is at least `1`, so
the unsigned subtraction does not wrap. -/
def getPolyDegree (n : Node) : ℕ := n.getThreshold - 1

/-- The coefficient vector `coeff` of `splitShares`: `coeff[0]` is the root secret and
`coeff[1..getPolyDegree()]` are sampled in this order. -/
def splitCoeff (n : Node) (rootSecret : Zr) (rnd : Rng) : List Zr :=
  rootSecret :: (List.range n.getPolyDegree).map rnd

/-- The inner loop of `splitShares` for child index `x`:
`share = Σ_power element_set_si(pow(x, power)) * coeff[power]`, accumulated from `0`. -/
def shareAt (coeff : List Zr) (x : ℕ) : Zr :=
  (List.range coeff.length).foldl
    (fun share power =>
      share + element_set_si (doubleToLong (std_pow x power)) * coeff.getD power 0) 0

/-- The method `Node::splitShares`, for a node with at least one child: the shares for the
children `x = 1 .. children.size()` and the stream left after sampling. -/
def splitShares (n : Node) (rootSecret : Zr) (rnd : Rng) : List Zr × Rng :=
  let coeff := n.splitCoeff rootSecret rnd
  ((List.range n.children.length).map (fun x0 => shareAt coeff (x0 + 1)),
    fun i => rnd (i + n.getPolyDegree))

mutual
/-- The method `Node::getSecretShares`. -/
def getSecretShares : Node → Zr → Rng → List Zr × Rng
  | mk _ _ [], rootSecret, rnd => ([rootSecret], rnd)
  | mk a t (c :: cs), rootSecret, rnd =>
    let childSplits := (mk a t (c :: cs)).splitShares rootSecret rnd
    getSecretSharesLoop (c :: cs) childSplits.1 childSplits.2
/-- The `for(Node& child: children)` loop of `getSecretShares`; `childSplitsIter` is the list
of splits not yet consumed. -/
def getSecretSharesLoop : List Node → List Zr → Rng → List Zr × Rng
  | [], _, rnd => ([], rnd)
  | child :: rest, childSplitsIter, rnd =>
    let childShares := getSecretShares child (childSplitsIter.headD 0) rnd
    let more := getSecretSharesLoop rest childSplitsIter.tail childShares.2
    (childShares.1 ++ more.1, more.2)
end

/-- The method `Node::recoverCoefficients`. The divisor of its `element_div` is `i - j` with
`1 ≤ i, j ≤ threshold` and `i ≠ j`; the threshold is an `unsigned int`, below `r`, so the
divisor is never zero and the quotient is `/` of the field. -/
def recoverCoefficients (n : Node) : List Zr :=
  let threshold := n.getThreshold
  (List.range threshold).map fun (i0 : ℕ) =>
    let iVal : Zr := element_set_si ((i0 : ℤ) + 1)
    (List.range threshold).foldl
      (fun (result : Zr) (j0 : ℕ) =>
        if i0 + 1 = j0 + 1 then result
        else
          let jVal : Zr := element_set_si (-((j0 : ℤ) + 1))
          let temp : Zr := iVal + jVal
          let temp : Zr := jVal / temp
          result * temp) 1

mutual
/-- The method `Node::satisfyingAttributes`. -/
def satisfyingAttributes : Node → List ℤ → Zr → List (ℤ × Zr)
  | mk attr _ [], attributes, currentCoeff =>
    if attr ∈ attributes then [(attr, currentCoeff)] else []
  | mk a t (c :: cs), attributes, currentCoeff =>
    let recCoeffs := (mk a t (c :: cs)).recoverCoefficients
    match t with
    | NodeType.AND =>
      let res := satisfyingAttributesAnd (c :: cs) attributes currentCoeff recCoeffs 0 []
      if res.1 then res.2 else []
    | NodeType.OR =>
      let recCoeff0 := recCoeffs.getD 0 0 * currentCoeff
      satisfyingAttributesOr (c :: cs) attributes recCoeff0
/-- The loop of the `AND` branch: `i` is the index of the next child, `totalChildSat` the
accumulated result; returns `(allSatisfied, totalChildSat)`. -/
def satisfyingAttributesAnd :
    List Node → List ℤ → Zr → List Zr → ℕ → List (ℤ × Zr) → Bool × List (ℤ × Zr)
  | [], _, _, _, _, totalChildSat => (true, totalChildSat)
  | child :: rest, attributes, currentCoeff, recCoeffs, i, totalChildSat =>
    let childSat := satisfyingAttributes child attributes (recCoeffs.getD i 0 * currentCoeff)
    if childSat.isEmpty then (false, totalChildSat)
    else satisfyingAttributesAnd rest attributes currentCoeff recCoeffs (i + 1)
      (totalChildSat ++ childSat)
/-- The loop of the `OR` branch: the first child with a non-empty result wins. -/
def satisfyingAttributesOr : List Node → List ℤ → Zr → List (ℤ × Zr)
  | [], _, _ => []
  | child :: rest, attributes, recCoeff0 =>
    let childSat := satisfyingAttributes child attributes recCoeff0
    if !childSat.isEmpty then childSat else satisfyingAttributesOr rest attributes recCoeff0
end

end Node

/-! ## Parameters and keys -/

/-- The type `std::map<int, element_s>`: a partial function from attributes to elements. -/
abbrev ElementMap (α : Type) : Type := ℤ → Option α

/-- The empty map. -/
def ElementMap.empty {α : Type} : ElementMap α := fun _ => none

/-- Assignment `m[attr] = v` to the slot of `attr`. -/
def ElementMap.set {α : Type} (m : ElementMap α) (attr : ℤ) (v : α) : ElementMap α :=
  fun a => if a = attr then some v else m a

/-- The contents of a `std::map<int, element_s>` seen as state: `none` is an absent key,
`some none` a key whose `element_s` was created by `operator[]` and never initialised by the
library, `some (some x)` an initialised element. -/
abbrev SlotMap (α : Type) : Type := ℤ → Option (Option α)

/-- A map all of whose entries are initialised elements. -/
def ElementMap.slots {α : Type} (m : ElementMap α) : SlotMap α := fun a => (m a).map some

/-- The map after `operator[]` was applied to the key `attr`, absent from it: the map has an
entry for `attr`, holding a value-initialised `element_s`, and its other entries as before. -/
def ElementMap.insertEmpty {α : Type} (m : ElementMap α) (attr : ℤ) : SlotMap α :=
  fun a => if a = attr then some none else m.slots a

/-- The struct `PublicParams`. -/
structure PublicParams (G : Type) where
  pk : G
  Pi : ElementMap G

/-- The struct `PrivateParams`. -/
structure PrivateParams where
  make ::
  mk : Zr
  Si : ElementMap Zr

/-- The class `DecryptionKey`. -/
structure DecryptionKey where
  accessPolicy : Node
  Di : ElementMap Zr

/-- The type `Cw_t`. -/
abbrev Cw_t (G : Type) : Type := ElementMap G

/-- What a call can end with instead of a result: the exception `UnsatError`; the use of a
map slot that holds no initialised element (`operator[]` on an absent key creates an empty
`element_s`, and the library call on it does not return a value); the use of an element after
`element_clear` released it; the scrambling call of `_keyGeneration` for the leaf `attr` when
it has no defined result (`element_div` by a scalar without inverse). -/
inductive Error where
  | UnsatError
  | missingElement (attr : ℤ)
  | clearedElement
  | zeroDivisor (attr : ℤ)
  deriving DecidableEq, Repr

/-- The library call `element_pow_zn(out, x, k)` for `x` in `G1` and `k` in `Zr`. -/
def element_pow_zn {G : Type} [Monoid G] (x : G) (k : Zr) : G := x ^ k.val

/-! ## The scheme algorithms -/

/-- The `for(auto attr: attributes)` loop of `setup`: one fresh `s_a` per position, and
`Pi[attr] = g^{s_a}`. -/
def setupLoop {G : Type} [Monoid G] (g : G) :
    List ℤ → Rng → ElementMap G → ElementMap Zr → ElementMap G × ElementMap Zr
  | [], _, Pi, Si => (Pi, Si)
  | attr :: rest, s, Pi, Si =>
    let si := s 0
    setupLoop g rest (fun i => s (i + 1)) (Pi.set attr (element_pow_zn g si)) (Si.set attr si)

/-- The function `setup`. The parameters are passed by reference and filled in; `mk`, `g` and
the stream `s` are the values of the three kinds of `element_random` calls. -/
def setup {G : Type} [Monoid G] (attributes : List ℤ) (publicParams : PublicParams G)
    (privateParams : PrivateParams) (mk : Zr) (g : G) (s : Rng) :
    PublicParams G × PrivateParams :=
  let maps := setupLoop g attributes s publicParams.Pi privateParams.Si
  ({ pk := element_pow_zn g mk, Pi := maps.1 }, { mk := mk, Si := maps.2 })

/-- The loop of `_keyGeneration` over `leafs` and `shares` in step:
`Di[attr] = scramblingFunc(share, scramblingKeys[attr])`. The map `scramblingKeys` is a
reference parameter and is read with `operator[]`: the second component of the result is its
content when the loop stops. A lookup of a present key leaves the map as it is; the lookup of
an absent key inserts an empty element, on which the scrambling call has no result, so the
loop stops there. It also stops when the scrambling call has no defined result. -/
def keyGenerationLoop (scramblingKeys : ElementMap Zr) (scramblingFunc : Zr → Zr → Option Zr) :
    List ℤ → List Zr → ElementMap Zr → Except Error (ElementMap Zr) × SlotMap Zr
  | [], _, Di => (Except.ok Di, scramblingKeys.slots)
  | attr :: leafs, sharesIter, Di =>
    match scramblingKeys attr with
    | none => (Except.error (Error.missingElement attr), scramblingKeys.insertEmpty attr)
    | some key =>
      match scramblingFunc (sharesIter.headD 0) key with
      | none => (Except.error (Error.zeroDivisor attr), scramblingKeys.slots)
      | some attrDi =>
        keyGenerationLoop scramblingKeys scramblingFunc leafs sharesIter.tail
          (Di.set attr attrDi)

/-- The function `_keyGeneration`; `rnd` is the stream sampled by `getSecretShares`. The
result is the returned key, or what the call ended with instead, and the content of
`scramblingKeys` when the call stops. -/
def _keyGeneration (rootSecret : Zr) (scramblingKeys : ElementMap Zr)
    (scramblingFunc : Zr → Zr → Option Zr) (accessPolicy : Node) (rnd : Rng) :
    Except Error DecryptionKey × SlotMap Zr :=
  let leafs := accessPolicy.getLeafs
  let shares := (accessPolicy.getSecretShares rootSecret rnd).1
  let run := keyGenerationLoop scramblingKeys scramblingFunc leafs shares ElementMap.empty
  match run.1 with
  | Except.error e => (Except.error e, run.2)
  | Except.ok Di => (Except.ok { accessPolicy := accessPolicy, Di := Di }, run.2)

/-- The function `keyGeneration`: `_keyGeneration` with `element_div` as scrambling function
on `privateParams.mk` and `privateParams.Si`; this is the key it returns. -/
def keyGeneration (privateParams : PrivateParams) (accessPolicy : Node) (rnd : Rng) :
    Except Error DecryptionKey :=
  (_keyGeneration privateParams.mk privateParams.Si element_div accessPolicy rnd).1

/-- The content of `privateParams.Si`, passed by reference to `keyGeneration`, when that call
stops. -/
def keyGenerationSi (privateParams : PrivateParams) (accessPolicy : Node) (rnd : Rng) :
    SlotMap Zr :=
  (_keyGeneration privateParams.mk privateParams.Si element_div accessPolicy rnd).2

/-- The `for(auto attr: attributes)` loop of `createSecret`: `Cw[attr] = Pi[attr]^k`. -/
def createSecretLoop {G : Type} [Monoid G] (Pi : ElementMap G) (k : Zr) :
    List ℤ → Cw_t G → Except Error (Cw_t G)
  | [], Cw => Except.ok Cw
  | attr :: rest, Cw =>
    match Pi attr with
    | none => Except.error (Error.missingElement attr)
    | some P => createSecretLoop Pi k rest (Cw.set attr (element_pow_zn P k))

/-- The function `createSecret`: returns `Cw` and the secret `Cs`; `k` is the sampled scalar. -/
def createSecret {G : Type} [Monoid G] (params : PublicParams G) (attributes : List ℤ)
    (k : Zr) : Except Error (Cw_t G × G) :=
  let Cs := element_pow_zn params.pk k
  match createSecretLoop params.Pi k attributes ElementMap.empty with
  | Except.error e => Except.error e
  | Except.ok Cw => Except.ok (Cw, Cs)

/-- The product loop of `recoverSecret` over the satisfying pairs; the state is `Cs` and the
flag `pastFirst`. -/
def recoverSecretLoop {G : Type} [Monoid G] (Di : ElementMap Zr) (Cw : Cw_t G) :
    List (ℤ × Zr) → G → Bool → Except Error G
  | [], Cs, _ => Except.ok Cs
  | attrCoeffPair :: rest, Cs, pastFirst =>
    match Di attrCoeffPair.1 with
    | none => Except.error (Error.missingElement attrCoeffPair.1)
    | some D =>
      let second := D * attrCoeffPair.2
      match Cw attrCoeffPair.1 with
      | none => Except.error (Error.missingElement attrCoeffPair.1)
      | some C =>
        let Zy := element_pow_zn C second
        if pastFirst then recoverSecretLoop Di Cw rest (Cs * Zy) true
        else recoverSecretLoop Di Cw rest Zy true

/-- The function `recoverSecret`: the recovered `Cs`, or `UnsatError`.

The pairs returned by `satisfyingAttributes` hold shallow copies of `element_s` handles: a leaf
pushes `{attr, currentCoeff}`, a copy of the handle it was called with. Below an inner node
that handle is a slot of the node's own `recCoeffs`, which stays allocated. When the policy is
a single leaf the handle is `rootCoeff`, and `element_clear(rootCoeff)` runs before the product
loop reads the pair: that call does not produce a value (`clearedElement`). -/
def recoverSecret {G : Type} [Monoid G] (key : DecryptionKey) (Cw : Cw_t G)
    (attributes : List ℤ) : Except Error G :=
  let attrs := key.accessPolicy.satisfyingAttributes attributes 1
  if attrs.isEmpty then Except.error Error.UnsatError
  else if key.accessPolicy.children.isEmpty then Except.error Error.clearedElement
  else recoverSecretLoop key.Di Cw attrs 1 false

/-- A byte of a `std::string` or of a `vector<uint8_t>`. -/
abbrev Byte : Type := Fin 256

/-- The symmetric layer, which the source takes from mbedtls: `hashElement` (SHA-256 of the
element bytes, the 32-byte key) and AES-256-CBC encryption and decryption under a key. -/
structure SymLayer (G : Type) where
  hashElement : G → List Byte
  symEncrypt : List Byte → List Byte → List Byte
  symDecrypt : List Byte → List Byte → List Byte

/-- The function `encrypt`: seals the `message.size() + 1` bytes of `message.c_str()`, the
message followed by the terminating zero byte; returns the ciphertext and `Cw`. -/
def encrypt {G : Type} [Monoid G] (sym : SymLayer G) (params : PublicParams G)
    (attributes : List ℤ) (message : List Byte) (k : Zr) :
    Except Error (List Byte × Cw_t G) :=
  match createSecret params attributes k with
  | Except.error e => Except.error e
  | Except.ok (Cw, Cs) =>
    let key := sym.hashElement Cs
    Except.ok (sym.symEncrypt key (message ++ [0]), Cw)

/-- The function `decrypt`: the plaintext bytes are read as a C string, up to the first zero
byte. -/
def decrypt {G : Type} [Monoid G] (sym : SymLayer G) (key : DecryptionKey) (Cw : Cw_t G)
    (attributes : List ℤ) (ciphertext : List Byte) : Except Error (List Byte) :=
  match recoverSecret key Cw attributes with
  | Except.error e => Except.error e
  | Except.ok Cs =>
    let symKey := sym.hashElement Cs
    let plaintext := sym.symDecrypt symKey ciphertext
    Except.ok (plaintext.takeWhile (fun b => b != 0))

/-! ## Specification-side definitions -/

namespace Node

mutual
/-- Leaf enumeration in the words of the specification: `[attr]` for a leaf, the left-to-right
concatenation of the children's enumerations for an inner node. -/
def leafsSpec : Node → List ℤ
  | mk attr _ [] => [attr]
  | mk _ _ (c :: cs) => leafsSpecList (c :: cs)
/-- Concatenation of the enumerations of a list of children. -/
def leafsSpecList : List Node → List ℤ
  | [] => []
  | c :: cs => leafsSpec c ++ leafsSpecList cs
end

mutual
/-- The number of leaf nodes of the tree that carry the attribute `a`. -/
def leafCount (a : ℤ) : Node → ℕ
  | mk attr _ [] => if attr = a then 1 else 0
  | mk _ _ (c :: cs) => leafCountList a (c :: cs)
/-- The number of leaf nodes with attribute `a` below a list of children. -/
def leafCountList (a : ℤ) : List Node → ℕ
  | [] => 0
  | c :: cs => leafCount a c + leafCountList a cs
end

/-- The tree has a leaf with attribute `a`. -/
def HasLeaf (n : Node) (a : ℤ) : Prop := 0 < n.leafCount a

instance decHasLeaf (n : Node) (a : ℤ) : Decidable (n.HasLeaf a) :=
  inferInstanceAs (Decidable (0 < n.leafCount a))

/-- The leaf attributes of the tree are pairwise distinct: no attribute is carried by two
leaf nodes. -/
def DistinctLeaves (n : Node) : Prop := ∀ a, n.leafCount a ≤ 1

end Node

/-- The policy `(1 OR 2) AND (3 OR 4)` of the tests and of `main`. -/
def examplePolicy : Node :=
  Node.inner NodeType.AND
    [Node.inner NodeType.OR [Node.leaf 1, Node.leaf 2],
     Node.inner NodeType.OR [Node.leaf 3, Node.leaf 4]]

/-- The Lagrange coefficient at `0` of the point `i` against the points `1..t`. -/
def lagrangeAtZero (t i : ℕ) : Zr :=
  ∏ j ∈ (Finset.Icc 1 t).erase i, (-(j : Zr)) / ((i : Zr) - (j : Zr))

/-- An `AND` node with the 15 leaves `1..15` as children. -/
def wideAnd : Node :=
  Node.inner NodeType.AND ((List.range 15).map (fun (i : ℕ) => Node.leaf ((i : ℤ) + 1)))

/-- Sampled coefficients with `coeff[14] = 1` and all others `0`. -/
def wideRng : Rng := fun i => if i = 13 then 1 else 0

namespace Node

mutual
/-- The number of `element_random` calls made by `getSecretShares` on the tree: the polynomial
degree of every inner node. -/
def randomDraws : Node → ℕ
  | mk _ _ [] => 0
  | mk a t (c :: cs) => (mk a t (c :: cs)).getPolyDegree + randomDrawsList (c :: cs)
/-- The number of `element_random` calls below a list of children. -/
def randomDrawsList : List Node → ℕ
  | [] => 0
  | c :: cs => randomDraws c + randomDrawsList cs
end

mutual
/-- The share that reaches the `i`-th leaf (0-based, left to right) when the secret is
propagated top-down: a leaf keeps the secret it receives; an inner node splits its secret and
hands the `j`-th split to its `j`-th child, the child under which the `i`-th leaf lies being
found by counting leaves. -/
def shareOfLeaf : Node → Zr → Rng → ℕ → Zr
  | mk _ _ [], s, _, _ => s
  | mk a t (c :: cs), s, rnd, i =>
    let splits := (mk a t (c :: cs)).splitShares s rnd
    shareOfLeafList (c :: cs) splits.1 splits.2 i
/-- The share reaching the `i`-th leaf below a list of children that receive the secrets
`splits` in order; a child samples after its left siblings. -/
def shareOfLeafList : List Node → List Zr → Rng → ℕ → Zr
  | [], _, _, _ => 0
  | c :: cs, splits, rnd, i =>
    if i < c.getLeafs.length then shareOfLeaf c (splits.headD 0) rnd i
    else shareOfLeafList cs splits.tail (fun k => rnd (k + randomDraws c))
      (i - c.getLeafs.length)
end

end Node

/-- What `getSecretShares` returns on a node, in terms of the top-down propagation. -/
def SharesSpec (n : Node) : Prop :=
  ∀ (s : Zr) (rnd : Rng),
    (n.getSecretShares s rnd).1.length = n.getLeafs.length ∧
    (n.getSecretShares s rnd).2 = (fun k => rnd (k + n.randomDraws)) ∧
    ∀ i, i < n.getLeafs.length →
      (n.getSecretShares s rnd).1.getD i 0 = n.shareOfLeaf s rnd i

namespace Node

mutual
/-- The truth value of the policy on an attribute list: a leaf is true iff its attribute is in
the list, an `AND` node iff all of its children are true, an `OR` node iff at least one child
is true. -/
def eval (attributes : List ℤ) : Node → Bool
  | mk attr _ [] => decide (attr ∈ attributes)
  | mk _ t (c :: cs) =>
    match t with
    | NodeType.AND => evalAll attributes (c :: cs)
    | NodeType.OR => evalAny attributes (c :: cs)
/-- All nodes of the list are true. -/
def evalAll (attributes : List ℤ) : List Node → Bool
  | [] => true
  | c :: cs => eval attributes c && evalAll attributes cs
/-- At least one node of the list is true. -/
def evalAny (attributes : List ℤ) : List Node → Bool
  | [] => false
  | c :: cs => eval attributes c || evalAny attributes cs
end

end Node

/-- The search result of a node is non-empty exactly when the policy is true. -/
def SatDecides (attributes : List ℤ) (n : Node) : Prop :=
  ∀ c : Zr, n.satisfyingAttributes attributes c ≠ [] ↔ n.eval attributes = true

/-- A symmetric layer for examples: a constant 32-byte key and the identity as cipher. -/
def plainSym (G : Type) : SymLayer G where
  hashElement := fun _ => List.replicate 32 0
  symEncrypt := fun _ input => input
  symDecrypt := fun _ input => input

/-- The share of attribute `a`: the entry of `shares` at the position that `a` has in
`leafs`. -/
def lookupShare (leafs : List ℤ) (shares : List Zr) (a : ℤ) : Zr :=
  shares.getD (leafs.indexOf a) 0

/-- The reconstruction sum `Σ share_a · λ` over a list of pairs `(a, λ)`. -/
def reconSum (leafs : List ℤ) (shares : List Zr) (sat : List (ℤ × Zr)) : Zr :=
  (sat.map (fun p => lookupShare leafs shares p.1 * p.2)).sum

/-- The reconstruction sum of a policy: over the pairs returned by
`satisfyingAttributes(attrs, 1)`, with `share_a` the entry of `getSecretShares(rootSecret)` at
the position of `a` in `getLeafs()`. -/
def Node.reconstruct (n : Node) (rootSecret : Zr) (rnd : Rng) (attributes : List ℤ) : Zr :=
  reconSum n.getLeafs (n.getSecretShares rootSecret rnd).1 (n.satisfyingAttributes attributes 1)

namespace Node

mutual
/-- Every `AND` node of the tree has at most 14 children, so that all powers `x^power`
computed by `splitShares` are below `2^53`. -/
def powExact : Node → Bool
  | mk _ t cs => (decide (t = NodeType.AND → cs.length ≤ 14)) && powExactList cs
/-- All nodes of the list satisfy `powExact`. -/
def powExactList : List Node → Bool
  | [] => true
  | c :: cs => powExact c && powExactList cs
end

end Node

/-- Every attribute returned by the search is an attribute of `getLeafs()` and a member of the
supplied list. -/
def SatSubset (attributes : List ℤ) (n : Node) : Prop :=
  ∀ (c : Zr), ∀ p ∈ n.satisfyingAttributes attributes c, p.1 ∈ n.getLeafs ∧ p.1 ∈ attributes

/-- The reconstruction sum of a subtree with secret `s`, searched with coefficient `c`, is
`c · s`. -/
def ReconAt (attributes : List ℤ) (n : Node) : Prop :=
  ∀ (s : Zr) (rnd : Rng) (c : Zr), n.getLeafs.Nodup →
    n.satisfyingAttributes attributes c ≠ [] →
    reconSum n.getLeafs (n.getSecretShares s rnd).1 (n.satisfyingAttributes attributes c) = c * s

/-- The attribute list `1..15`. -/
def wideAttrs : List ℤ := (List.range 15).map (fun (i : ℕ) => (i : ℤ) + 1)

/-- The slot of attribute `a` in the key and in `Cw` is as `keyGeneration` and `createSecret`
fill it: `Di[a] = share_a / s_a` and `Cw[a] = (g^{s_a})^k` for some non-zero `s_a`. -/
def GoodSlot {G : Type} [Monoid G] (g : G) (k : Zr) (leafs : List ℤ) (shares : List Zr)
    (Di : ElementMap Zr) (Cw : Cw_t G) (a : ℤ) : Prop :=
  ∃ x : Zr, x ≠ 0 ∧ Di a = some (lookupShare leafs shares a / x) ∧
    Cw a = some (element_pow_zn (element_pow_zn g x) k)

/-- A generator of the group `(Zr, +)` written multiplicatively, a model of `G1`. -/
def unitG : Multiplicative Zr := Multiplicative.ofAdd 1

/-- The policy with the single leaf `1` under an `OR` gate. -/
def singlePolicy : Node := Node.inner NodeType.OR [Node.leaf 1]

/-- Parameters made by `setup` on the universe `[1]` with the sampled value `s_1 = 0`. -/
def zeroParams : PublicParams (Multiplicative Zr) × PrivateParams :=
  setup [1] (PublicParams.mk 1 ElementMap.empty) (PrivateParams.make 0 ElementMap.empty)
    1 unitG (fun _ => 0)

/-- The policy `1 OR 2` of the test `encryptAndDecrypt`. -/
def orPolicy : Node := Node.inner NodeType.OR [Node.leaf 1, Node.leaf 2]

/-! ## State of the maps, path weights and further inputs -/

/-- The map after the lookups `m[attr]` of a loop over `attrs`: `operator[]` on an absent
key creates an empty entry for it, and the loop ends there (the library call on the empty
element does not return); lookups of present keys leave the map as it is. -/
def ElementMap.afterLookups {α : Type} (m : ElementMap α) : List ℤ → SlotMap α
  | [] => m.slots
  | attr :: rest =>
    match m attr with
    | none => fun a => if a = attr then some none else m.slots a
    | some _ => ElementMap.afterLookups m rest

/-- The map `params.Pi` when `createSecret` ends: the loop looks up `params.Pi[attr]` for the
attributes in order. -/
def createSecretPi {G : Type} (params : PublicParams G) (attributes : List ℤ) : SlotMap G :=
  params.Pi.afterLookups attributes

/-- Private parameters with the scalars `Si[a] = a + 1` (as residues) for `a = 1..4`. -/
def samplePrivate : PrivateParams :=
  PrivateParams.make 7 (fun a => if 1 ≤ a ∧ a ≤ 4 then some ((a : Zr) + 1) else none)

/-- Public parameters over the attributes `1..4`, with `Pi[a] = g^a` and `pk = g^7`. -/
def samplePublic : PublicParams (Multiplicative Zr) :=
  PublicParams.mk (element_pow_zn unitG 7)
    (fun a => if 1 ≤ a ∧ a ≤ 4 then some (element_pow_zn unitG (a : Zr)) else none)


/-- Multiplication of every coefficient of a list of pairs by `c`. -/
def scalePairs (c : Zr) (l : List (ℤ × Zr)) : List (ℤ × Zr) :=
  l.map (fun p => (p.1, c * p.2))

namespace Node

mutual
/-- The leaves of the chosen satisfying subtree, each with the product of the Lagrange
coefficients along the path from the root: a satisfied leaf has the empty product `1`; an
`AND` node with `n` children, all true, passes the weight `λ_i` of the point `i` among `1..n`
to its `i`-th child; an `OR` node takes its leftmost true child, with the weight `λ_1` of its
threshold-1 polynomial. -/
def pathWeights (attributes : List ℤ) : Node → List (ℤ × Zr)
  | mk attr _ [] => if attr ∈ attributes then [(attr, 1)] else []
  | mk _ t (c :: cs) =>
    match t with
    | NodeType.AND =>
      if evalAll attributes (c :: cs) then
        pathWeightsAnd attributes (c :: cs).length (c :: cs) 1
      else []
    | NodeType.OR => pathWeightsOr attributes (c :: cs)
/-- The weighted leaves below the children of an `AND` node with `n` children; `i` is the
1-based index of the first child of the list. -/
def pathWeightsAnd (attributes : List ℤ) (n : ℕ) : List Node → ℕ → List (ℤ × Zr)
  | [], _ => []
  | child :: rest, i =>
    scalePairs (lagrangeAtZero n i) (pathWeights attributes child) ++
      pathWeightsAnd attributes n rest (i + 1)
/-- The weighted leaves below the leftmost true child of an `OR` node. -/
def pathWeightsOr (attributes : List ℤ) : List Node → List (ℤ × Zr)
  | [] => []
  | child :: rest =>
    if eval attributes child then
      scalePairs (lagrangeAtZero 1 1) (pathWeights attributes child)
    else pathWeightsOr attributes rest
end

end Node

/-- The search result of a node with coefficient `c` is the weighted leaf list scaled by
`c`. -/
def SatScales (attributes : List ℤ) (n : Node) : Prop :=
  ∀ c : Zr, n.satisfyingAttributes attributes c = scalePairs c (n.pathWeights attributes)

/-- A key for `singlePolicy` with the scalar `d` in `Di[1]`: `d` stands for whatever
`element_div` by `s_1 = 0` leaves there. -/
def zeroKey (d : Zr) : DecryptionKey :=
  { accessPolicy := singlePolicy, Di := ElementMap.empty.set 1 d }

/-- The map `Cw` that `createSecret` derives for the attributes `[1]` from `zeroParams`. -/
def zeroCw : Cw_t (Multiplicative Zr) := ElementMap.empty.set 1 1

/-- A symmetric layer that depends on its key: the key is one of two 32-byte strings, by
whether the element is the neutral one; encryption prepends the key, decryption strips it when
it is the right one and yields nothing otherwise. -/
def tagSym : SymLayer (Multiplicative Zr) where
  hashElement := fun x =>
    if Multiplicative.toAdd x = 0 then List.replicate 32 0 else List.replicate 32 1
  symEncrypt := fun key input => key ++ input
  symDecrypt := fun key input => if input.take 32 = key then input.drop 32 else []

/-- The policy `1 AND 1`, with a repeated leaf attribute. -/
def dupPolicy : Node := Node.inner NodeType.AND [Node.leaf 1, Node.leaf 1]

/-- Parameters made by `setup` on the universe `[1]` with `mk = 0` and `s_1 = 1`. -/
def dupParams : PublicParams (Multiplicative Zr) × PrivateParams :=
  setup [1] (PublicParams.mk 1 ElementMap.empty) (PrivateParams.make 0 ElementMap.empty)
    0 unitG (fun _ => 1)

/-! ## Attribute sequences and bounds-checked runs -/

/-- The attribute sequence of a search result: the first components of the pairs, in order. -/
def attrsOf (sat : List (ℤ × Zr)) : List ℤ := sat.map Prod.fst

/-- The attribute sequence of the search result of a node is a subsequence of its leaf
enumeration: it picks leaf positions from left to right, none of them twice. -/
def SatSublist (attributes : List ℤ) (n : Node) : Prop :=
  ∀ c : Zr, (attrsOf (n.satisfyingAttributes attributes c)).Sublist n.getLeafs

/-- The search on a node gives the same list for the attribute lists `A` and `B`. -/
def SatAgree (A B : List ℤ) (n : Node) : Prop :=
  ∀ c : Zr, n.satisfyingAttributes A c = n.satisfyingAttributes B c

/-- The subscript write `v[i] = x` on a vector with the bounds check made explicit: there is no
result when `i` is not below `v.size()`. -/
def writeAt {α : Type} (v : List α) (i : ℕ) (x : α) : Option (List α) :=
  if i < v.length then some (v.set i x) else none

namespace Node

/-- The inner loop of `splitShares` for child index `x`, every read `coeff[power]` checked
against `coeff.size()`. -/
def shareAtChecked (coeff : List Zr) (x : ℕ) : Option Zr :=
  (List.range coeff.length).foldlM
    (fun share power =>
      match coeff[power]? with
      | none => none
      | some c => some (share + element_set_si (doubleToLong (std_pow x power)) * c)) 0

/-- The method `Node::splitShares` with every subscript checked: `coeff` is a vector of
`threshold` slots, written at `0` and at `i = 1 .. getPolyDegree()` and read at every `power`;
`shares` is a vector of `children.size()` slots, written at `x - 1` for
`x = 1 .. children.size()`. The result is `none` as soon as a subscript is out of bounds. -/
def splitSharesChecked (n : Node) (rootSecret : Zr) (rnd : Rng) : Option (List Zr × Rng) :=
  let threshold := n.getThreshold
  match writeAt (List.replicate threshold (0 : Zr)) 0 rootSecret with
  | none => none
  | some coeff0 =>
    match (List.range n.getPolyDegree).foldlM
        (fun coeff i0 => writeAt coeff (i0 + 1) (rnd i0)) coeff0 with
    | none => none
    | some coeff =>
      match (List.range n.children.length).foldlM
          (fun shares x0 =>
            match shareAtChecked coeff (x0 + 1) with
            | none => none
            | some share => writeAt shares x0 share)
          (List.replicate n.children.length (0 : Zr)) with
      | none => none
      | some shares => some (shares, fun i => rnd (i + n.getPolyDegree))

mutual
/-- The method `Node::getSecretShares` with every subscript and iterator step checked. -/
def getSecretSharesChecked : Node → Zr → Rng → Option (List Zr × Rng)
  | mk _ _ [], rootSecret, rnd => some ([rootSecret], rnd)
  | mk a t (c :: cs), rootSecret, rnd =>
    match (mk a t (c :: cs)).splitSharesChecked rootSecret rnd with
    | none => none
    | some childSplits => getSecretSharesLoopChecked (c :: cs) childSplits.1 childSplits.2
/-- The loop of `getSecretShares`: `*childSplitsIter++` needs a split share that is still
there. -/
def getSecretSharesLoopChecked : List Node → List Zr → Rng → Option (List Zr × Rng)
  | [], _, rnd => some ([], rnd)
  | child :: rest, childSplitsIter, rnd =>
    match childSplitsIter.head? with
    | none => none
    | some split =>
      match getSecretSharesChecked child split rnd with
      | none => none
      | some childShares =>
        match getSecretSharesLoopChecked rest childSplitsIter.tail childShares.2 with
        | none => none
        | some more => some (childShares.1 ++ more.1, more.2)
end

mutual
/-- The method `Node::satisfyingAttributes` with the subscripts `recCoeffs[i]` and
`recCoeffs[0]` checked against the size of `recCoeffs`. -/
def satisfyingAttributesChecked : Node → List ℤ → Zr → Option (List (ℤ × Zr))
  | mk attr _ [], attributes, currentCoeff =>
    some (if attr ∈ attributes then [(attr, currentCoeff)] else [])
  | mk a t (c :: cs), attributes, currentCoeff =>
    let recCoeffs := (mk a t (c :: cs)).recoverCoefficients
    match t with
    | NodeType.AND =>
      match satisfyingAttributesAndChecked (c :: cs) attributes currentCoeff recCoeffs 0 [] with
      | none => none
      | some res => some (if res.1 then res.2 else [])
    | NodeType.OR =>
      match recCoeffs[0]? with
      | none => none
      | some recCoeff0 =>
        satisfyingAttributesOrChecked (c :: cs) attributes (recCoeff0 * currentCoeff)
/-- The loop of the `AND` branch, `recCoeffs[i]` checked. -/
def satisfyingAttributesAndChecked :
    List Node → List ℤ → Zr → List Zr → ℕ → List (ℤ × Zr) → Option (Bool × List (ℤ × Zr))
  | [], _, _, _, _, totalChildSat => some (true, totalChildSat)
  | child :: rest, attributes, currentCoeff, recCoeffs, i, totalChildSat =>
    match recCoeffs[i]? with
    | none => none
    | some recCoeff =>
      match satisfyingAttributesChecked child attributes (recCoeff * currentCoeff) with
      | none => none
      | some childSat =>
        if childSat.isEmpty then some (false, totalChildSat)
        else satisfyingAttributesAndChecked rest attributes currentCoeff recCoeffs (i + 1)
          (totalChildSat ++ childSat)
/-- The loop of the `OR` branch. -/
def satisfyingAttributesOrChecked : List Node → List ℤ → Zr → Option (List (ℤ × Zr))
  | [], _, _ => some []
  | child :: rest, attributes, recCoeff0 =>
    match satisfyingAttributesChecked child attributes recCoeff0 with
    | none => none
    | some childSat =>
      if !childSat.isEmpty then some childSat
      else satisfyingAttributesOrChecked rest attributes recCoeff0
end

end Node

/-- The loop of `_keyGeneration` with the step of `sharesIter` checked: `*sharesIter` needs a
share that is still there. -/
def keyGenerationLoopChecked (scramblingKeys : ElementMap Zr)
    (scramblingFunc : Zr → Zr → Option Zr) :
    List ℤ → List Zr → ElementMap Zr → Option (Except Error (ElementMap Zr) × SlotMap Zr)
  | [], _, Di => some (Except.ok Di, scramblingKeys.slots)
  | attr :: leafs, sharesIter, Di =>
    match sharesIter.head? with
    | none => none
    | some share =>
      match scramblingKeys attr with
      | none => some (Except.error (Error.missingElement attr), scramblingKeys.insertEmpty attr)
      | some key =>
        match scramblingFunc share key with
        | none => some (Except.error (Error.zeroDivisor attr), scramblingKeys.slots)
        | some attrDi =>
          keyGenerationLoopChecked scramblingKeys scramblingFunc leafs sharesIter.tail
            (Di.set attr attrDi)

/-- The function `_keyGeneration` with every subscript and iterator step checked. -/
def _keyGenerationChecked (rootSecret : Zr) (scramblingKeys : ElementMap Zr)
    (scramblingFunc : Zr → Zr → Option Zr) (accessPolicy : Node) (rnd : Rng) :
    Option (Except Error DecryptionKey × SlotMap Zr) :=
  let leafs := accessPolicy.getLeafs
  match accessPolicy.getSecretSharesChecked rootSecret rnd with
  | none => none
  | some shares =>
    match keyGenerationLoopChecked scramblingKeys scramblingFunc leafs shares.1
        ElementMap.empty with
    | none => none
    | some run =>
      match run.1 with
      | Except.error e => some (Except.error e, run.2)
      | Except.ok Di => some (Except.ok { accessPolicy := accessPolicy, Di := Di }, run.2)

/-! ## Induction over the policy tree -/

/-- Structural induction on `Node`: a property holds of every node if it holds of a node
whenever it holds of all its children. -/
theorem Node.induct {P : Node → Prop}
    (h : ∀ a t cs, (∀ c ∈ cs, P c) → P (Node.mk a t cs)) (n : Node) : P n :=
  @Node.rec P (fun cs => ∀ c ∈ cs, P c)
    (fun a t cs ih => h a t cs ih)
    (fun c hc => by cases hc)
    (fun c cs hc hcs d hd => by
      rcases List.mem_cons.1 hd with rfl | hd
      · exact hc
      · exact hcs d hd) n

/-! ## Leaf enumeration -/

theorem Node.getLeafs_leaf (a : ℤ) (t : NodeType) : (Node.mk a t []).getLeafs = [a] := by
  simp [Node.getLeafs]

theorem Node.getLeafsLoop_cons (c : Node) (cs : List Node) :
    Node.getLeafsLoop (c :: cs) = c.getLeafs ++ Node.getLeafsLoop cs := by
  rcases c with ⟨a, t, ds⟩
  cases ds with
  | nil => simp [Node.getLeafsLoop, Node.getLeafs, Node.children, Node.attr]
  | cons d ds => simp [Node.getLeafsLoop, Node.children]

theorem Node.getLeafs_inner (a : ℤ) (t : NodeType) (c : Node) (cs : List Node) :
    (Node.mk a t (c :: cs)).getLeafs = Node.getLeafsLoop (c :: cs) := by
  simp [Node.getLeafs]

theorem Node.getLeafsLoop_eq_spec (cs : List Node)
    (h : ∀ c ∈ cs, c.getLeafs = c.leafsSpec) : Node.getLeafsLoop cs = Node.leafsSpecList cs := by
  induction cs with
  | nil => simp [Node.getLeafsLoop, Node.leafsSpecList]
  | cons c cs ih =>
    rw [Node.getLeafsLoop_cons, Node.leafsSpecList, h c (List.mem_cons_self _ _),
      ih (fun d hd => h d (List.mem_cons_of_mem _ hd))]

theorem Node.getLeafs_eq_leafsSpec (n : Node) : n.getLeafs = n.leafsSpec := by
  induction n using Node.induct with
  | h a t cs ih =>
    cases cs with
    | nil => simp [Node.getLeafs, Node.leafsSpec]
    | cons c cs => rw [Node.getLeafs_inner, Node.leafsSpec, Node.getLeafsLoop_eq_spec _ ih]

theorem Node.count_getLeafsLoop (a : ℤ) (cs : List Node)
    (h : ∀ c ∈ cs, c.getLeafs.count a = c.leafCount a) :
    (Node.getLeafsLoop cs).count a = Node.leafCountList a cs := by
  induction cs with
  | nil => simp [Node.getLeafsLoop, Node.leafCountList]
  | cons c cs ih =>
    rw [Node.getLeafsLoop_cons, Node.leafCountList, List.count_append,
      h c (List.mem_cons_self _ _), ih (fun d hd => h d (List.mem_cons_of_mem _ hd))]

theorem Node.count_getLeafs (a : ℤ) (n : Node) : n.getLeafs.count a = n.leafCount a := by
  induction n using Node.induct with
  | h b t cs ih =>
    cases cs with
    | nil =>
      by_cases hb : b = a
      · simp [Node.getLeafs, Node.leafCount, hb]
      · simp [Node.getLeafs, Node.leafCount, hb, List.count_cons]
    | cons c cs => rw [Node.getLeafs_inner, Node.leafCount, Node.count_getLeafsLoop a _ ih]

theorem Node.nodup_getLeafs_iff (n : Node) : n.getLeafs.Nodup ↔ n.DistinctLeaves := by
  rw [List.nodup_iff_count_le_one]
  unfold Node.DistinctLeaves
  simp only [Node.count_getLeafs]

/-- C9. Leaf enumeration: `getLeafs()` is the list defined recursively as `[attr]` for a leaf and
the left-to-right concatenation of the children's enumerations for an inner node; every leaf
attribute of the tree occurs in it, and it occurs exactly once when the leaf attributes of the
tree are pairwise distinct. -/
theorem getLeafs_enumeration (n : Node) :
    n.getLeafs = n.leafsSpec ∧
    (∀ a, n.HasLeaf a → a ∈ n.getLeafs) ∧
    (n.DistinctLeaves → ∀ a, n.HasLeaf a → n.getLeafs.count a = 1) := by
  refine ⟨Node.getLeafs_eq_leafsSpec n, ?_, ?_⟩
  · intro a ha
    rw [← List.count_pos_iff, Node.count_getLeafs]
    exact ha
  · intro hd a ha
    have h1 := hd a
    unfold Node.HasLeaf at ha
    rw [Node.count_getLeafs]
    omega

theorem examplePolicy_getLeafs : examplePolicy.getLeafs = [1, 2, 3, 4] := by decide

theorem examplePolicy_distinct : examplePolicy.DistinctLeaves := by
  rw [← Node.nodup_getLeafs_iff, examplePolicy_getLeafs]
  decide

/-- Witness for C9 on the policy `(1 OR 2) AND (3 OR 4)` and its leaf `3`. -/
theorem getLeafs_enumeration_witness :
    examplePolicy.HasLeaf 3 ∧ examplePolicy.DistinctLeaves ∧
      examplePolicy.getLeafs = examplePolicy.leafsSpec ∧ (3 : ℤ) ∈ examplePolicy.getLeafs ∧
      examplePolicy.getLeafs.count 3 = 1 :=
  ⟨by decide, examplePolicy_distinct, (getLeafs_enumeration examplePolicy).1,
    (getLeafs_enumeration examplePolicy).2.1 3 (by decide),
    (getLeafs_enumeration examplePolicy).2.2 examplePolicy_distinct 3 (by decide)⟩

/-! ## Lagrange coefficients (`recoverCoefficients`) -/

theorem list_prod_map_range {M : Type} [CommMonoid M] (g : ℕ → M) (t : ℕ) :
    ((List.range t).map g).prod = ∏ j ∈ Finset.range t, g j := by
  induction t with
  | zero => simp
  | succ t ih => rw [List.prod_range_succ, Finset.prod_range_succ, ih]

theorem list_sum_map_range {M : Type} [AddCommMonoid M] (g : ℕ → M) (t : ℕ) :
    ((List.range t).map g).sum = ∑ j ∈ Finset.range t, g j := by
  induction t with
  | zero => simp
  | succ t ih => rw [List.sum_range_succ, Finset.sum_range_succ, ih]

/-- The inner loop of `recoverCoefficients` as a product: the skipped index contributes `1`. -/
theorem foldl_skip_eq_prod (g : ℕ → Zr) (i0 : ℕ) (l : List ℕ) (init : Zr) :
    l.foldl (fun result j0 => if i0 + 1 = j0 + 1 then result else result * g j0) init =
      init * (l.map (fun j0 => if i0 + 1 = j0 + 1 then 1 else g j0)).prod := by
  induction l generalizing init with
  | nil => simp
  | cons j l ih =>
    rw [List.foldl_cons, ih, List.map_cons, List.prod_cons]
    by_cases h : i0 + 1 = j + 1
    · simp [h]
    · simp [h, mul_assoc]

theorem prod_range_skip_eq_prod_erase (t i : ℕ) (F : ℕ → Zr) :
    ∏ j0 ∈ Finset.range t, (if i = j0 + 1 then 1 else F (j0 + 1)) =
      ∏ j ∈ (Finset.Icc 1 t).erase i, F j := by
  rw [← Finset.filter_ne', Finset.prod_filter, Finset.range_eq_Ico, ← Nat.Ico_succ_right]
  rw [← Finset.prod_Ico_add' (fun j => if j ≠ i then F j else 1) 0 t 1]
  apply Finset.prod_congr rfl
  intro x _
  by_cases h : i = x + 1
  · simp [h]
  · have : x + 1 ≠ i := fun h' => h h'.symm
    simp [h, this]

theorem Node.recoverCoefficients_length (n : Node) :
    n.recoverCoefficients.length = n.getThreshold := by
  simp [Node.recoverCoefficients]

theorem Node.recoverCoefficients_getD (n : Node) (i0 : ℕ) (h : i0 < n.getThreshold) :
    n.recoverCoefficients.getD i0 0 = lagrangeAtZero n.getThreshold (i0 + 1) := by
  have hlen : i0 < n.recoverCoefficients.length := by
    rw [Node.recoverCoefficients_length]; exact h
  rw [List.getD_eq_getElem _ _ hlen]
  simp only [Node.recoverCoefficients, List.getElem_map, List.getElem_range]
  rw [foldl_skip_eq_prod (fun j0 => element_set_si (-((j0 : ℤ) + 1)) /
    (element_set_si ((i0 : ℤ) + 1) + element_set_si (-((j0 : ℤ) + 1)))) i0, one_mul,
    list_prod_map_range, lagrangeAtZero,
    ← prod_range_skip_eq_prod_erase n.getThreshold (i0 + 1)
      (fun j => (-(j : Zr)) / (((i0 + 1 : ℕ) : Zr) - (j : Zr)))]
  apply Finset.prod_congr rfl
  intro j0 _
  by_cases hij : i0 + 1 = j0 + 1
  · simp [hij]
  · simp only [hij, if_false, element_set_si]
    push_cast
    ring_nf

/-- C7. For a node with threshold `t`, `recoverCoefficients()` returns exactly `t` scalars, and
its `i`-th entry (1-based) is the product over `j` in `1..t`, `j ≠ i`, of `(-j)/(i-j)` in
`Zr`. -/
theorem recoverCoefficients_formula (n : Node) (i : ℕ) (h1 : 1 ≤ i) (ht : i ≤ n.getThreshold) :
    n.recoverCoefficients.length = n.getThreshold ∧
    n.recoverCoefficients.getD (i - 1) 0 =
      ∏ j ∈ (Finset.Icc 1 n.getThreshold).erase i, (-(j : Zr)) / ((i : Zr) - (j : Zr)) := by
  refine ⟨Node.recoverCoefficients_length n, ?_⟩
  have h := Node.recoverCoefficients_getD n (i - 1) (by omega)
  rw [Nat.sub_add_cancel h1] at h
  exact h

/-- Witness for C7: the second coefficient of the root of `(1 OR 2) AND (3 OR 4)`. -/
theorem recoverCoefficients_formula_witness :
    1 ≤ 2 ∧ 2 ≤ examplePolicy.getThreshold ∧
    examplePolicy.recoverCoefficients.length = examplePolicy.getThreshold ∧
    examplePolicy.recoverCoefficients.getD (2 - 1) 0 =
      ∏ j ∈ (Finset.Icc 1 examplePolicy.getThreshold).erase 2,
        (-(j : Zr)) / (((2 : ℕ) : Zr) - (j : Zr)) :=
  ⟨by decide, by decide,
    recoverCoefficients_formula examplePolicy 2 (by decide) (by decide)⟩

/-! ## Lagrange interpolation at `0` -/

theorem natCast_injOn_Icc (t : ℕ) (ht : t < r) :
    Set.InjOn (fun i : ℕ => (i : Zr)) (↑(Finset.Icc 1 t) : Set ℕ) := by
  intro i hi j hj hij
  simp only [Finset.coe_Icc, Set.mem_Icc] at hi hj
  have h := (ZMod.natCast_eq_natCast_iff' i j r).1 hij
  rwa [Nat.mod_eq_of_lt (by omega), Nat.mod_eq_of_lt (by omega)] at h

theorem eval_zero_basis (t i : ℕ) :
    Polynomial.eval 0 (Lagrange.basis (Finset.Icc 1 t) (fun i : ℕ => (i : Zr)) i) =
      lagrangeAtZero t i := by
  unfold Lagrange.basis lagrangeAtZero
  rw [Polynomial.eval_prod]
  apply Finset.prod_congr rfl
  intro j _
  simp [Lagrange.basisDivisor, div_eq_mul_inv, mul_comm]

/-- The Lagrange weights at `0` for the points `1..t` reconstruct `q(0)` from `q(1..t)` for a
polynomial of degree below `t < r`. -/
theorem lagrangeAtZero_sum (t : ℕ) (ht : t < r) (q : Polynomial Zr) (hq : q.degree < t) :
    ∑ i ∈ Finset.Icc 1 t, lagrangeAtZero t i * q.eval (i : Zr) = q.eval 0 := by
  have hcard : (Finset.Icc 1 t).card = t := by simp
  have h := Lagrange.eq_interpolate (natCast_injOn_Icc t ht)
    (f := q) (by rw [hcard]; exact hq)
  conv_rhs => rw [h]
  rw [Lagrange.interpolate_apply, Polynomial.eval_finset_sum]
  apply Finset.sum_congr rfl
  intro i _
  rw [Polynomial.eval_mul, Polynomial.eval_C, eval_zero_basis, mul_comm]

/-- C6. Lagrange weights reconstruct the value at `0`: for a node with threshold `t`,
`1 ≤ t < r`, and a polynomial `q` over `Zr` of degree at most `t - 1`, the coefficients returned
by `recoverCoefficients()` satisfy `Σ_{i=1..t} λ_i · q(i) = q(0)`. -/
theorem recoverCoefficients_reconstruct (n : Node) (q : Polynomial Zr)
    (h1 : 1 ≤ n.getThreshold) (hr : n.getThreshold < r)
    (hq : q.natDegree ≤ n.getThreshold - 1) :
    ∑ i ∈ Finset.Icc 1 n.getThreshold,
      n.recoverCoefficients.getD (i - 1) 0 * q.eval (i : Zr) = q.eval 0 := by
  have hdeg : q.degree < (n.getThreshold : ℕ) := by
    apply lt_of_le_of_lt Polynomial.degree_le_natDegree
    exact_mod_cast (by omega : q.natDegree < n.getThreshold)
  rw [← lagrangeAtZero_sum n.getThreshold hr q hdeg]
  apply Finset.sum_congr rfl
  intro i hi
  simp only [Finset.mem_Icc] at hi
  have h := Node.recoverCoefficients_getD n (i - 1) (by omega)
  rw [Nat.sub_add_cancel hi.1] at h
  rw [h]

/-- Witness for C6: the root of `(1 OR 2) AND (3 OR 4)` (threshold 2) and `q = X`. -/
theorem recoverCoefficients_reconstruct_witness :
    1 ≤ examplePolicy.getThreshold ∧ examplePolicy.getThreshold < r ∧
    (Polynomial.X : Polynomial Zr).natDegree ≤ examplePolicy.getThreshold - 1 ∧
    ∑ i ∈ Finset.Icc 1 examplePolicy.getThreshold,
      examplePolicy.recoverCoefficients.getD (i - 1) 0 *
        (Polynomial.X : Polynomial Zr).eval (i : Zr) = (Polynomial.X : Polynomial Zr).eval 0 :=
  ⟨by decide, by decide, by rw [Polynomial.natDegree_X]; decide,
    recoverCoefficients_reconstruct examplePolicy Polynomial.X (by decide) (by decide)
      (by rw [Polynomial.natDegree_X]; decide)⟩

/-! ## Shamir split at one node (`splitShares`) -/

theorem foldl_add_eq_sum (g : ℕ → Zr) (l : List ℕ) (init : Zr) :
    l.foldl (fun share power => share + g power) init = init + (l.map g).sum := by
  induction l generalizing init with
  | nil => simp
  | cons k l ih => rw [List.foldl_cons, ih, List.map_cons, List.sum_cons, add_assoc]

/-- The share computed for child index `x`, as a sum over the powers. -/
theorem Node.shareAt_eq_sum (coeff : List Zr) (x : ℕ) :
    Node.shareAt coeff x =
      ∑ k ∈ Finset.range coeff.length,
        element_set_si (doubleToLong (std_pow x k)) * coeff.getD k 0 := by
  unfold Node.shareAt
  rw [foldl_add_eq_sum (fun power =>
    element_set_si (doubleToLong (std_pow x power)) * coeff.getD power 0), zero_add,
    list_sum_map_range]

theorem Node.splitShares_length (n : Node) (s : Zr) (rnd : Rng) :
    (n.splitShares s rnd).1.length = n.children.length := by
  simp [Node.splitShares]

theorem Node.splitShares_getD (n : Node) (s : Zr) (rnd : Rng) (x0 : ℕ)
    (h : x0 < n.children.length) :
    (n.splitShares s rnd).1.getD x0 0 = Node.shareAt (n.splitCoeff s rnd) (x0 + 1) := by
  have hlen : x0 < (n.splitShares s rnd).1.length := by
    rw [Node.splitShares_length]; exact h
  rw [List.getD_eq_getElem _ _ hlen]
  simp [Node.splitShares]

theorem Node.splitCoeff_length (n : Node) (s : Zr) (rnd : Rng) :
    (n.splitCoeff s rnd).length = n.getPolyDegree + 1 := by
  simp [Node.splitCoeff]

theorem std_pow_exact (x k : ℕ) (h : x ^ k < 2 ^ 53) : std_pow x k = x ^ k := by
  unfold std_pow roundToDouble
  rw [if_pos h]

theorem doubleToLong_exact (v : ℕ) (h : v < 2 ^ 63) : doubleToLong v = (v : ℤ) := by
  unfold doubleToLong
  rw [if_pos h]

theorem element_set_si_pow_exact (x k : ℕ) (h : x ^ k < 2 ^ 53) :
    element_set_si (doubleToLong (std_pow x k)) = (x : Zr) ^ k := by
  rw [std_pow_exact x k h, doubleToLong_exact _ (lt_trans h (by norm_num))]
  simp [element_set_si]

/-- Every power computed by `splitShares` is below `2^53`, hence exact in a `double`, when an
`AND` node has at most 14 children (an `OR` node only uses the power `0`). -/
theorem Node.pow_lt_of_small (n : Node) (hsmall : n.type = NodeType.AND → n.children.length ≤ 14)
    (x k : ℕ) (hx : x ≤ n.children.length) (hk : k < n.getPolyDegree + 1) :
    x ^ k < 2 ^ 53 := by
  unfold Node.getPolyDegree Node.getThreshold at hk
  cases ht : n.type with
  | OR =>
    rw [ht] at hk
    have : k = 0 := by simpa using hk
    subst this
    norm_num
  | AND =>
    rw [ht] at hk
    have h14 := hsmall ht
    simp only at hk
    have hk' : k ≤ 13 := by omega
    calc x ^ k ≤ 14 ^ k := Nat.pow_le_pow_left (by omega) k
      _ ≤ 14 ^ 13 := Nat.pow_le_pow_right (by norm_num) hk'
      _ < 2 ^ 53 := by norm_num

/-- Within the exact range of `pow`, the share of child `x` is the value at `x` of the
polynomial with coefficients `coeff`. -/
theorem Node.splitShares_exact (n : Node)
    (hsmall : n.type = NodeType.AND → n.children.length ≤ 14) (s : Zr) (rnd : Rng) (x : ℕ)
    (h1 : 1 ≤ x) (hx : x ≤ n.children.length) :
    (n.splitShares s rnd).1.getD (x - 1) 0 =
      ∑ k ∈ Finset.range (n.getPolyDegree + 1), (n.splitCoeff s rnd).getD k 0 * (x : Zr) ^ k := by
  rw [Node.splitShares_getD n s rnd (x - 1) (by omega), Nat.sub_add_cancel h1,
    Node.shareAt_eq_sum, Node.splitCoeff_length]
  apply Finset.sum_congr rfl
  intro k hk
  rw [element_set_si_pow_exact x k
    (Node.pow_lt_of_small n hsmall x k hx (Finset.mem_range.1 hk)), mul_comm]

theorem std_pow_15_14 : std_pow 15 14 = 29192926025390624 := by
  decide

theorem wideAnd_children_length : wideAnd.children.length = 15 := by
  simp [wideAnd, Node.inner, Node.children]

theorem wideAnd_polyDegree : wideAnd.getPolyDegree = 14 := by
  simp [wideAnd, Node.inner, Node.children, Node.getPolyDegree, Node.getThreshold, Node.type]

theorem wideAnd_splitCoeff_getD (s : Zr) (k : ℕ) (hk : k < 15) :
    (wideAnd.splitCoeff s wideRng).getD k 0 = if k = 0 then s else if k = 14 then 1 else 0 := by
  unfold Node.splitCoeff
  rw [wideAnd_polyDegree]
  cases k with
  | zero => simp
  | succ k =>
    have hk' : k < ((List.range 14).map wideRng).length := by simp; omega
    rw [List.getD_cons_succ, List.getD_eq_getElem _ _ hk']
    simp [wideRng]

theorem zr_natCast_ne (a b : ℕ) (ha : a < r) (hb : b < r) (hab : a ≠ b) :
    (a : Zr) ≠ (b : Zr) := by
  intro h
  have h2 := (ZMod.natCast_eq_natCast_iff' a b r).1 h
  rw [Nat.mod_eq_of_lt ha, Nat.mod_eq_of_lt hb] at h2
  exact hab h2

/-- C8 (failing input). On an `AND` node with 15 children, root secret `0` and sampled
coefficients `c_14 = 1`, `c_1 = … = c_13 = 0`, the share of child `x = 15` computed by
`splitShares` is `29192926025390624` (the `double` nearest to `15^14`), while
`Σ_k c_k · 15^k = 15^14 = 29192926025390625`; the two differ in `Zr`. -/
theorem splitShares_pow_inexact :
    (wideAnd.splitShares 0 wideRng).1.getD 14 0 = ((29192926025390624 : ℕ) : Zr) ∧
    ∑ k ∈ Finset.range 15, (wideAnd.splitCoeff 0 wideRng).getD k 0 * ((15 : ℕ) : Zr) ^ k =
      ((29192926025390625 : ℕ) : Zr) ∧
    (wideAnd.splitShares 0 wideRng).1.getD 14 0 ≠
      ∑ k ∈ Finset.range 15, (wideAnd.splitCoeff 0 wideRng).getD k 0 * ((15 : ℕ) : Zr) ^ k := by
  have hshare : (wideAnd.splitShares 0 wideRng).1.getD 14 0 =
      ((29192926025390624 : ℕ) : Zr) := by
    rw [Node.splitShares_getD wideAnd 0 wideRng 14 (by rw [wideAnd_children_length]; decide),
      Node.shareAt_eq_sum, Node.splitCoeff_length, wideAnd_polyDegree]
    rw [Finset.sum_eq_single 14]
    · rw [wideAnd_splitCoeff_getD 0 14 (by decide), std_pow_15_14,
        doubleToLong_exact _ (by norm_num)]
      simp [element_set_si]
    · intro k hk hne
      rw [wideAnd_splitCoeff_getD 0 k (Finset.mem_range.1 hk)]
      simp [hne]
    · intro h; exact absurd (Finset.mem_range.2 (by decide)) h
  have hsum : ∑ k ∈ Finset.range 15,
      (wideAnd.splitCoeff 0 wideRng).getD k 0 * ((15 : ℕ) : Zr) ^ k =
        ((29192926025390625 : ℕ) : Zr) := by
    rw [Finset.sum_eq_single 14]
    · rw [wideAnd_splitCoeff_getD 0 14 (by decide)]
      norm_num
    · intro k hk hne
      rw [wideAnd_splitCoeff_getD 0 k (Finset.mem_range.1 hk)]
      simp [hne]
    · intro h; exact absurd (Finset.mem_range.2 (by decide)) h
  refine ⟨hshare, hsum, ?_⟩
  rw [hshare, hsum]
  exact zr_natCast_ne _ _ (by decide) (by decide) (by decide)

/-! ## Share propagation (`getSecretShares`) -/

theorem Node.getSecretShares_leaf (a : ℤ) (t : NodeType) (s : Zr) (rnd : Rng) :
    (Node.mk a t []).getSecretShares s rnd = ([s], rnd) := by
  simp [Node.getSecretShares]

theorem Node.getSecretShares_inner (a : ℤ) (t : NodeType) (c : Node) (cs : List Node) (s : Zr)
    (rnd : Rng) :
    (Node.mk a t (c :: cs)).getSecretShares s rnd =
      Node.getSecretSharesLoop (c :: cs) ((Node.mk a t (c :: cs)).splitShares s rnd).1
        ((Node.mk a t (c :: cs)).splitShares s rnd).2 := by
  simp [Node.getSecretShares]

theorem Node.getSecretSharesLoop_cons (c : Node) (cs : List Node) (splits : List Zr)
    (rnd : Rng) :
    Node.getSecretSharesLoop (c :: cs) splits rnd =
      ((c.getSecretShares (splits.headD 0) rnd).1 ++
        (Node.getSecretSharesLoop cs splits.tail (c.getSecretShares (splits.headD 0) rnd).2).1,
       (Node.getSecretSharesLoop cs splits.tail (c.getSecretShares (splits.headD 0) rnd).2).2) := by
  simp [Node.getSecretSharesLoop]

theorem Node.getSecretSharesLoop_spec (cs : List Node) (h : ∀ c ∈ cs, SharesSpec c) :
    ∀ (splits : List Zr) (rnd : Rng),
      (Node.getSecretSharesLoop cs splits rnd).1.length = (Node.getLeafsLoop cs).length ∧
      (Node.getSecretSharesLoop cs splits rnd).2 =
        (fun k => rnd (k + Node.randomDrawsList cs)) ∧
      ∀ i, i < (Node.getLeafsLoop cs).length →
        (Node.getSecretSharesLoop cs splits rnd).1.getD i 0 =
          Node.shareOfLeafList cs splits rnd i := by
  induction cs with
  | nil =>
    intro splits rnd
    simp [Node.getSecretSharesLoop, Node.getLeafsLoop, Node.randomDrawsList]
  | cons c cs ih =>
    intro splits rnd
    obtain ⟨hc1, hc2, hc3⟩ := h c (List.mem_cons_self _ _) (splits.headD 0) rnd
    obtain ⟨ih1, ih2, ih3⟩ := ih (fun d hd => h d (List.mem_cons_of_mem _ hd)) splits.tail
      (c.getSecretShares (splits.headD 0) rnd).2
    rw [Node.getSecretSharesLoop_cons, Node.getLeafsLoop_cons]
    refine ⟨?_, ?_, ?_⟩
    · simp only [List.length_append, hc1, ih1]
    · rw [ih2, hc2]
      funext k
      simp only [Node.randomDrawsList]
      congr 1
      omega
    · intro i hi
      simp only [List.length_append] at hi
      rw [Node.shareOfLeafList]
      by_cases hlt : i < c.getLeafs.length
      · rw [if_pos hlt, List.getD_append _ _ _ _ (by rw [hc1]; exact hlt)]
        exact hc3 i hlt
      · rw [if_neg hlt, List.getD_append_right _ _ _ _ (by rw [hc1]; omega), hc1,
          ih3 (i - c.getLeafs.length) (by omega), hc2]

theorem Node.sharesSpec (n : Node) : SharesSpec n := by
  induction n using Node.induct with
  | h a t cs ih =>
    cases cs with
    | nil =>
      intro s rnd
      simp [Node.getSecretShares, Node.getLeafs, Node.randomDraws, Node.shareOfLeaf]
    | cons c cs =>
      intro s rnd
      rw [Node.getSecretShares_inner, Node.getLeafs_inner]
      obtain ⟨h1, h2, h3⟩ := Node.getSecretSharesLoop_spec (c :: cs) ih
        ((Node.mk a t (c :: cs)).splitShares s rnd).1
        ((Node.mk a t (c :: cs)).splitShares s rnd).2
      refine ⟨h1, ?_, ?_⟩
      · rw [h2]
        funext k
        simp only [Node.splitShares, Node.randomDraws]
        congr 1
        omega
      · intro i hi
        rw [h3 i hi, Node.shareOfLeaf]

/-- C10. Share count and order: `getSecretShares(rootSecret)` has the same length as
`getLeafs()`, its `i`-th entry is the share propagated top-down to the `i`-th leaf of
`getLeafs()`, and at a leaf it is `[rootSecret]`. -/
theorem getSecretShares_count_order (n : Node) (s : Zr) (rnd : Rng) :
    (n.getSecretShares s rnd).1.length = n.getLeafs.length ∧
    (∀ i, i < n.getLeafs.length →
      (n.getSecretShares s rnd).1.getD i 0 = n.shareOfLeaf s rnd i) ∧
    (n.children = [] → (n.getSecretShares s rnd).1 = [s]) := by
  refine ⟨(Node.sharesSpec n s rnd).1, (Node.sharesSpec n s rnd).2.2, ?_⟩
  intro hleaf
  rcases n with ⟨a, t, cs⟩
  simp only [Node.children] at hleaf
  subst hleaf
  rw [Node.getSecretShares_leaf]

theorem getSecretShares_count_order_witness :
    (examplePolicy.getSecretShares 5 (fun _ => 1)).1.length = examplePolicy.getLeafs.length ∧
    (2 < examplePolicy.getLeafs.length ∧
      (examplePolicy.getSecretShares 5 (fun _ => 1)).1.getD 2 0 =
        examplePolicy.shareOfLeaf 5 (fun _ => 1) 2) ∧
    ((Node.leaf 7).children = [] ∧ ((Node.leaf 7).getSecretShares 5 (fun _ => 1)).1 = [5]) :=
  ⟨(getSecretShares_count_order examplePolicy 5 (fun _ => 1)).1,
    ⟨by decide, (getSecretShares_count_order examplePolicy 5 (fun _ => 1)).2.1 2 (by decide)⟩,
    ⟨rfl, (getSecretShares_count_order (Node.leaf 7) 5 (fun _ => 1)).2.2 rfl⟩⟩

/-! ## Policy evaluation and the satisfaction search -/

theorem Node.satisfyingAttributes_leaf (a : ℤ) (t : NodeType) (attributes : List ℤ) (c : Zr) :
    (Node.mk a t []).satisfyingAttributes attributes c =
      if a ∈ attributes then [(a, c)] else [] := by
  simp [Node.satisfyingAttributes]

theorem Node.satisfyingAttributes_and (a : ℤ) (d : Node) (ds : List Node)
    (attributes : List ℤ) (c : Zr) :
    (Node.mk a NodeType.AND (d :: ds)).satisfyingAttributes attributes c =
      if (Node.satisfyingAttributesAnd (d :: ds) attributes c
          (Node.mk a NodeType.AND (d :: ds)).recoverCoefficients 0 []).1
      then (Node.satisfyingAttributesAnd (d :: ds) attributes c
          (Node.mk a NodeType.AND (d :: ds)).recoverCoefficients 0 []).2
      else [] := by
  simp [Node.satisfyingAttributes]

theorem Node.satisfyingAttributes_or (a : ℤ) (d : Node) (ds : List Node)
    (attributes : List ℤ) (c : Zr) :
    (Node.mk a NodeType.OR (d :: ds)).satisfyingAttributes attributes c =
      Node.satisfyingAttributesOr (d :: ds) attributes
        ((Node.mk a NodeType.OR (d :: ds)).recoverCoefficients.getD 0 0 * c) := by
  simp [Node.satisfyingAttributes]

theorem Node.satisfyingAttributesAnd_cons (child : Node) (rest : List Node)
    (attributes : List ℤ) (c : Zr) (rec : List Zr) (i : ℕ) (total : List (ℤ × Zr)) :
    Node.satisfyingAttributesAnd (child :: rest) attributes c rec i total =
      if child.satisfyingAttributes attributes (rec.getD i 0 * c) = [] then (false, total)
      else Node.satisfyingAttributesAnd rest attributes c rec (i + 1)
        (total ++ child.satisfyingAttributes attributes (rec.getD i 0 * c)) := by
  simp [Node.satisfyingAttributesAnd]

theorem Node.satisfyingAttributesOr_cons (child : Node) (rest : List Node)
    (attributes : List ℤ) (c0 : Zr) :
    Node.satisfyingAttributesOr (child :: rest) attributes c0 =
      if child.satisfyingAttributes attributes c0 = [] then
        Node.satisfyingAttributesOr rest attributes c0
      else child.satisfyingAttributes attributes c0 := by
  by_cases h : child.satisfyingAttributes attributes c0 = []
  · simp [Node.satisfyingAttributesOr, h]
  · simp [Node.satisfyingAttributesOr, h]

/-- The accumulator of the `AND` loop is a prefix of its result and does not influence the
rest. -/
theorem Node.satisfyingAttributesAnd_acc (cs : List Node) (attributes : List ℤ) (c : Zr)
    (rec : List Zr) :
    ∀ (i : ℕ) (total : List (ℤ × Zr)),
      Node.satisfyingAttributesAnd cs attributes c rec i total =
        ((Node.satisfyingAttributesAnd cs attributes c rec i []).1,
          total ++ (Node.satisfyingAttributesAnd cs attributes c rec i []).2) := by
  induction cs with
  | nil => intro i total; simp [Node.satisfyingAttributesAnd]
  | cons child rest ih =>
    intro i total
    rw [Node.satisfyingAttributesAnd_cons, Node.satisfyingAttributesAnd_cons]
    by_cases h : child.satisfyingAttributes attributes (rec.getD i 0 * c) = []
    · rw [if_pos h, if_pos h, List.append_nil]
    · rw [if_neg h, if_neg h, ih (i + 1) (total ++ _), ih (i + 1) ([] ++ _), List.nil_append,
        List.append_assoc]

/-- One step of the `AND` loop from an empty accumulator. -/
theorem Node.satisfyingAttributesAnd_step (child : Node) (rest : List Node)
    (attributes : List ℤ) (c : Zr) (rec : List Zr) (i : ℕ) :
    Node.satisfyingAttributesAnd (child :: rest) attributes c rec i [] =
      if child.satisfyingAttributes attributes (rec.getD i 0 * c) = [] then (false, [])
      else ((Node.satisfyingAttributesAnd rest attributes c rec (i + 1) []).1,
        child.satisfyingAttributes attributes (rec.getD i 0 * c) ++
          (Node.satisfyingAttributesAnd rest attributes c rec (i + 1) []).2) := by
  rw [Node.satisfyingAttributesAnd_cons]
  by_cases h : child.satisfyingAttributes attributes (rec.getD i 0 * c) = []
  · rw [if_pos h, if_pos h]
  · rw [if_neg h, if_neg h, Node.satisfyingAttributesAnd_acc]
    simp

theorem Node.satisfyingAttributesAnd_fst (attributes : List ℤ) (c : Zr) (rec : List Zr)
    (cs : List Node) (h : ∀ d ∈ cs, SatDecides attributes d) :
    ∀ i, (Node.satisfyingAttributesAnd cs attributes c rec i []).1 = true ↔
      Node.evalAll attributes cs = true := by
  induction cs with
  | nil => intro i; simp [Node.satisfyingAttributesAnd, Node.evalAll]
  | cons child rest ih =>
    intro i
    have hc := h child (List.mem_cons_self _ _) (rec.getD i 0 * c)
    have ih' := ih (fun d hd => h d (List.mem_cons_of_mem _ hd)) (i + 1)
    rw [Node.satisfyingAttributesAnd_step, Node.evalAll, Bool.and_eq_true]
    by_cases hs : child.satisfyingAttributes attributes (rec.getD i 0 * c) = []
    · rw [if_pos hs]
      have : ¬ child.eval attributes = true := fun he => (hc.2 he) hs
      simp [this]
    · rw [if_neg hs]
      simp only [ih', hc.1 hs, true_and]

theorem Node.satisfyingAttributesAnd_snd_ne_nil (attributes : List ℤ) (c : Zr) (rec : List Zr)
    (child : Node) (rest : List Node) (i : ℕ)
    (h : (Node.satisfyingAttributesAnd (child :: rest) attributes c rec i []).1 = true) :
    (Node.satisfyingAttributesAnd (child :: rest) attributes c rec i []).2 ≠ [] := by
  rw [Node.satisfyingAttributesAnd_step] at h ⊢
  by_cases hs : child.satisfyingAttributes attributes (rec.getD i 0 * c) = []
  · rw [if_pos hs] at h; simp at h
  · rw [if_neg hs]
    intro h2
    exact hs (List.append_eq_nil.1 h2).1

theorem Node.satisfyingAttributesOr_ne_nil (attributes : List ℤ) (c0 : Zr) (cs : List Node)
    (h : ∀ d ∈ cs, SatDecides attributes d) :
    Node.satisfyingAttributesOr cs attributes c0 ≠ [] ↔ Node.evalAny attributes cs = true := by
  induction cs with
  | nil => simp [Node.satisfyingAttributesOr, Node.evalAny]
  | cons child rest ih =>
    have hc := h child (List.mem_cons_self _ _) c0
    have ih' := ih (fun d hd => h d (List.mem_cons_of_mem _ hd))
    rw [Node.satisfyingAttributesOr_cons, Node.evalAny, Bool.or_eq_true]
    by_cases hs : child.satisfyingAttributes attributes c0 = []
    · rw [if_pos hs, ih']
      have : ¬ child.eval attributes = true := fun he => (hc.2 he) hs
      simp [this]
    · rw [if_neg hs]
      simp [hs, hc.1 hs]

theorem Node.satDecides (attributes : List ℤ) (n : Node) : SatDecides attributes n := by
  induction n using Node.induct with
  | h a t cs ih =>
    intro c
    cases cs with
    | nil =>
      rw [Node.satisfyingAttributes_leaf, Node.eval]
      by_cases hm : a ∈ attributes
      · simp [hm]
      · simp [hm]
    | cons d ds =>
      cases t with
      | AND =>
        rw [Node.satisfyingAttributes_and, Node.eval]
        rw [← Node.satisfyingAttributesAnd_fst attributes c
          (Node.mk a NodeType.AND (d :: ds)).recoverCoefficients (d :: ds) ih 0]
        by_cases hb : (Node.satisfyingAttributesAnd (d :: ds) attributes c
            (Node.mk a NodeType.AND (d :: ds)).recoverCoefficients 0 []).1 = true
        · rw [if_pos hb]
          simp only [hb, iff_true]
          exact Node.satisfyingAttributesAnd_snd_ne_nil attributes c _ d ds 0 hb
        · rw [if_neg hb]
          simp [hb]
      | OR =>
        rw [Node.satisfyingAttributes_or, Node.eval]
        exact Node.satisfyingAttributesOr_ne_nil attributes _ (d :: ds) ih

/-- C5. Satisfaction search decides the policy: for every policy tree, attribute list and
scalar `currentCoeff`, `satisfyingAttributes(attrs, currentCoeff)` is non-empty if and only if
the policy evaluates to true on `attrs` (leaf: its attribute is in `attrs`; `AND`: all children
true; `OR`: at least one child true). In the source a node without children is a leaf, so the
side condition that inner nodes have a child holds for every `Node`. -/
theorem satisfyingAttributes_decides (n : Node) (attributes : List ℤ) (currentCoeff : Zr) :
    n.satisfyingAttributes attributes currentCoeff ≠ [] ↔ n.eval attributes = true :=
  Node.satDecides attributes n currentCoeff

/-! ## The gate of `recoverSecret` and `decrypt` -/

theorem recoverSecret_unsat {G : Type} [Monoid G] (key : DecryptionKey) (Cw : Cw_t G)
    (attributes : List ℤ) (h : key.accessPolicy.eval attributes = false) :
    recoverSecret key Cw attributes = Except.error Error.UnsatError := by
  have hnil : key.accessPolicy.satisfyingAttributes attributes 1 = [] := by
    by_contra hne
    have := (Node.satDecides attributes key.accessPolicy 1).1 hne
    rw [h] at this
    exact Bool.false_ne_true this
  unfold recoverSecret
  simp [hnil]

/-- C4. Soundness of the gate: when the key's policy evaluates to false on `attrs`,
`recoverSecret` and `decrypt` raise `UnsatError` and produce no result, whatever `Cw` and the
ciphertext bytes are. -/
theorem unsat_raises {G : Type} [Monoid G] (sym : SymLayer G) (key : DecryptionKey)
    (Cw : Cw_t G) (attributes : List ℤ) (ciphertext : List Byte)
    (h : key.accessPolicy.eval attributes = false) :
    recoverSecret key Cw attributes = Except.error Error.UnsatError ∧
    decrypt sym key Cw attributes ciphertext = Except.error Error.UnsatError := by
  refine ⟨recoverSecret_unsat key Cw attributes h, ?_⟩
  unfold decrypt
  rw [recoverSecret_unsat key Cw attributes h]

/-- Witness for C4: the policy `(1 OR 2) AND (3 OR 4)` and the attribute list `[1]`, as in
`main`. -/
theorem unsat_raises_witness :
    examplePolicy.eval [1] = false ∧
    recoverSecret (G := Multiplicative Zr)
      { accessPolicy := examplePolicy, Di := ElementMap.empty } ElementMap.empty [1] =
        Except.error Error.UnsatError ∧
    decrypt (plainSym (Multiplicative Zr))
      { accessPolicy := examplePolicy, Di := ElementMap.empty } ElementMap.empty [1] [] =
        Except.error Error.UnsatError :=
  ⟨by decide,
    unsat_raises (plainSym (Multiplicative Zr))
      { accessPolicy := examplePolicy, Di := ElementMap.empty } ElementMap.empty [1] []
      (by decide)⟩

/-! ## Secret reconstruction -/

theorem reconSum_nil (leafs : List ℤ) (shares : List Zr) : reconSum leafs shares [] = 0 := by
  simp [reconSum]

theorem reconSum_append (leafs : List ℤ) (shares : List Zr) (s1 s2 : List (ℤ × Zr)) :
    reconSum leafs shares (s1 ++ s2) = reconSum leafs shares s1 + reconSum leafs shares s2 := by
  simp [reconSum]

theorem lookupShare_append_left (L1 L2 : List ℤ) (S1 S2 : List Zr) (a : ℤ)
    (hlen : S1.length = L1.length) (ha : a ∈ L1) :
    lookupShare (L1 ++ L2) (S1 ++ S2) a = lookupShare L1 S1 a := by
  unfold lookupShare
  rw [List.indexOf_append_of_mem ha,
    List.getD_append _ _ _ _ (by rw [hlen]; exact List.indexOf_lt_length.2 ha)]

theorem lookupShare_append_right (L1 L2 : List ℤ) (S1 S2 : List Zr) (a : ℤ)
    (hlen : S1.length = L1.length) (ha : a ∉ L1) :
    lookupShare (L1 ++ L2) (S1 ++ S2) a = lookupShare L2 S2 a := by
  unfold lookupShare
  rw [List.indexOf_append_of_not_mem ha,
    List.getD_append_right _ _ _ _ (by rw [hlen]; omega), hlen, Nat.add_sub_cancel_left]

theorem reconSum_append_left (L1 L2 : List ℤ) (S1 S2 : List Zr) (sat : List (ℤ × Zr))
    (hlen : S1.length = L1.length) (h : ∀ p ∈ sat, p.1 ∈ L1) :
    reconSum (L1 ++ L2) (S1 ++ S2) sat = reconSum L1 S1 sat := by
  unfold reconSum
  congr 1
  apply List.map_congr_left
  intro p hp
  rw [lookupShare_append_left L1 L2 S1 S2 p.1 hlen (h p hp)]

theorem reconSum_append_right (L1 L2 : List ℤ) (S1 S2 : List Zr) (sat : List (ℤ × Zr))
    (hlen : S1.length = L1.length) (h : ∀ p ∈ sat, p.1 ∉ L1) :
    reconSum (L1 ++ L2) (S1 ++ S2) sat = reconSum L2 S2 sat := by
  unfold reconSum
  congr 1
  apply List.map_congr_left
  intro p hp
  rw [lookupShare_append_right L1 L2 S1 S2 p.1 hlen (h p hp)]

theorem Node.satisfyingAttributesAnd_subset (attributes : List ℤ) (c : Zr) (rec : List Zr)
    (cs : List Node) (h : ∀ d ∈ cs, SatSubset attributes d) :
    ∀ i, ∀ p ∈ (Node.satisfyingAttributesAnd cs attributes c rec i []).2,
      p.1 ∈ Node.getLeafsLoop cs ∧ p.1 ∈ attributes := by
  induction cs with
  | nil => intro i p hp; simp [Node.satisfyingAttributesAnd] at hp
  | cons child rest ih =>
    intro i p hp
    rw [Node.satisfyingAttributesAnd_step] at hp
    rw [Node.getLeafsLoop_cons]
    by_cases hs : child.satisfyingAttributes attributes (rec.getD i 0 * c) = []
    · rw [if_pos hs] at hp; cases hp
    · rw [if_neg hs] at hp
      rcases List.mem_append.1 hp with hp | hp
      · have := h child (List.mem_cons_self _ _) _ p hp
        exact ⟨List.mem_append_left _ this.1, this.2⟩
      · have := ih (fun d hd => h d (List.mem_cons_of_mem _ hd)) (i + 1) p hp
        exact ⟨List.mem_append_right _ this.1, this.2⟩

theorem Node.satisfyingAttributesOr_subset (attributes : List ℤ) (c0 : Zr)
    (cs : List Node) (h : ∀ d ∈ cs, SatSubset attributes d) :
    ∀ p ∈ Node.satisfyingAttributesOr cs attributes c0,
      p.1 ∈ Node.getLeafsLoop cs ∧ p.1 ∈ attributes := by
  induction cs with
  | nil => intro p hp; simp [Node.satisfyingAttributesOr] at hp
  | cons child rest ih =>
    intro p hp
    rw [Node.satisfyingAttributesOr_cons] at hp
    rw [Node.getLeafsLoop_cons]
    by_cases hs : child.satisfyingAttributes attributes c0 = []
    · rw [if_pos hs] at hp
      have := ih (fun d hd => h d (List.mem_cons_of_mem _ hd)) p hp
      exact ⟨List.mem_append_right _ this.1, this.2⟩
    · rw [if_neg hs] at hp
      have := h child (List.mem_cons_self _ _) _ p hp
      exact ⟨List.mem_append_left _ this.1, this.2⟩

theorem Node.satSubset (attributes : List ℤ) (n : Node) : SatSubset attributes n := by
  induction n using Node.induct with
  | h a t cs ih =>
    intro c p hp
    cases cs with
    | nil =>
      rw [Node.satisfyingAttributes_leaf] at hp
      by_cases hm : a ∈ attributes
      · rw [if_pos hm] at hp
        have : p = (a, c) := by simpa using hp
        subst this
        simp [Node.getLeafs, hm]
      · rw [if_neg hm] at hp; cases hp
    | cons d ds =>
      rw [Node.getLeafs_inner]
      cases t with
      | AND =>
        rw [Node.satisfyingAttributes_and] at hp
        by_cases hb : (Node.satisfyingAttributesAnd (d :: ds) attributes c
            (Node.mk a NodeType.AND (d :: ds)).recoverCoefficients 0 []).1 = true
        · rw [if_pos hb] at hp
          exact Node.satisfyingAttributesAnd_subset attributes c _ (d :: ds) ih 0 p hp
        · rw [if_neg hb] at hp; cases hp
      | OR =>
        rw [Node.satisfyingAttributes_or] at hp
        exact Node.satisfyingAttributesOr_subset attributes _ (d :: ds) ih p hp

theorem list_headD_eq_getD (l : List Zr) : l.headD 0 = l.getD 0 0 := by
  cases l <;> simp

theorem list_tail_getD (l : List Zr) (j : ℕ) : l.tail.getD j 0 = l.getD (j + 1) 0 := by
  cases l <;> simp

/-- The `AND` loop: the reconstruction sum over the children is the sum of the coefficients
passed down times the secrets passed down. -/
theorem Node.and_recon (attributes : List ℤ) (c : Zr) (rec : List Zr) (cs : List Node)
    (hIH : ∀ d ∈ cs, ReconAt attributes d) :
    ∀ (i : ℕ) (splits : List Zr) (rnd : Rng), (Node.getLeafsLoop cs).Nodup →
      (Node.satisfyingAttributesAnd cs attributes c rec i []).1 = true →
      reconSum (Node.getLeafsLoop cs) (Node.getSecretSharesLoop cs splits rnd).1
        (Node.satisfyingAttributesAnd cs attributes c rec i []).2 =
        ∑ j ∈ Finset.range cs.length, (rec.getD (i + j) 0 * c) * splits.getD j 0 := by
  induction cs with
  | nil =>
    intro i splits rnd _ _
    simp [Node.satisfyingAttributesAnd, reconSum]
  | cons child rest ih =>
    intro i splits rnd hnd hb
    rw [Node.satisfyingAttributesAnd_step] at hb ⊢
    rw [Node.getLeafsLoop_cons] at hnd ⊢
    rw [Node.getSecretSharesLoop_cons]
    by_cases hs : child.satisfyingAttributes attributes (rec.getD i 0 * c) = []
    · rw [if_pos hs] at hb; simp at hb
    · rw [if_neg hs] at hb ⊢
      simp only at hb ⊢
      obtain ⟨hnd1, hnd2, hdisj⟩ := List.nodup_append.1 hnd
      have hlen := (Node.sharesSpec child (splits.headD 0) rnd).1
      rw [reconSum_append]
      rw [reconSum_append_left _ _ _ _ _ hlen
        (fun p hp => (Node.satSubset attributes child _ p hp).1)]
      rw [reconSum_append_right _ _ _ _ _ hlen (fun p hp hin =>
        hdisj hin (Node.satisfyingAttributesAnd_subset attributes c rec rest
          (fun d _ => Node.satSubset attributes d) (i + 1) p hp).1)]
      rw [hIH child (List.mem_cons_self _ _) _ _ _ hnd1 hs]
      rw [ih (fun d hd => hIH d (List.mem_cons_of_mem _ hd)) (i + 1) splits.tail _ hnd2 hb]
      rw [List.length_cons, Finset.sum_range_succ', list_headD_eq_getD, add_zero, add_comm]
      congr 1
      apply Finset.sum_congr rfl
      intro j _
      rw [list_tail_getD, add_assoc, add_comm 1 j]

/-- The `OR` loop: when every child receives the same secret `s`, the reconstruction sum of the
winning child is `c0 · s`. -/
theorem Node.or_recon (attributes : List ℤ) (c0 s : Zr) (cs : List Node)
    (hIH : ∀ d ∈ cs, ReconAt attributes d) :
    ∀ (splits : List Zr) (rnd : Rng), (Node.getLeafsLoop cs).Nodup →
      (∀ j, j < cs.length → splits.getD j 0 = s) →
      Node.satisfyingAttributesOr cs attributes c0 ≠ [] →
      reconSum (Node.getLeafsLoop cs) (Node.getSecretSharesLoop cs splits rnd).1
        (Node.satisfyingAttributesOr cs attributes c0) = c0 * s := by
  induction cs with
  | nil =>
    intro splits rnd _ _ hne
    simp [Node.satisfyingAttributesOr] at hne
  | cons child rest ih =>
    intro splits rnd hnd hsp hne
    rw [Node.satisfyingAttributesOr_cons] at hne ⊢
    rw [Node.getLeafsLoop_cons] at hnd ⊢
    rw [Node.getSecretSharesLoop_cons]
    obtain ⟨hnd1, hnd2, hdisj⟩ := List.nodup_append.1 hnd
    have hlen := (Node.sharesSpec child (splits.headD 0) rnd).1
    by_cases hs : child.satisfyingAttributes attributes c0 = []
    · rw [if_pos hs] at hne ⊢
      simp only
      rw [reconSum_append_right _ _ _ _ _ hlen (fun p hp hin =>
        hdisj hin (Node.satisfyingAttributesOr_subset attributes c0 rest
          (fun d _ => Node.satSubset attributes d) p hp).1)]
      refine ih (fun d hd => hIH d (List.mem_cons_of_mem _ hd)) splits.tail _ hnd2 ?_ hne
      intro j hj
      rw [list_tail_getD]
      exact hsp (j + 1) (by simp only [List.length_cons]; omega)
    · rw [if_neg hs]
      simp only
      rw [reconSum_append_left _ _ _ _ _ hlen
        (fun p hp => (Node.satSubset attributes child _ p hp).1)]
      rw [hIH child (List.mem_cons_self _ _) _ _ _ hnd1 hs, list_headD_eq_getD,
        hsp 0 (by simp)]

/-- Shamir sharing followed by Lagrange recovery at one node: for `1 ≤ t < r`, the weights at
`0` applied to the values at `1..t` of the polynomial with coefficients `coeff 0 .. coeff (t-1)`
give `coeff 0`. -/
theorem shamir_lagrange (t : ℕ) (h1 : 1 ≤ t) (ht : t < r) (coeff : ℕ → Zr) :
    ∑ i ∈ Finset.Icc 1 t,
      lagrangeAtZero t i * (∑ k ∈ Finset.range t, coeff k * (i : Zr) ^ k) = coeff 0 := by
  let q : Polynomial Zr := ∑ k ∈ Finset.range t, Polynomial.C (coeff k) * Polynomial.X ^ k
  have hdeg : q.degree < t := by
    have := Polynomial.degree_sum_fin_lt (fun k : Fin t => coeff k)
    rwa [← Finset.sum_range (fun k => Polynomial.C (coeff k) * Polynomial.X ^ k)] at this
  have heval : ∀ x : Zr, q.eval x = ∑ k ∈ Finset.range t, coeff k * x ^ k := by
    intro x
    simp [q, Polynomial.eval_finset_sum]
  have h0 : q.eval 0 = coeff 0 := by
    rw [heval, Finset.sum_eq_single 0]
    · simp
    · intro k _ hk
      simp [hk]
    · intro h
      exact absurd (Finset.mem_range.2 (by omega)) h
  rw [← h0, ← lagrangeAtZero_sum t ht q hdeg]
  apply Finset.sum_congr rfl
  intro i _
  rw [heval]

theorem sum_range_eq_sum_Icc (t : ℕ) (F : ℕ → Zr) :
    ∑ j ∈ Finset.range t, F (j + 1) = ∑ i ∈ Finset.Icc 1 t, F i := by
  rw [Finset.range_eq_Ico, ← Nat.Ico_succ_right, ← Finset.sum_Ico_add' F 0 t 1]

theorem Node.splitCoeff_getD_zero (n : Node) (s : Zr) (rnd : Rng) :
    (n.splitCoeff s rnd).getD 0 0 = s := by
  simp [Node.splitCoeff]

/-- At an `AND` node with at most 14 children, the weights of `recoverCoefficients` applied to
the shares of `splitShares` give back the secret. -/
theorem Node.and_local (a : ℤ) (cs : List Node) (hne : cs ≠ []) (hsmall : cs.length ≤ 14)
    (s : Zr) (rnd : Rng) (c : Zr) :
    ∑ j ∈ Finset.range cs.length,
      ((Node.mk a NodeType.AND cs).recoverCoefficients.getD (0 + j) 0 * c) *
        ((Node.mk a NodeType.AND cs).splitShares s rnd).1.getD j 0 = c * s := by
  have hlen : 1 ≤ cs.length := by
    cases cs with
    | nil => exact absurd rfl hne
    | cons d ds => simp
  have hthr : (Node.mk a NodeType.AND cs).getThreshold = cs.length := by
    simp [Node.getThreshold, Node.type, Node.children]
  have hdeg : (Node.mk a NodeType.AND cs).getPolyDegree + 1 = cs.length := by
    unfold Node.getPolyDegree
    rw [hthr]
    omega
  have hchild : (Node.mk a NodeType.AND cs).children.length = cs.length := by
    simp [Node.children]
  have hstep : ∀ j ∈ Finset.range cs.length,
      ((Node.mk a NodeType.AND cs).recoverCoefficients.getD (0 + j) 0 * c) *
        ((Node.mk a NodeType.AND cs).splitShares s rnd).1.getD j 0 =
      c * (lagrangeAtZero cs.length (j + 1) *
        (∑ k ∈ Finset.range cs.length,
          ((Node.mk a NodeType.AND cs).splitCoeff s rnd).getD k 0 * ((j + 1 : ℕ) : Zr) ^ k)) := by
    intro j hj
    have hj' := Finset.mem_range.1 hj
    rw [zero_add, Node.recoverCoefficients_getD _ j (by rw [hthr]; exact hj'), hthr]
    have hx := Node.splitShares_exact (Node.mk a NodeType.AND cs)
      (fun _ => by rw [hchild]; exact hsmall) s rnd (j + 1) (by omega)
      (by rw [hchild]; omega)
    rw [Nat.add_sub_cancel, hdeg] at hx
    rw [hx]
    ring
  rw [Finset.sum_congr rfl hstep, ← Finset.mul_sum,
    sum_range_eq_sum_Icc cs.length (fun i => lagrangeAtZero cs.length i *
      (∑ k ∈ Finset.range cs.length,
        ((Node.mk a NodeType.AND cs).splitCoeff s rnd).getD k 0 * ((i : ℕ) : Zr) ^ k)),
    shamir_lagrange cs.length hlen (lt_of_le_of_lt hsmall (by decide))
      (fun k => ((Node.mk a NodeType.AND cs).splitCoeff s rnd).getD k 0),
    Node.splitCoeff_getD_zero]

theorem lagrangeAtZero_one_one : lagrangeAtZero 1 1 = 1 := by
  simp [lagrangeAtZero]

/-- At an `OR` node the single weight is `1` and every child receives the secret itself. -/
theorem Node.or_local (a : ℤ) (cs : List Node) (s : Zr) (rnd : Rng) :
    (Node.mk a NodeType.OR cs).recoverCoefficients.getD 0 0 = 1 ∧
    ∀ j, j < cs.length → ((Node.mk a NodeType.OR cs).splitShares s rnd).1.getD j 0 = s := by
  have hthr : (Node.mk a NodeType.OR cs).getThreshold = 1 := by
    simp [Node.getThreshold, Node.type]
  have hchild : (Node.mk a NodeType.OR cs).children.length = cs.length := by
    simp [Node.children]
  constructor
  · rw [Node.recoverCoefficients_getD _ 0 (by rw [hthr]; decide), hthr]
    exact lagrangeAtZero_one_one
  · intro j hj
    have hx := Node.splitShares_exact (Node.mk a NodeType.OR cs)
      (fun h => by simp [Node.type] at h) s rnd (j + 1) (by omega) (by rw [hchild]; omega)
    rw [Nat.add_sub_cancel] at hx
    rw [hx]
    unfold Node.getPolyDegree
    rw [hthr, Nat.sub_self, zero_add, Finset.sum_range_one, pow_zero, mul_one,
      Node.splitCoeff_getD_zero]

theorem Node.powExact_mk (a : ℤ) (t : NodeType) (cs : List Node)
    (h : (Node.mk a t cs).powExact = true) :
    (t = NodeType.AND → cs.length ≤ 14) ∧ ∀ d ∈ cs, d.powExact = true := by
  rw [Node.powExact, Bool.and_eq_true, decide_eq_true_eq] at h
  refine ⟨h.1, ?_⟩
  have h2 := h.2
  clear h
  induction cs with
  | nil => intro d hd; cases hd
  | cons e es ih =>
    rw [Node.powExactList, Bool.and_eq_true] at h2
    intro d hd
    rcases List.mem_cons.1 hd with rfl | hd
    · exact h2.1
    · exact ih h2.2 d hd

/-- Secret reconstruction on a subtree in which every power of `splitShares` is exact. -/
theorem Node.reconAt_of_powExact (attributes : List ℤ) (n : Node) :
    n.powExact = true → ReconAt attributes n := by
  induction n using Node.induct with
  | h a t cs ih =>
    intro hex s rnd c hnd hne
    obtain ⟨hsmall, hchildren⟩ := Node.powExact_mk a t cs hex
    have hIH : ∀ d ∈ cs, ReconAt attributes d := fun d hd => ih d hd (hchildren d hd)
    cases cs with
    | nil =>
      rw [Node.satisfyingAttributes_leaf] at hne ⊢
      by_cases hm : a ∈ attributes
      · rw [if_pos hm]
        simp [reconSum, lookupShare, Node.getLeafs, Node.getSecretShares, mul_comm]
      · rw [if_neg hm] at hne; exact absurd rfl hne
    | cons d ds =>
      rw [Node.getLeafs_inner] at hnd ⊢
      rw [Node.getSecretShares_inner]
      cases t with
      | AND =>
        rw [Node.satisfyingAttributes_and] at hne ⊢
        by_cases hb : (Node.satisfyingAttributesAnd (d :: ds) attributes c
            (Node.mk a NodeType.AND (d :: ds)).recoverCoefficients 0 []).1 = true
        · rw [if_pos hb]
          rw [Node.and_recon attributes c _ (d :: ds) hIH 0 _ _ hnd hb]
          exact Node.and_local a (d :: ds) (List.cons_ne_nil _ _) (hsmall rfl) s rnd c
        · rw [if_neg hb] at hne; exact absurd rfl hne
      | OR =>
        rw [Node.satisfyingAttributes_or] at hne ⊢
        obtain ⟨h1, h2⟩ := Node.or_local a (d :: ds) s rnd
        rw [Node.or_recon attributes _ s (d :: ds) hIH _ _ hnd h2 hne, h1, one_mul]

/-- Secret reconstruction for policies in the exact range of `pow`: with pairwise distinct leaf
attributes and a non-empty search result, `Σ share_a · λ = rootSecret`. -/
theorem Node.reconstruct_of_powExact (n : Node) (rootSecret : Zr) (rnd : Rng)
    (attributes : List ℤ) (hex : n.powExact = true) (hd : n.getLeafs.Nodup)
    (hsat : n.satisfyingAttributes attributes 1 ≠ []) :
    n.reconstruct rootSecret rnd attributes = rootSecret := by
  unfold Node.reconstruct
  rw [Node.reconAt_of_powExact attributes n hex rootSecret rnd 1 hd hsat, one_mul]

theorem zr_natCast_ne_zero (a : ℕ) (h0 : 0 < a) (ha : a < r) : (a : Zr) ≠ 0 := by
  have h := zr_natCast_ne a 0 ha (by decide) (by omega)
  simpa using h

/-- The Lagrange weights at `0` for the points `1..t`, `t < r`, are non-zero. -/
theorem lagrangeAtZero_ne_zero (t i : ℕ) (hi : i ≤ t) (ht : t < r) :
    lagrangeAtZero t i ≠ 0 := by
  unfold lagrangeAtZero
  rw [Finset.prod_ne_zero_iff]
  intro j hj
  rw [Finset.mem_erase, Finset.mem_Icc] at hj
  apply div_ne_zero
  · exact neg_ne_zero.2 (zr_natCast_ne_zero j (by omega) (by omega))
  · rw [sub_ne_zero]
    exact zr_natCast_ne i j (by omega) (by omega) (fun h => hj.1 h.symm)

theorem Node.getLeafs_of_ne_nil (a : ℤ) (t : NodeType) (cs : List Node) (h : cs ≠ []) :
    (Node.mk a t cs).getLeafs = Node.getLeafsLoop cs := by
  cases cs with
  | nil => exact absurd rfl h
  | cons d ds => exact Node.getLeafs_inner a t d ds

theorem Node.getSecretShares_of_ne_nil (a : ℤ) (t : NodeType) (cs : List Node) (h : cs ≠ [])
    (s : Zr) (rnd : Rng) :
    (Node.mk a t cs).getSecretShares s rnd =
      Node.getSecretSharesLoop cs ((Node.mk a t cs).splitShares s rnd).1
        ((Node.mk a t cs).splitShares s rnd).2 := by
  cases cs with
  | nil => exact absurd rfl h
  | cons d ds => exact Node.getSecretShares_inner a t d ds s rnd

theorem Node.satisfyingAttributes_and_of_ne_nil (a : ℤ) (cs : List Node) (h : cs ≠ [])
    (attributes : List ℤ) (c : Zr) :
    (Node.mk a NodeType.AND cs).satisfyingAttributes attributes c =
      if (Node.satisfyingAttributesAnd cs attributes c
          (Node.mk a NodeType.AND cs).recoverCoefficients 0 []).1
      then (Node.satisfyingAttributesAnd cs attributes c
          (Node.mk a NodeType.AND cs).recoverCoefficients 0 []).2
      else [] := by
  cases cs with
  | nil => exact absurd rfl h
  | cons d ds => exact Node.satisfyingAttributes_and a d ds attributes c

/-- The reconstruction sum at an `AND` node whose subtrees reconstruct their secrets: the
weights of `recoverCoefficients` applied to the shares computed by `splitShares`. -/
theorem Node.reconstruct_and (a : ℤ) (cs : List Node) (hne : cs ≠ [])
    (attributes : List ℤ) (hIH : ∀ d ∈ cs, ReconAt attributes d) (s : Zr) (rnd : Rng)
    (hnd : (Node.mk a NodeType.AND cs).getLeafs.Nodup)
    (hsat : (Node.mk a NodeType.AND cs).satisfyingAttributes attributes 1 ≠ []) :
    (Node.mk a NodeType.AND cs).reconstruct s rnd attributes =
      ∑ j ∈ Finset.range cs.length,
        (Node.mk a NodeType.AND cs).recoverCoefficients.getD j 0 *
          ((Node.mk a NodeType.AND cs).splitShares s rnd).1.getD j 0 := by
  unfold Node.reconstruct
  rw [Node.getLeafs_of_ne_nil a _ cs hne] at hnd ⊢
  rw [Node.getSecretShares_of_ne_nil a _ cs hne]
  rw [Node.satisfyingAttributes_and_of_ne_nil a cs hne] at hsat ⊢
  by_cases hb : (Node.satisfyingAttributesAnd cs attributes 1
      (Node.mk a NodeType.AND cs).recoverCoefficients 0 []).1 = true
  · rw [if_pos hb, Node.and_recon attributes 1 _ cs hIH 0 _ _ hnd hb]
    apply Finset.sum_congr rfl
    intro j _
    rw [zero_add, mul_one]
  · rw [if_neg hb] at hsat; exact absurd rfl hsat

theorem wideAnd_eq : wideAnd = Node.mk 0 NodeType.AND
    ((List.range 15).map (fun (i : ℕ) => Node.leaf ((i : ℤ) + 1))) := rfl

theorem wideAnd_nodup : wideAnd.getLeafs.Nodup := by decide

theorem wideAnd_eval : wideAnd.eval wideAttrs = true := by decide

set_option maxRecDepth 100000 in
theorem std_pow_col14 :
    ∀ j, j < 15 → std_pow (j + 1) 14 = (j + 1) ^ 14 - (if j = 14 then 1 else 0) := by
  decide

/-- The shares of `wideAnd` under `wideRng` with root secret `0`: `pow(x, 14)` for child `x`. -/
theorem wideAnd_share (j : ℕ) (hj : j < 15) :
    (wideAnd.splitShares 0 wideRng).1.getD j 0 =
      ((j + 1 : ℕ) : Zr) ^ 14 - (if j = 14 then 1 else 0) := by
  rw [Node.splitShares_getD wideAnd 0 wideRng j (by rw [wideAnd_children_length]; exact hj),
    Node.shareAt_eq_sum, Node.splitCoeff_length, wideAnd_polyDegree]
  rw [Finset.sum_eq_single 14]
  · have hc : (if (14 : ℕ) = 0 then (0 : Zr) else if (14 : ℕ) = 14 then 1 else 0) = 1 := by
      norm_num
    rw [wideAnd_splitCoeff_getD 0 14 (by decide), std_pow_col14 j hj, hc, mul_one]
    have hbound : (j + 1) ^ 14 - (if j = 14 then 1 else 0) < 2 ^ 63 := by
      have h15 : (j + 1) ^ 14 ≤ 15 ^ 14 := Nat.pow_le_pow_left (by omega) 14
      have : (15 : ℕ) ^ 14 < 2 ^ 63 := by norm_num
      omega
    rw [doubleToLong_exact _ hbound]
    have hpos : (if j = 14 then 1 else 0) ≤ (j + 1) ^ 14 := by
      have : 1 ≤ (j + 1) ^ 14 := Nat.one_le_pow _ _ (by omega)
      split_ifs <;> omega
    unfold element_set_si
    rw [Int.cast_natCast, Nat.cast_sub hpos]
    by_cases h14 : j = 14
    · subst h14
      norm_num
    · simp [h14]
  · intro k hk hne
    rw [wideAnd_splitCoeff_getD 0 k (Finset.mem_range.1 hk)]
    simp [hne]
  · intro h; exact absurd (Finset.mem_range.2 (by decide)) h

theorem wideAnd_children_reconAt : ∀ d ∈ (List.range 15).map
    (fun (i : ℕ) => Node.leaf ((i : ℤ) + 1)), ReconAt wideAttrs d := by
  intro d hd
  apply Node.reconAt_of_powExact
  obtain ⟨i, _, rfl⟩ := List.mem_map.1 hd
  simp [Node.leaf, Node.powExact, Node.powExactList]

theorem wideAnd_sat_ne_nil : wideAnd.satisfyingAttributes wideAttrs 1 ≠ [] :=
  (Node.satDecides wideAttrs wideAnd 1).2 wideAnd_eval

theorem wideAnd_threshold : wideAnd.getThreshold = 15 := by
  simp [wideAnd, Node.inner, Node.children, Node.getThreshold, Node.type]

/-- The reconstruction sum of `wideAnd` with root secret `0` under `wideRng` is minus the
Lagrange weight of the point `15`. -/
theorem wideAnd_reconstruct :
    wideAnd.reconstruct 0 wideRng wideAttrs = -lagrangeAtZero 15 15 := by
  have hrec := Node.reconstruct_and 0 ((List.range 15).map
    (fun (i : ℕ) => Node.leaf ((i : ℤ) + 1))) (by simp) wideAttrs wideAnd_children_reconAt
    0 wideRng (by rw [← wideAnd_eq]; exact wideAnd_nodup)
    (by rw [← wideAnd_eq]; exact wideAnd_sat_ne_nil)
  rw [← wideAnd_eq] at hrec
  rw [hrec]
  have hlen : ((List.range 15).map (fun (i : ℕ) => Node.leaf ((i : ℤ) + 1))).length = 15 := by
    simp
  rw [hlen]
  have hterm : ∀ j ∈ Finset.range 15,
      wideAnd.recoverCoefficients.getD j 0 * (wideAnd.splitShares 0 wideRng).1.getD j 0 =
        lagrangeAtZero 15 (j + 1) *
          (∑ k ∈ Finset.range 15, (if k = 14 then (1 : Zr) else 0) * ((j + 1 : ℕ) : Zr) ^ k) -
        (if j = 14 then lagrangeAtZero 15 15 else 0) := by
    intro j hj
    have hj' := Finset.mem_range.1 hj
    rw [Node.recoverCoefficients_getD wideAnd j (by rw [wideAnd_threshold]; exact hj'),
      wideAnd_threshold, wideAnd_share j hj', Finset.sum_eq_single 14]
    · by_cases h14 : j = 14
      · subst h14
        simp [mul_sub]
      · simp [h14]
    · intro k _ hk
      simp [hk]
    · intro h; exact absurd (Finset.mem_range.2 (by decide)) h
  rw [Finset.sum_congr rfl hterm, Finset.sum_sub_distrib,
    sum_range_eq_sum_Icc 15 (fun i => lagrangeAtZero 15 i *
      (∑ k ∈ Finset.range 15, (if k = 14 then (1 : Zr) else 0) * ((i : ℕ) : Zr) ^ k)),
    shamir_lagrange 15 (by decide) (by decide) (fun k => if k = 14 then (1 : Zr) else 0)]
  simp

/-- C2 (failing input). For the `AND` node with the 15 leaves `1..15` (pairwise distinct
attributes), all 15 attributes supplied, root secret `0` and sampled coefficients `c_14 = 1`,
`c_1 = … = c_13 = 0`, the search result is non-empty but the reconstruction sum
`Σ share_a · λ` is `-λ_15 ≠ 0`, not the root secret: the share of child 15 was computed with
the rounded `pow(15, 14)`. -/
theorem reconstruct_pow_inexact :
    wideAnd.DistinctLeaves ∧ wideAnd.satisfyingAttributes wideAttrs 1 ≠ [] ∧
    wideAnd.reconstruct 0 wideRng wideAttrs = -lagrangeAtZero 15 15 ∧
    wideAnd.reconstruct 0 wideRng wideAttrs ≠ 0 := by
  refine ⟨(Node.nodup_getLeafs_iff wideAnd).1 wideAnd_nodup, wideAnd_sat_ne_nil,
    wideAnd_reconstruct, ?_⟩
  rw [wideAnd_reconstruct]
  exact neg_ne_zero.2 (lagrangeAtZero_ne_zero 15 15 (le_refl _) (by decide))

/-! ## Exponents in `G1` -/

theorem element_pow_zn_mul {G : Type} [Monoid G] (g : G) (hg : g ^ r = 1) (a b : Zr) :
    element_pow_zn (element_pow_zn g a) b = element_pow_zn g (a * b) := by
  unfold element_pow_zn
  rw [← pow_mul, ZMod.val_mul, ← pow_eq_pow_mod _ hg]

theorem element_pow_zn_add {G : Type} [Monoid G] (g : G) (hg : g ^ r = 1) (a b : Zr) :
    element_pow_zn g a * element_pow_zn g b = element_pow_zn g (a + b) := by
  unfold element_pow_zn
  rw [← pow_add, ZMod.val_add, ← pow_eq_pow_mod _ hg]

theorem element_pow_zn_zero {G : Type} [Monoid G] (g : G) : element_pow_zn g 0 = 1 := by
  simp [element_pow_zn]

/-! ## `setup` -/

theorem ElementMap.set_same {α : Type} (m : ElementMap α) (a : ℤ) (v : α) :
    m.set a v a = some v := by
  simp [ElementMap.set]

theorem ElementMap.set_other {α : Type} (m : ElementMap α) (a b : ℤ) (v : α) (h : b ≠ a) :
    m.set a v b = m b := by
  simp [ElementMap.set, h]

theorem setupLoop_not_mem {G : Type} [Monoid G] (g : G) (attributes : List ℤ) (a : ℤ)
    (ha : a ∉ attributes) :
    ∀ (s : Rng) (Pi : ElementMap G) (Si : ElementMap Zr),
      (setupLoop g attributes s Pi Si).1 a = Pi a ∧
      (setupLoop g attributes s Pi Si).2 a = Si a := by
  induction attributes with
  | nil => intro s Pi Si; simp [setupLoop]
  | cons attr rest ih =>
    intro s Pi Si
    have hne : a ≠ attr := fun h => ha (h ▸ List.mem_cons_self _ _)
    have hrest : a ∉ rest := fun h => ha (List.mem_cons_of_mem _ h)
    rw [setupLoop]
    obtain ⟨h1, h2⟩ := ih hrest (fun i => s (i + 1)) (Pi.set attr (element_pow_zn g (s 0)))
      (Si.set attr (s 0))
    rw [h1, h2, ElementMap.set_other _ _ _ _ hne, ElementMap.set_other _ _ _ _ hne]
    exact ⟨rfl, rfl⟩

/-- After the loop of `setup`, every attribute of the list has a private scalar, one of the
sampled values, and the matching public element. -/
theorem setupLoop_mem {G : Type} [Monoid G] (g : G) (attributes : List ℤ) (a : ℤ)
    (ha : a ∈ attributes) :
    ∀ (s : Rng) (Pi : ElementMap G) (Si : ElementMap Zr),
      ∃ i, i < attributes.length ∧
        (setupLoop g attributes s Pi Si).2 a = some (s i) ∧
        (setupLoop g attributes s Pi Si).1 a = some (element_pow_zn g (s i)) := by
  induction attributes with
  | nil => cases ha
  | cons attr rest ih =>
    intro s Pi Si
    rw [setupLoop]
    by_cases hrest : a ∈ rest
    · obtain ⟨i, hi, h1, h2⟩ := ih hrest (fun i => s (i + 1))
        (Pi.set attr (element_pow_zn g (s 0))) (Si.set attr (s 0))
      exact ⟨i + 1, by simp only [List.length_cons]; omega, h1, h2⟩
    · have heq : a = attr := by
        rcases List.mem_cons.1 ha with h | h
        · exact h
        · exact absurd h hrest
      subst heq
      obtain ⟨h1, h2⟩ := setupLoop_not_mem g rest a hrest (fun i => s (i + 1))
        (Pi.set a (element_pow_zn g (s 0))) (Si.set a (s 0))
      refine ⟨0, by simp, ?_, ?_⟩
      · rw [h2, ElementMap.set_same]
      · rw [h1, ElementMap.set_same]

/-! ## `keyGeneration` -/

theorem element_div_of_ne_zero (a b : Zr) (h : b ≠ 0) : element_div a b = some (a / b) := by
  unfold element_div
  rw [if_neg h]

theorem element_div_zero (a : Zr) : element_div a 0 = none := by
  unfold element_div
  rw [if_pos rfl]

theorem keyGenerationLoop_nil (K : ElementMap Zr) (f : Zr → Zr → Option Zr) (shares : List Zr)
    (Di : ElementMap Zr) : keyGenerationLoop K f [] shares Di = (Except.ok Di, K.slots) := by
  simp [keyGenerationLoop]

theorem keyGenerationLoop_absent_head (K : ElementMap Zr) (f : Zr → Zr → Option Zr) (attr : ℤ)
    (leafs : List ℤ) (shares : List Zr) (Di : ElementMap Zr) (h : K attr = none) :
    keyGenerationLoop K f (attr :: leafs) shares Di =
      (Except.error (Error.missingElement attr), K.insertEmpty attr) := by
  rw [keyGenerationLoop]
  simp only [h]

theorem keyGenerationLoop_undefined_head (K : ElementMap Zr) (f : Zr → Zr → Option Zr)
    (attr : ℤ) (leafs : List ℤ) (shares : List Zr) (Di : ElementMap Zr) (key : Zr)
    (h : K attr = some key) (hf : f (shares.headD 0) key = none) :
    keyGenerationLoop K f (attr :: leafs) shares Di =
      (Except.error (Error.zeroDivisor attr), K.slots) := by
  rw [keyGenerationLoop]
  simp only [h, hf]

theorem keyGenerationLoop_step (K : ElementMap Zr) (f : Zr → Zr → Option Zr)
    (attr : ℤ) (leafs : List ℤ) (shares : List Zr) (Di : ElementMap Zr) (key attrDi : Zr)
    (h : K attr = some key) (hf : f (shares.headD 0) key = some attrDi) :
    keyGenerationLoop K f (attr :: leafs) shares Di =
      keyGenerationLoop K f leafs shares.tail (Di.set attr attrDi) := by
  rw [keyGenerationLoop]
  simp only [h, hf]

/-- The loop of `_keyGeneration` with `element_div` succeeds when every leaf has a non-zero
scrambling key; then `Di[a] = share_a / key_a` for every leaf attribute `a`, and the map of
the scrambling keys is as before. -/
theorem keyGenerationLoop_spec (K : ElementMap Zr) (leafs : List ℤ)
    (hK : ∀ a ∈ leafs, ∃ x, K a = some x ∧ x ≠ 0) :
    ∀ (shares : List Zr) (Di : ElementMap Zr),
      ∃ Di', keyGenerationLoop K element_div leafs shares Di = (Except.ok Di', K.slots) ∧
        (∀ a, a ∉ leafs → Di' a = Di a) ∧
        (leafs.Nodup → ∀ a ∈ leafs, ∃ x, K a = some x ∧ x ≠ 0 ∧
          Di' a = some (lookupShare leafs shares a / x)) := by
  induction leafs with
  | nil =>
    intro shares Di
    exact ⟨Di, keyGenerationLoop_nil _ _ _ _, fun _ _ => rfl, fun _ a ha => by cases ha⟩
  | cons attr rest ih =>
    intro shares Di
    obtain ⟨key, hkey, hkey0⟩ := hK attr (List.mem_cons_self _ _)
    obtain ⟨Di', hok, hout, hin⟩ := ih (fun a ha => hK a (List.mem_cons_of_mem _ ha))
      shares.tail (Di.set attr (shares.headD 0 / key))
    refine ⟨Di', ?_, ?_, ?_⟩
    · rw [keyGenerationLoop_step K element_div attr rest shares Di key _ hkey
        (element_div_of_ne_zero _ _ hkey0)]
      exact hok
    · intro a ha
      have hne : a ≠ attr := fun h => ha (h ▸ List.mem_cons_self _ _)
      rw [hout a (fun h => ha (List.mem_cons_of_mem _ h)), ElementMap.set_other _ _ _ _ hne]
    · intro hnd a ha
      obtain ⟨hnotin, hnd'⟩ := List.nodup_cons.1 hnd
      rcases List.mem_cons.1 ha with rfl | harest
      · refine ⟨key, hkey, hkey0, ?_⟩
        rw [hout a hnotin, ElementMap.set_same, list_headD_eq_getD]
        unfold lookupShare
        rw [List.indexOf_cons_self]
      · have hne : attr ≠ a := fun h => hnotin (h ▸ harest)
        obtain ⟨x, hx, hx0, hD⟩ := hin hnd' a harest
        refine ⟨x, hx, hx0, ?_⟩
        rw [hD]
        unfold lookupShare
        rw [List.indexOf_cons_ne _ hne, list_tail_getD]

/-- What `keyGeneration` returns and how it leaves `privateParams.Si`, in terms of the loop. -/
theorem keyGeneration_of_loop (privateParams : PrivateParams) (policy : Node) (rnd : Rng)
    (res : Except Error (ElementMap Zr)) (st : SlotMap Zr)
    (h : keyGenerationLoop privateParams.Si element_div policy.getLeafs
      (policy.getSecretShares privateParams.mk rnd).1 ElementMap.empty = (res, st)) :
    keyGeneration privateParams policy rnd =
      (match res with
        | Except.error e => Except.error e
        | Except.ok Di => Except.ok { accessPolicy := policy, Di := Di }) ∧
    keyGenerationSi privateParams policy rnd = st := by
  unfold keyGeneration keyGenerationSi _keyGeneration
  simp only [h]
  cases res with
  | error e => exact ⟨rfl, rfl⟩
  | ok Di => exact ⟨rfl, rfl⟩

/-! ## `createSecret` -/

theorem createSecretLoop_spec {G : Type} [Monoid G] (Pi : ElementMap G) (k : Zr)
    (attributes : List ℤ) (hPi : ∀ a ∈ attributes, ∃ P, Pi a = some P) :
    ∀ (Cw : Cw_t G),
      ∃ Cw', createSecretLoop Pi k attributes Cw = Except.ok Cw' ∧
        (∀ a, a ∉ attributes → Cw' a = Cw a) ∧
        (∀ a ∈ attributes, ∃ P, Pi a = some P ∧ Cw' a = some (element_pow_zn P k)) := by
  induction attributes with
  | nil =>
    intro Cw
    exact ⟨Cw, by simp [createSecretLoop], fun _ _ => rfl, fun a ha => by cases ha⟩
  | cons attr rest ih =>
    intro Cw
    obtain ⟨P, hP⟩ := hPi attr (List.mem_cons_self _ _)
    obtain ⟨Cw', hok, hout, hin⟩ := ih (fun a ha => hPi a (List.mem_cons_of_mem _ ha))
      (Cw.set attr (element_pow_zn P k))
    refine ⟨Cw', ?_, ?_, ?_⟩
    · rw [createSecretLoop, hP]
      exact hok
    · intro a ha
      have hne : a ≠ attr := fun h => ha (h ▸ List.mem_cons_self _ _)
      rw [hout a (fun h => ha (List.mem_cons_of_mem _ h)), ElementMap.set_other _ _ _ _ hne]
    · intro a ha
      by_cases harest : a ∈ rest
      · exact hin a harest
      · have heq2 : a = attr := by
          rcases List.mem_cons.1 ha with h | h
          · exact h
          · exact absurd h harest
        subst heq2
        refine ⟨P, hP, ?_⟩
        rw [hout a harest, ElementMap.set_same]

/-! ## `recoverSecret` -/

theorem reconSum_cons (leafs : List ℤ) (shares : List Zr) (p : ℤ × Zr) (rest : List (ℤ × Zr)) :
    reconSum leafs shares (p :: rest) =
      lookupShare leafs shares p.1 * p.2 + reconSum leafs shares rest := by
  simp [reconSum]

theorem recoverSecret_factor {G : Type} [Monoid G] (g : G) (hg : g ^ r = 1) (k x share coeff : Zr)
    (hx : x ≠ 0) :
    element_pow_zn (element_pow_zn (element_pow_zn g x) k) (share / x * coeff) =
      element_pow_zn g (k * (share * coeff)) := by
  rw [element_pow_zn_mul g hg, element_pow_zn_mul g hg]
  congr 1
  field_simp
  ring

/-- The product loop of `recoverSecret` past its first step: it multiplies `Cs` by
`g^{k · Σ share_a · λ}`. -/
theorem recoverSecretLoop_true {G : Type} [Monoid G] (g : G) (hg : g ^ r = 1) (k : Zr)
    (leafs : List ℤ) (shares : List Zr) (Di : ElementMap Zr) (Cw : Cw_t G)
    (sat : List (ℤ × Zr)) (hgood : ∀ p ∈ sat, GoodSlot g k leafs shares Di Cw p.1) :
    ∀ (Cs : G), recoverSecretLoop Di Cw sat Cs true =
      Except.ok (Cs * element_pow_zn g (k * reconSum leafs shares sat)) := by
  induction sat with
  | nil =>
    intro Cs
    simp [recoverSecretLoop, reconSum_nil, element_pow_zn_zero]
  | cons p rest ih =>
    intro Cs
    obtain ⟨x, hx, hD, hC⟩ := hgood p (List.mem_cons_self _ _)
    rw [recoverSecretLoop, hD]
    simp only
    rw [hC]
    simp only [if_true]
    rw [ih (fun q hq => hgood q (List.mem_cons_of_mem _ hq)), recoverSecret_factor g hg k x _ _ hx,
      mul_assoc, element_pow_zn_add g hg, reconSum_cons, mul_add]

/-- The product loop of `recoverSecret` from its start on a non-empty list. -/
theorem recoverSecretLoop_false {G : Type} [Monoid G] (g : G) (hg : g ^ r = 1) (k : Zr)
    (leafs : List ℤ) (shares : List Zr) (Di : ElementMap Zr) (Cw : Cw_t G)
    (p : ℤ × Zr) (rest : List (ℤ × Zr))
    (hgood : ∀ q ∈ p :: rest, GoodSlot g k leafs shares Di Cw q.1) (Cs : G) :
    recoverSecretLoop Di Cw (p :: rest) Cs false =
      Except.ok (element_pow_zn g (k * reconSum leafs shares (p :: rest))) := by
  obtain ⟨x, hx, hD, hC⟩ := hgood p (List.mem_cons_self _ _)
  rw [recoverSecretLoop, hD]
  simp only
  rw [hC]
  simp only [Bool.false_eq_true, if_false]
  rw [recoverSecretLoop_true g hg k leafs shares Di Cw rest
    (fun q hq => hgood q (List.mem_cons_of_mem _ hq)), recoverSecret_factor g hg k x _ _ hx,
    element_pow_zn_add g hg, reconSum_cons, mul_add]

/-- The round trip of the key encapsulation, for parameters made by `setup` with non-zero
`s_a`, a policy in the exact range of `pow` whose root is an inner node and whose leaf
attributes are distinct and in the universe, and attributes in the universe that satisfy the
policy. -/
theorem kem_roundtrip {G : Type} [Monoid G] (U : List ℤ) (pub0 : PublicParams G)
    (priv0 : PrivateParams) (mk : Zr) (g : G) (s : Rng) (policy : Node) (rnd : Rng)
    (attributes : List ℤ) (k : Zr)
    (hg : g ^ r = 1) (hs : ∀ i, i < U.length → s i ≠ 0)
    (hleafs : ∀ a ∈ policy.getLeafs, a ∈ U) (hattrs : ∀ a ∈ attributes, a ∈ U)
    (hnd : policy.getLeafs.Nodup) (hex : policy.powExact = true)
    (hroot : policy.children ≠ []) (heval : policy.eval attributes = true) :
    ∃ (key : DecryptionKey) (Cw : Cw_t G),
      keyGeneration (setup U pub0 priv0 mk g s).2 policy rnd = Except.ok key ∧
      key.accessPolicy = policy ∧
      createSecret (setup U pub0 priv0 mk g s).1 attributes k =
        Except.ok (Cw, element_pow_zn (setup U pub0 priv0 mk g s).1.pk k) ∧
      recoverSecret key Cw attributes =
        Except.ok (element_pow_zn (setup U pub0 priv0 mk g s).1.pk k) := by
  have hset : ∀ a ∈ U, ∃ i, i < U.length ∧
      (setup U pub0 priv0 mk g s).2.Si a = some (s i) ∧
      (setup U pub0 priv0 mk g s).1.Pi a = some (element_pow_zn g (s i)) :=
    fun a ha => setupLoop_mem g U a ha s pub0.Pi priv0.Si
  have hpk : (setup U pub0 priv0 mk g s).1.pk = element_pow_zn g mk := rfl
  have hmk : (setup U pub0 priv0 mk g s).2.mk = mk := rfl
  obtain ⟨Di, hDi, -, hDin⟩ := keyGenerationLoop_spec (setup U pub0 priv0 mk g s).2.Si
    policy.getLeafs
    (fun a ha => by
      obtain ⟨i, hi, h, _⟩ := hset a (hleafs a ha)
      exact ⟨s i, h, hs i hi⟩)
    (policy.getSecretShares mk rnd).1 ElementMap.empty
  obtain ⟨Cw, hCw, -, hCwin⟩ := createSecretLoop_spec (setup U pub0 priv0 mk g s).1.Pi k
    attributes
    (fun a ha => by
      obtain ⟨i, _, _, h⟩ := hset a (hattrs a ha)
      exact ⟨_, h⟩)
    ElementMap.empty
  refine ⟨{ accessPolicy := policy, Di := Di }, Cw, ?_, rfl, ?_, ?_⟩
  · exact (keyGeneration_of_loop (setup U pub0 priv0 mk g s).2 policy rnd _ _ hDi).1
  · unfold createSecret
    simp only [hCw]
  · have hsat : policy.satisfyingAttributes attributes 1 ≠ [] :=
      (Node.satDecides attributes policy 1).2 heval
    have hgood : ∀ p ∈ policy.satisfyingAttributes attributes 1,
        GoodSlot g k policy.getLeafs (policy.getSecretShares mk rnd).1 Di Cw p.1 := by
      intro p hp
      obtain ⟨hpl, hpa⟩ := Node.satSubset attributes policy 1 p hp
      obtain ⟨i, hi, hSi, hPi⟩ := hset p.1 (hleafs p.1 hpl)
      obtain ⟨x, hx, -, hD⟩ := hDin hnd p.1 hpl
      obtain ⟨P, hP, hC⟩ := hCwin p.1 hpa
      rw [hSi] at hx
      rw [hPi] at hP
      have hx' : s i = x := Option.some.inj hx
      have hP' : element_pow_zn g (s i) = P := Option.some.inj hP
      refine ⟨s i, hs i hi, ?_, ?_⟩
      · rw [hD, hx']
      · rw [hC, hP']
    unfold recoverSecret
    simp only
    have hrec := Node.reconstruct_of_powExact policy mk rnd attributes hex hnd hsat
    unfold Node.reconstruct at hrec
    cases hlist : policy.satisfyingAttributes attributes 1 with
    | nil => exact absurd hlist hsat
    | cons p rest =>
      rw [hlist] at hgood hrec
      have hchild : policy.children.isEmpty = false := by
        cases hc : policy.children with
        | nil => exact absurd hc hroot
        | cons d ds => rfl
      simp only [List.isEmpty_cons, hchild, Bool.false_eq_true, if_false]
      rw [recoverSecretLoop_false g hg k policy.getLeafs (policy.getSecretShares mk rnd).1 Di Cw
        p rest hgood, hrec, hpk, element_pow_zn_mul g hg, mul_comm]

/-! ## The KEM round trip -/

/-- C1 (amended). KEM round trip: for every attribute universe `U`, every policy tree whose
root is an inner node, whose `AND` nodes have at most 14 children and whose leaf attributes are
pairwise distinct and contained in `U`, every attribute list contained in `U` that satisfies
the policy, and every choice of the sampled values `mk`, `g` (of order dividing `r`), `s_a`
(all non-zero), the coefficients of the share split and `k`: `keyGeneration` and `createSecret`
succeed on the output of `setup(U)`, and `recoverSecret` returns `CsDec = CsEnc = pk^k`. -/
theorem kem_round_trip {G : Type} [Monoid G] (U : List ℤ) (pub0 : PublicParams G)
    (priv0 : PrivateParams) (mk : Zr) (g : G) (s : Rng) (policy : Node) (rnd : Rng)
    (attributes : List ℤ) (k : Zr)
    (hg : g ^ r = 1) (hs : ∀ i, i < U.length → s i ≠ 0)
    (hleafs : ∀ a ∈ policy.getLeafs, a ∈ U) (hattrs : ∀ a ∈ attributes, a ∈ U)
    (hdistinct : policy.DistinctLeaves) (hex : policy.powExact = true)
    (hroot : policy.children ≠ []) (heval : policy.eval attributes = true) :
    ∃ (key : DecryptionKey) (Cw : Cw_t G) (CsEnc : G),
      keyGeneration (setup U pub0 priv0 mk g s).2 policy rnd = Except.ok key ∧
      createSecret (setup U pub0 priv0 mk g s).1 attributes k = Except.ok (Cw, CsEnc) ∧
      recoverSecret key Cw attributes = Except.ok CsEnc ∧
      CsEnc = element_pow_zn (setup U pub0 priv0 mk g s).1.pk k := by
  obtain ⟨key, Cw, h1, -, h2, h3⟩ := kem_roundtrip U pub0 priv0 mk g s policy rnd attributes k
    hg hs hleafs hattrs ((Node.nodup_getLeafs_iff policy).2 hdistinct) hex hroot heval
  exact ⟨key, Cw, _, h1, h2, h3, rfl⟩

theorem unitG_pow_r : unitG ^ r = 1 := by
  unfold unitG
  rw [← ofAdd_nsmul, nsmul_eq_mul, mul_one, ZMod.natCast_self]
  rfl

theorem unitG_ne_one : unitG ≠ 1 := by
  unfold unitG
  intro h
  have h2 : (1 : Zr) = 0 := Multiplicative.ofAdd.injective h
  exact one_ne_zero h2

/-- Witness for C1 (amended): the run of `main`, universe `1..5`, policy
`(1 OR 2) AND (3 OR 4)`, attributes `[1, 3]`. -/
theorem kem_round_trip_witness :
    ∃ (key : DecryptionKey) (Cw : Cw_t (Multiplicative Zr)) (CsEnc : Multiplicative Zr),
      keyGeneration (setup [1, 2, 3, 4, 5] (PublicParams.mk 1 ElementMap.empty)
        (PrivateParams.make 0 ElementMap.empty) 7 unitG (fun _ => 1)).2 examplePolicy
        (fun _ => 2) = Except.ok key ∧
      createSecret (setup [1, 2, 3, 4, 5] (PublicParams.mk 1 ElementMap.empty)
        (PrivateParams.make 0 ElementMap.empty) 7 unitG (fun _ => 1)).1 [1, 3] 5 =
          Except.ok (Cw, CsEnc) ∧
      recoverSecret key Cw [1, 3] = Except.ok CsEnc ∧
      CsEnc = element_pow_zn (setup [1, 2, 3, 4, 5] (PublicParams.mk 1 ElementMap.empty)
        (PrivateParams.make 0 ElementMap.empty) 7 unitG (fun _ => 1)).1.pk 5 :=
  kem_round_trip [1, 2, 3, 4, 5] (PublicParams.mk 1 ElementMap.empty)
    (PrivateParams.make 0 ElementMap.empty) 7 unitG (fun _ => 1) examplePolicy (fun _ => 2)
    [1, 3] 5 unitG_pow_r (fun _ _ => one_ne_zero) (by decide) (by decide)
    examplePolicy_distinct (by decide)
    (by simp [examplePolicy, Node.inner, Node.children]) (by decide)

theorem singlePolicy_sat (c : Zr) : singlePolicy.satisfyingAttributes [1] c = [(1, c)] := by
  have h := Node.or_local 0 [Node.leaf 1] 0 (fun _ => 0)
  unfold singlePolicy Node.inner
  rw [Node.satisfyingAttributes_or, h.1, Node.satisfyingAttributesOr_cons]
  simp [Node.leaf, Node.satisfyingAttributes_leaf]

/-- The run with the sampled value `s_1 = 0` (universe `[1]`, policy `OR(1)`, `mk = 1`,
`k = 1`, `g` a generator): `setup` stores `Si[1] = 0`, `element_div` by it has no result, so
`keyGeneration` returns no key; `createSecret` returns `Cw[1] = P_1^k`, the neutral element,
and `Cs = g`; and whatever scalar `d` a key holds in `Di[1]`, `recoverSecret` returns the
neutral element. -/
theorem zeroParams_run :
    zeroParams.2.Si 1 = some 0 ∧
    keyGeneration zeroParams.2 singlePolicy (fun _ => 0) =
      Except.error (Error.zeroDivisor 1) ∧
    createSecret zeroParams.1 [1] 1 = Except.ok (zeroCw, unitG) ∧
    ∀ d : Zr, recoverSecret (zeroKey d) zeroCw [1] = Except.ok 1 := by
  have hSi : zeroParams.2.Si 1 = some 0 := by
    simp [zeroParams, setup, setupLoop, ElementMap.set]
  have hleafs : singlePolicy.getLeafs = [1] := by decide
  refine ⟨hSi, ?_, ?_, ?_⟩
  · have hloop := keyGenerationLoop_undefined_head zeroParams.2.Si element_div 1 []
      (singlePolicy.getSecretShares zeroParams.2.mk (fun _ => 0)).1 ElementMap.empty 0 hSi
      (element_div_zero _)
    rw [← hleafs] at hloop
    exact (keyGeneration_of_loop zeroParams.2 singlePolicy (fun _ => 0) _ _ hloop).1
  · simp [createSecret, createSecretLoop, zeroParams, setup, setupLoop, ElementMap.set,
      element_pow_zn, ZMod.val_one, zeroCw]
  · intro d
    unfold recoverSecret
    simp only [zeroKey, singlePolicy_sat]
    simp [singlePolicy, Node.inner, Node.children, recoverSecretLoop, ElementMap.set,
      element_pow_zn, zeroCw]

/-- C1 (counterexample). With the sampled value `s_1 = 0` (universe `[1]`, policy `OR(1)`,
attributes `[1]`, `mk = 1`, `k = 1`, `g` a generator), `keyGeneration` returns no key, because
`element_div` by `s_1 = 0` has no result; and whatever scalar that division leaves in `Di[1]`,
`recoverSecret` returns the neutral element while `createSecret` returned `CsEnc = g ≠ 1`. -/
theorem kem_round_trip_zero_scalar :
    singlePolicy.DistinctLeaves ∧ singlePolicy.eval [1] = true ∧
    (∀ a ∈ singlePolicy.getLeafs, a ∈ [(1 : ℤ)]) ∧
    keyGeneration zeroParams.2 singlePolicy (fun _ => 0) =
      Except.error (Error.zeroDivisor 1) ∧
    ∃ (Cw : Cw_t (Multiplicative Zr)) (CsEnc CsDec : Multiplicative Zr),
      createSecret zeroParams.1 [1] 1 = Except.ok (Cw, CsEnc) ∧
      (∀ d : Zr, recoverSecret { accessPolicy := singlePolicy, Di := ElementMap.empty.set 1 d }
        Cw [1] = Except.ok CsDec) ∧
      CsDec ≠ CsEnc := by
  obtain ⟨-, hk, hc, hr⟩ := zeroParams_run
  refine ⟨?_, by decide, by decide, hk, zeroCw, unitG, 1, hc, hr, ?_⟩
  · rw [← Node.nodup_getLeafs_iff]; decide
  · exact fun h => unitG_ne_one h.symm

/-! ## `encrypt` and `decrypt` -/

theorem takeWhile_append_zero (m : List Byte) :
    (m ++ [0]).takeWhile (fun b => b != 0) = m.takeWhile (fun b => b != 0) := by
  induction m with
  | nil => simp
  | cons b m ih =>
    by_cases hb : b = 0
    · simp [List.takeWhile, hb]
    · simp [List.takeWhile, hb, ih]

theorem takeWhile_of_no_zero (m : List Byte) (hm : (0 : Byte) ∉ m) :
    m.takeWhile (fun b => b != 0) = m := by
  rw [List.takeWhile_eq_self_iff]
  intro b hb
  have : b ≠ 0 := fun h => hm (h ▸ hb)
  simpa using this

/-- What `decrypt` returns on the output of `encrypt`: the bytes of the message before its
first zero byte. The symmetric layer is any cipher whose decryption under the same 32-byte key
inverts its encryption; the other conditions are those of `kem_roundtrip`. -/
theorem decrypt_encrypt_prefix {G : Type} [Monoid G] (sym : SymLayer G) (U : List ℤ)
    (pub0 : PublicParams G) (priv0 : PrivateParams) (mk : Zr) (g : G) (s : Rng)
    (policy : Node) (rnd : Rng) (attributes : List ℤ) (k : Zr) (message : List Byte)
    (hhash : ∀ x, (sym.hashElement x).length = 32)
    (hsym : ∀ key input, key.length = 32 →
      sym.symDecrypt key (sym.symEncrypt key input) = input)
    (hg : g ^ r = 1) (hs : ∀ i, i < U.length → s i ≠ 0)
    (hleafs : ∀ a ∈ policy.getLeafs, a ∈ U) (hattrs : ∀ a ∈ attributes, a ∈ U)
    (hnd : policy.getLeafs.Nodup) (hex : policy.powExact = true)
    (hroot : policy.children ≠ []) (heval : policy.eval attributes = true) :
    ∃ (key : DecryptionKey) (ciphertext : List Byte) (Cw : Cw_t G),
      keyGeneration (setup U pub0 priv0 mk g s).2 policy rnd = Except.ok key ∧
      encrypt sym (setup U pub0 priv0 mk g s).1 attributes message k =
        Except.ok (ciphertext, Cw) ∧
      decrypt sym key Cw attributes ciphertext =
        Except.ok (message.takeWhile (fun b => b != 0)) := by
  obtain ⟨key, Cw, h1, -, h2, h3⟩ := kem_roundtrip U pub0 priv0 mk g s policy rnd attributes k
    hg hs hleafs hattrs hnd hex hroot heval
  refine ⟨key, sym.symEncrypt
    (sym.hashElement (element_pow_zn (setup U pub0 priv0 mk g s).1.pk k)) (message ++ [0]),
    Cw, h1, ?_, ?_⟩
  · unfold encrypt
    rw [h2]
  · unfold decrypt
    rw [h3]
    simp only
    rw [hsym _ _ (hhash _), takeWhile_append_zero]

/-- C3 (amended). Message round trip: under the conditions of the KEM round trip (universe `U`
containing the leaves and the attributes, distinct leaf attributes, root an inner node, `AND`
nodes of at most 14 children, the policy true on `attrs`, sampled `s_a` non-zero, `g` of order
dividing `r`) and for every message `m` without a zero byte, `decrypt` applied to the output
of `encrypt` returns `m`; the symmetric layer is a cipher whose decryption under the same
32-byte key inverts its encryption. -/
theorem message_round_trip {G : Type} [Monoid G] (sym : SymLayer G) (U : List ℤ)
    (pub0 : PublicParams G) (priv0 : PrivateParams) (mk : Zr) (g : G) (s : Rng)
    (policy : Node) (rnd : Rng) (attributes : List ℤ) (k : Zr) (message : List Byte)
    (hhash : ∀ x, (sym.hashElement x).length = 32)
    (hsym : ∀ key input, key.length = 32 →
      sym.symDecrypt key (sym.symEncrypt key input) = input)
    (hg : g ^ r = 1) (hs : ∀ i, i < U.length → s i ≠ 0)
    (hleafs : ∀ a ∈ policy.getLeafs, a ∈ U) (hattrs : ∀ a ∈ attributes, a ∈ U)
    (hdistinct : policy.DistinctLeaves) (hex : policy.powExact = true)
    (hroot : policy.children ≠ []) (heval : policy.eval attributes = true)
    (hm : (0 : Byte) ∉ message) :
    ∃ (key : DecryptionKey) (ciphertext : List Byte) (Cw : Cw_t G),
      keyGeneration (setup U pub0 priv0 mk g s).2 policy rnd = Except.ok key ∧
      encrypt sym (setup U pub0 priv0 mk g s).1 attributes message k =
        Except.ok (ciphertext, Cw) ∧
      decrypt sym key Cw attributes ciphertext = Except.ok message := by
  obtain ⟨key, ct, Cw, h1, h2, h3⟩ := decrypt_encrypt_prefix sym U pub0 priv0 mk g s policy rnd
    attributes k message hhash hsym hg hs hleafs hattrs
    ((Node.nodup_getLeafs_iff policy).2 hdistinct) hex hroot heval
  rw [takeWhile_of_no_zero message hm] at h3
  exact ⟨key, ct, Cw, h1, h2, h3⟩

theorem plainSym_hash (G : Type) (x : G) : ((plainSym G).hashElement x).length = 32 := by
  simp [plainSym]

theorem plainSym_inverts (G : Type) (key input : List Byte) (_h : key.length = 32) :
    (plainSym G).symDecrypt key ((plainSym G).symEncrypt key input) = input := rfl

theorem orPolicy_distinct : orPolicy.DistinctLeaves := by
  rw [← Node.nodup_getLeafs_iff]; decide

/-- Witness for C3 (amended): the test `encryptAndDecrypt`, universe `1..4`, policy `1 OR 2`,
attributes `[1]`, message `"Hi"`. -/
theorem message_round_trip_witness :
    ∃ (key : DecryptionKey) (ciphertext : List Byte) (Cw : Cw_t (Multiplicative Zr)),
      keyGeneration (setup [1, 2, 3, 4] (PublicParams.mk 1 ElementMap.empty)
        (PrivateParams.make 0 ElementMap.empty) 7 unitG (fun _ => 1)).2 orPolicy
        (fun _ => 2) = Except.ok key ∧
      encrypt (plainSym (Multiplicative Zr)) (setup [1, 2, 3, 4]
        (PublicParams.mk 1 ElementMap.empty) (PrivateParams.make 0 ElementMap.empty) 7 unitG
        (fun _ => 1)).1 [1] [72, 105] 5 = Except.ok (ciphertext, Cw) ∧
      decrypt (plainSym (Multiplicative Zr)) key Cw [1] ciphertext = Except.ok [72, 105] :=
  message_round_trip (plainSym (Multiplicative Zr)) [1, 2, 3, 4]
    (PublicParams.mk 1 ElementMap.empty) (PrivateParams.make 0 ElementMap.empty) 7 unitG
    (fun _ => 1) orPolicy (fun _ => 2) [1] 5 [72, 105] (plainSym_hash _) (plainSym_inverts _)
    unitG_pow_r (fun _ _ => one_ne_zero) (by decide) (by decide) orPolicy_distinct (by decide)
    (by simp [orPolicy, Node.inner, Node.children]) (by decide) (by decide)

/-- C3 (counterexample). For the message `[97, 0, 98]` (`"a\0b"`, a `std::string` with an
embedded zero byte), with otherwise the run of the test `encryptAndDecrypt`, `decrypt` applied
to the output of `encrypt` returns `[97]`, not the message. -/
theorem message_round_trip_zero_byte :
    ∃ (key : DecryptionKey) (ciphertext : List Byte) (Cw : Cw_t (Multiplicative Zr)),
      keyGeneration (setup [1, 2, 3, 4] (PublicParams.mk 1 ElementMap.empty)
        (PrivateParams.make 0 ElementMap.empty) 7 unitG (fun _ => 1)).2 orPolicy
        (fun _ => 2) = Except.ok key ∧
      encrypt (plainSym (Multiplicative Zr)) (setup [1, 2, 3, 4]
        (PublicParams.mk 1 ElementMap.empty) (PrivateParams.make 0 ElementMap.empty) 7 unitG
        (fun _ => 1)).1 [1] [97, 0, 98] 5 = Except.ok (ciphertext, Cw) ∧
      decrypt (plainSym (Multiplicative Zr)) key Cw [1] ciphertext = Except.ok [97] ∧
      ([97] : List Byte) ≠ [97, 0, 98] := by
  obtain ⟨key, ct, Cw, h1, h2, h3⟩ := decrypt_encrypt_prefix (plainSym (Multiplicative Zr))
    [1, 2, 3, 4] (PublicParams.mk 1 ElementMap.empty) (PrivateParams.make 0 ElementMap.empty)
    7 unitG (fun _ => 1) orPolicy (fun _ => 2) [1] 5 [97, 0, 98] (plainSym_hash _)
    (plainSym_inverts _) unitG_pow_r (fun _ _ => one_ne_zero) (by decide) (by decide)
    (by decide) (by decide) (by simp [orPolicy, Node.inner, Node.children]) (by decide)
  exact ⟨key, ct, Cw, h1, h2, h3, by decide⟩

/-! ## Postconditions of `keyGeneration`, `setup` and `createSecret` -/

theorem ElementMap.afterLookups_present {α : Type} (m : ElementMap α) (attrs : List ℤ)
    (h : ∀ a ∈ attrs, ∃ x, m a = some x) : m.afterLookups attrs = m.slots := by
  induction attrs with
  | nil => rfl
  | cons attr rest ih =>
    obtain ⟨x, hx⟩ := h attr (List.mem_cons_self _ _)
    rw [ElementMap.afterLookups, hx]
    exact ih (fun a ha => h a (List.mem_cons_of_mem _ ha))

theorem setupLoop_keys {G : Type} [Monoid G] (g : G) (attributes : List ℤ) (s : Rng) (a : ℤ) :
    (((setupLoop g attributes s ElementMap.empty ElementMap.empty).1 a).isSome = true ↔
      a ∈ attributes) ∧
    (((setupLoop g attributes s ElementMap.empty ElementMap.empty).2 a).isSome = true ↔
      a ∈ attributes) := by
  by_cases ha : a ∈ attributes
  · obtain ⟨i, _, h2, h1⟩ := setupLoop_mem g attributes a ha s ElementMap.empty
      ElementMap.empty
    rw [h1, h2]
    simp [ha]
  · obtain ⟨h1, h2⟩ := setupLoop_not_mem g attributes a ha s
      (ElementMap.empty : ElementMap G) ElementMap.empty
    rw [h1, h2]
    simp [ha, ElementMap.empty]

/-- C13. Setup postcondition: for every attribute list `U` and every choice of the sampled
values `mk`, `g`, `s_a`, `setup(U)` on freshly constructed parameter structs yields
`publicParams.Pi` and `privateParams.Si` whose key sets both equal the set of attributes in
`U`, with `Pi[a] = g^{Si[a]}` for every `a` in `U` (`Si[a]` one of the sampled values) and
`pk = g^{mk}`, for the same generator `g`. -/
theorem setup_postcondition {G : Type} [Monoid G] (U : List ℤ) (pk0 : G) (mk0 : Zr) (mk : Zr)
    (g : G) (s : Rng) :
    (∀ a, (((setup U (PublicParams.mk pk0 ElementMap.empty)
      (PrivateParams.make mk0 ElementMap.empty) mk g s).1.Pi a).isSome = true ↔ a ∈ U)) ∧
    (∀ a, (((setup U (PublicParams.mk pk0 ElementMap.empty)
      (PrivateParams.make mk0 ElementMap.empty) mk g s).2.Si a).isSome = true ↔ a ∈ U)) ∧
    (∀ a ∈ U, ∃ i, i < U.length ∧
      (setup U (PublicParams.mk pk0 ElementMap.empty)
        (PrivateParams.make mk0 ElementMap.empty) mk g s).2.Si a = some (s i) ∧
      (setup U (PublicParams.mk pk0 ElementMap.empty)
        (PrivateParams.make mk0 ElementMap.empty) mk g s).1.Pi a =
          some (element_pow_zn g (s i))) ∧
    (setup U (PublicParams.mk pk0 ElementMap.empty)
      (PrivateParams.make mk0 ElementMap.empty) mk g s).1.pk = element_pow_zn g mk ∧
    (setup U (PublicParams.mk pk0 ElementMap.empty)
      (PrivateParams.make mk0 ElementMap.empty) mk g s).2.mk = mk := by
  refine ⟨fun a => (setupLoop_keys g U s a).1, fun a => (setupLoop_keys g U s a).2, ?_, rfl, rfl⟩
  intro a ha
  exact setupLoop_mem g U a ha s ElementMap.empty ElementMap.empty

/-- Witness for C13: the test `setupTest`, universe `[1, 2, 3]`, attribute `2`. -/
theorem setup_postcondition_witness :
    (2 : ℤ) ∈ [(1 : ℤ), 2, 3] ∧
    ∃ i, i < [(1 : ℤ), 2, 3].length ∧
      (setup [1, 2, 3] (PublicParams.mk 1 ElementMap.empty)
        (PrivateParams.make 0 ElementMap.empty) 7 unitG (fun i => (i : Zr) + 1)).2.Si 2 =
          some ((fun i : ℕ => (i : Zr) + 1) i) ∧
      (setup [1, 2, 3] (PublicParams.mk 1 ElementMap.empty)
        (PrivateParams.make 0 ElementMap.empty) 7 unitG (fun i => (i : Zr) + 1)).1.Pi 2 =
          some (element_pow_zn unitG ((fun i : ℕ => (i : Zr) + 1) i)) :=
  ⟨by decide, (setup_postcondition [1, 2, 3] 1 0 7 unitG (fun i => (i : Zr) + 1)).2.2.1 2
    (by decide)⟩

theorem createSecretLoop_keys {G : Type} [Monoid G] (Pi : ElementMap G) (k : Zr)
    (attributes : List ℤ) (Cw' : Cw_t G)
    (hout : ∀ a, a ∉ attributes → Cw' a = (ElementMap.empty : Cw_t G) a)
    (hin : ∀ a ∈ attributes, ∃ P, Pi a = some P ∧ Cw' a = some (element_pow_zn P k)) (a : ℤ) :
    (Cw' a).isSome = true ↔ a ∈ attributes := by
  constructor
  · intro h
    by_contra hna
    rw [hout a hna] at h
    simp [ElementMap.empty] at h
  · intro ha
    obtain ⟨P, _, hP⟩ := hin a ha
    rw [hP]
    rfl

/-- C14. CreateSecret postcondition: for every public parameter set, every attribute list
`attrs` whose members all have an entry in `params.Pi`, and every sampled `k`, `createSecret`
returns `Cs = pk^k` and a map `Cw` whose key set is exactly the set of attributes in `attrs`,
with `Cw[a] = (Pi[a])^k` for every `a`, all with the same `k`, and leaves `params.Pi`
unchanged (`pk` is only read). -/
theorem createSecret_postcondition {G : Type} [Monoid G] (params : PublicParams G)
    (attributes : List ℤ) (k : Zr) (h : ∀ a ∈ attributes, ∃ P, params.Pi a = some P) :
    ∃ Cw, createSecret params attributes k = Except.ok (Cw, element_pow_zn params.pk k) ∧
      (∀ a, (Cw a).isSome = true ↔ a ∈ attributes) ∧
      (∀ a ∈ attributes, ∃ P, params.Pi a = some P ∧ Cw a = some (element_pow_zn P k)) ∧
      createSecretPi params attributes = params.Pi.slots := by
  obtain ⟨Cw, hCw, hout, hin⟩ := createSecretLoop_spec params.Pi k attributes h
    ElementMap.empty
  refine ⟨Cw, ?_, createSecretLoop_keys params.Pi k attributes Cw hout hin, hin,
    ElementMap.afterLookups_present params.Pi attributes h⟩
  unfold createSecret
  simp only [hCw]

/-- Witness for C14: the attributes `[1, 3]` of `main`. -/
theorem createSecret_postcondition_witness :
    ∃ Cw, createSecret samplePublic [1, 3] 5 =
        Except.ok (Cw, element_pow_zn samplePublic.pk 5) ∧
      (∀ a, (Cw a).isSome = true ↔ a ∈ [(1 : ℤ), 3]) ∧
      (∀ a ∈ [(1 : ℤ), 3], ∃ P, samplePublic.Pi a = some P ∧
        Cw a = some (element_pow_zn P 5)) ∧
      createSecretPi samplePublic [1, 3] = samplePublic.Pi.slots :=
  createSecret_postcondition samplePublic [1, 3] 5 (by
    intro a ha
    simp only [List.mem_cons, List.mem_singleton, List.not_mem_nil, or_false] at ha
    rcases ha with rfl | rfl <;> exact ⟨_, by simp [samplePublic]; rfl⟩)

/-! ## Unit-level properties of the policy tree -/

theorem lagrangeAtZero_two_one : lagrangeAtZero 2 1 = 2 := by
  have h : (Finset.Icc 1 2).erase 1 = {2} := by decide
  unfold lagrangeAtZero
  rw [h, Finset.prod_singleton]
  norm_num

theorem lagrangeAtZero_two_two : lagrangeAtZero 2 2 = -1 := by
  have h : (Finset.Icc 1 2).erase 2 = {1} := by decide
  unfold lagrangeAtZero
  rw [h, Finset.prod_singleton]
  norm_num

theorem list_eq_of_getD (l : List Zr) (x y : Zr) (hlen : l.length = 2) (h0 : l.getD 0 0 = x)
    (h1 : l.getD 1 0 = y) : l = [x, y] := by
  match l, hlen with
  | [a, b], _ =>
    simp only [List.getD_cons_zero, List.getD_cons_succ] at h0 h1
    rw [h0, h1]

theorem Node.recoverCoefficients_and_two (a : ℤ) (c1 c2 : Node) :
    (Node.mk a NodeType.AND [c1, c2]).recoverCoefficients = [2, -1] := by
  have hthr : (Node.mk a NodeType.AND [c1, c2]).getThreshold = 2 := rfl
  apply list_eq_of_getD
  · rw [Node.recoverCoefficients_length, hthr]
  · rw [Node.recoverCoefficients_getD _ 0 (by rw [hthr]; decide), hthr]
    exact lagrangeAtZero_two_one
  · rw [Node.recoverCoefficients_getD _ 1 (by rw [hthr]; decide), hthr]
    exact lagrangeAtZero_two_two

theorem zr_two_ne_zero : (2 : Zr) ≠ 0 := by
  have h := zr_natCast_ne_zero 2 (by decide) (by decide)
  simpa using h

theorem zr_neg_one_ne_zero : (-1 : Zr) ≠ 0 := neg_ne_zero.2 one_ne_zero

theorem zr_neg_one_eq : (-1 : Zr) = ((r - 1 : ℕ) : Zr) := by
  rw [Nat.cast_sub (by decide : 1 ≤ r), ZMod.natCast_self, Nat.cast_one, zero_sub]

/-- C16. For every inner node with exactly two children and type `AND` (threshold 2),
`recoverCoefficients()` returns the two-element list `[2, -1]` in `Zr`, that is `[2, r - 1]`. -/
theorem recoverCoefficients_two_children (a : ℤ) (c1 c2 : Node) :
    (Node.mk a NodeType.AND [c1, c2]).getThreshold = 2 ∧
    (Node.mk a NodeType.AND [c1, c2]).recoverCoefficients = [2, -1] ∧
    ([2, -1] : List Zr) = [((2 : ℕ) : Zr), ((r - 1 : ℕ) : Zr)] := by
  refine ⟨rfl, Node.recoverCoefficients_and_two a c1 c2, ?_⟩
  rw [← zr_neg_one_eq]
  simp

theorem Node.recoverCoefficients_or (a : ℤ) (cs : List Node) :
    (Node.mk a NodeType.OR cs).recoverCoefficients = [1] := by
  have hlen := Node.recoverCoefficients_length (Node.mk a NodeType.OR cs)
  have hthr : (Node.mk a NodeType.OR cs).getThreshold = 1 := rfl
  rw [hthr] at hlen
  have h0 := (Node.or_local a cs 0 (fun _ => 0)).1
  match hl : (Node.mk a NodeType.OR cs).recoverCoefficients, hlen with
  | [x], _ =>
    rw [hl] at h0
    simp only [List.getD_cons_zero] at h0
    rw [h0]

/-- The search result on the policy `(1 OR 2) AND (3 OR 4)` with the attributes `[1, 3]`. -/
theorem examplePolicy_sat_13 (c : Zr) :
    examplePolicy.satisfyingAttributes [1, 3] c = [(1, 1 * (2 * c)), (3, 1 * (-1 * c))] := by
  unfold examplePolicy Node.inner
  rw [Node.satisfyingAttributes_and, Node.recoverCoefficients_and_two,
    Node.satisfyingAttributesAnd_step, Node.satisfyingAttributesAnd_step]
  simp only [List.getD_cons_zero, List.getD_cons_succ, zero_add]
  rw [Node.satisfyingAttributes_or, Node.satisfyingAttributes_or, Node.recoverCoefficients_or,
    Node.recoverCoefficients_or]
  simp [Node.satisfyingAttributesOr, Node.satisfyingAttributesAnd, Node.leaf,
    Node.satisfyingAttributes_leaf]

/-- C15. For the policy `(1 OR 2) AND (3 OR 4)` and `currentCoeff = 1`:
`satisfyingAttributes([1, 3], 1)` returns exactly two pairs, for the attributes `1` and `3` in
that order, with the non-zero coefficients `2` and `-1`; `satisfyingAttributes([1], 1)` returns
the empty list. -/
theorem satisfyingAttributes_example :
    examplePolicy.satisfyingAttributes [1, 3] 1 = [(1, 2), (3, -1)] ∧
    (2 : Zr) ≠ 0 ∧ (-1 : Zr) ≠ 0 ∧
    examplePolicy.satisfyingAttributes [1] 1 = [] := by
  refine ⟨?_, zr_two_ne_zero, zr_neg_one_ne_zero, ?_⟩
  · rw [examplePolicy_sat_13]
    simp
  · by_contra hne
    have := (Node.satDecides [1] examplePolicy 1).1 hne
    revert this
    decide

theorem Node.threshold_single (a : ℤ) (t : NodeType) (child : Node) :
    (Node.mk a t [child]).getThreshold = 1 := by
  cases t <;> rfl

theorem Node.recoverCoefficients_single (a : ℤ) (t : NodeType) (child : Node) :
    (Node.mk a t [child]).recoverCoefficients = [1] := by
  have hthr := Node.threshold_single a t child
  have hlen := Node.recoverCoefficients_length (Node.mk a t [child])
  rw [hthr] at hlen
  have h0 := Node.recoverCoefficients_getD (Node.mk a t [child]) 0 (by rw [hthr]; decide)
  rw [hthr, lagrangeAtZero_one_one] at h0
  match hl : (Node.mk a t [child]).recoverCoefficients, hlen with
  | [x], _ =>
    rw [hl] at h0
    simp only [List.getD_cons_zero] at h0
    rw [h0]

theorem Node.splitShares_single (a : ℤ) (t : NodeType) (child : Node) (s : Zr) (rnd : Rng) :
    ((Node.mk a t [child]).splitShares s rnd).1 = [s] := by
  have hthr := Node.threshold_single a t child
  have hlen := Node.splitShares_length (Node.mk a t [child]) s rnd
  have hchild : (Node.mk a t [child]).children.length = 1 := rfl
  rw [hchild] at hlen
  have hx := Node.splitShares_exact (Node.mk a t [child])
    (fun _ => by rw [hchild]; decide) s rnd 1 (le_refl _) (by rw [hchild])
  unfold Node.getPolyDegree at hx
  rw [hthr, Nat.sub_self, zero_add, Finset.sum_range_one, pow_zero, mul_one,
    Node.splitCoeff_getD_zero] at hx
  match hl : ((Node.mk a t [child]).splitShares s rnd).1, hlen with
  | [x], _ =>
    rw [hl] at hx
    simp only [List.getD_cons_zero] at hx
    rw [hx]

theorem Node.satisfyingAttributes_single (a : ℤ) (t : NodeType) (child : Node)
    (attributes : List ℤ) (c : Zr) :
    (Node.mk a t [child]).satisfyingAttributes attributes c =
      child.satisfyingAttributes attributes c := by
  cases t with
  | OR =>
    rw [Node.satisfyingAttributes_or, Node.recoverCoefficients_single, List.getD_cons_zero,
      one_mul, Node.satisfyingAttributesOr_cons]
    by_cases h : child.satisfyingAttributes attributes c = []
    · rw [if_pos h, h]
      rfl
    · rw [if_neg h]
  | AND =>
    rw [Node.satisfyingAttributes_and, Node.recoverCoefficients_single,
      Node.satisfyingAttributesAnd_step, List.getD_cons_zero, one_mul]
    by_cases h : child.satisfyingAttributes attributes c = []
    · rw [if_pos h, h]
      rfl
    · rw [if_neg h]
      simp [Node.satisfyingAttributesAnd]

/-- C17. Single-child pass-through: for every inner node with exactly one child, of either
gate type, `getThreshold() = 1`, `getPolyDegree() = 0`, `recoverCoefficients() = [1]`,
`splitShares(s) = [s]`, and for every `attrs` and `currentCoeff` `c`,
`satisfyingAttributes(attrs, c)` equals the child's `satisfyingAttributes(attrs, c)`. -/
theorem single_child_pass_through (a : ℤ) (t : NodeType) (child : Node) (s : Zr) (rnd : Rng)
    (attributes : List ℤ) (c : Zr) :
    (Node.mk a t [child]).getThreshold = 1 ∧
    (Node.mk a t [child]).getPolyDegree = 0 ∧
    (Node.mk a t [child]).recoverCoefficients = [1] ∧
    ((Node.mk a t [child]).splitShares s rnd).1 = [s] ∧
    (Node.mk a t [child]).satisfyingAttributes attributes c =
      child.satisfyingAttributes attributes c := by
  refine ⟨Node.threshold_single a t child, ?_, Node.recoverCoefficients_single a t child,
    Node.splitShares_single a t child s rnd,
    Node.satisfyingAttributes_single a t child attributes c⟩
  unfold Node.getPolyDegree
  rw [Node.threshold_single]

/-! ## The `OR` branch and the coefficients of the search -/

theorem Node.satisfyingAttributesOr_leftmost (attributes : List ℤ) (c0 : Zr) (cs : List Node) :
    ∀ (i : ℕ) (d : Node), cs[i]? = some d → d.satisfyingAttributes attributes c0 ≠ [] →
      (∀ (j : ℕ) (e : Node), j < i → cs[j]? = some e →
        e.satisfyingAttributes attributes c0 = []) →
      Node.satisfyingAttributesOr cs attributes c0 = d.satisfyingAttributes attributes c0 := by
  induction cs with
  | nil => intro i d hd; simp at hd
  | cons child rest ih =>
    intro i d hd hne hprev
    rw [Node.satisfyingAttributesOr_cons]
    cases i with
    | zero =>
      have : child = d := by simpa using hd
      subst this
      rw [if_neg hne]
    | succ i =>
      have h0 := hprev 0 child (Nat.succ_pos i) (by simp)
      rw [if_pos h0]
      apply ih i d (by simpa using hd) hne
      intro j e hj he
      exact hprev (j + 1) e (Nat.succ_lt_succ hj) (by simpa using he)

theorem Node.satisfyingAttributesOr_none (attributes : List ℤ) (c0 : Zr) (cs : List Node)
    (h : ∀ d ∈ cs, d.satisfyingAttributes attributes c0 = []) :
    Node.satisfyingAttributesOr cs attributes c0 = [] := by
  induction cs with
  | nil => simp [Node.satisfyingAttributesOr]
  | cons child rest ih =>
    rw [Node.satisfyingAttributesOr_cons, if_pos (h child (List.mem_cons_self _ _))]
    exact ih (fun d hd => h d (List.mem_cons_of_mem _ hd))

/-- At an `OR` node with a child the coefficient passed down is `λ_1 · c = c`. -/
theorem Node.satisfyingAttributes_or_eq (a : ℤ) (cs : List Node) (hne : cs ≠ [])
    (attributes : List ℤ) (c : Zr) :
    (Node.mk a NodeType.OR cs).satisfyingAttributes attributes c =
      Node.satisfyingAttributesOr cs attributes c := by
  cases cs with
  | nil => exact absurd rfl hne
  | cons d ds =>
    rw [Node.satisfyingAttributes_or, Node.recoverCoefficients_or, List.getD_cons_zero, one_mul]

/-- C19. `OR` takes the leftmost satisfying child with an unchanged coefficient: for every
`OR` node with at least one child, every `attrs` and every `currentCoeff` `c`,
`satisfyingAttributes(attrs, c)` equals `child_i.satisfyingAttributes(attrs, c)` for the
smallest index `i` whose result is non-empty (the coefficient passed down, `λ_1 · c`, is `c`),
and is empty when no child's result is non-empty. -/
theorem or_takes_leftmost (a : ℤ) (cs : List Node) (hne : cs ≠ []) (attributes : List ℤ)
    (c : Zr) :
    (Node.mk a NodeType.OR cs).recoverCoefficients.getD 0 0 * c = c ∧
    (∀ (i : ℕ) (d : Node), cs[i]? = some d → d.satisfyingAttributes attributes c ≠ [] →
      (∀ (j : ℕ) (e : Node), j < i → cs[j]? = some e →
        e.satisfyingAttributes attributes c = []) →
      (Node.mk a NodeType.OR cs).satisfyingAttributes attributes c =
        d.satisfyingAttributes attributes c) ∧
    ((∀ d ∈ cs, d.satisfyingAttributes attributes c = []) →
      (Node.mk a NodeType.OR cs).satisfyingAttributes attributes c = []) := by
  refine ⟨?_, ?_, ?_⟩
  · rw [Node.recoverCoefficients_or, List.getD_cons_zero, one_mul]
  · intro i d hd hne' hprev
    rw [Node.satisfyingAttributes_or_eq a cs hne]
    exact Node.satisfyingAttributesOr_leftmost attributes c cs i d hd hne' hprev
  · intro h
    rw [Node.satisfyingAttributes_or_eq a cs hne]
    exact Node.satisfyingAttributesOr_none attributes c cs h

/-- Witness for C19: the node `1 OR 2` with the attributes `[2]`; the second child wins. -/
theorem or_takes_leftmost_witness :
    [Node.leaf 1, Node.leaf 2] ≠ [] ∧
    [Node.leaf 1, Node.leaf 2][1]? = some (Node.leaf 2) ∧
    (Node.leaf 2).satisfyingAttributes [2] 5 ≠ [] ∧
    (Node.mk 0 NodeType.OR [Node.leaf 1, Node.leaf 2]).satisfyingAttributes [2] 5 =
      (Node.leaf 2).satisfyingAttributes [2] 5 :=
  ⟨by simp, rfl, by simp [Node.leaf, Node.satisfyingAttributes_leaf],
    (or_takes_leftmost 0 [Node.leaf 1, Node.leaf 2] (by simp) [2] 5).2.1 1 (Node.leaf 2) rfl
      (by simp [Node.leaf, Node.satisfyingAttributes_leaf])
      (by
        intro j e hj he
        have hj0 : j = 0 := by omega
        subst hj0
        have : Node.leaf 1 = e := by simpa using he
        subst this
        simp [Node.leaf, Node.satisfyingAttributes_leaf])⟩

theorem scalePairs_nil (c : Zr) : scalePairs c [] = [] := rfl

theorem scalePairs_append (c : Zr) (l1 l2 : List (ℤ × Zr)) :
    scalePairs c (l1 ++ l2) = scalePairs c l1 ++ scalePairs c l2 := by
  simp [scalePairs]

theorem scalePairs_scalePairs (c l : Zr) (ps : List (ℤ × Zr)) :
    scalePairs c (scalePairs l ps) = scalePairs (l * c) ps := by
  unfold scalePairs
  rw [List.map_map]
  apply List.map_congr_left
  intro p _
  simp only [Function.comp]
  rw [mul_left_comm, mul_assoc]

theorem scalePairs_one (ps : List (ℤ × Zr)) : scalePairs 1 ps = ps := by
  unfold scalePairs
  simp

theorem scalePairs_fst (c : Zr) (ps : List (ℤ × Zr)) :
    (scalePairs c ps).map Prod.fst = ps.map Prod.fst := by
  unfold scalePairs
  rw [List.map_map]
  rfl

/-- The `AND` loop in terms of the weighted leaves of the children. -/
theorem Node.satisfyingAttributesAnd_scales (attributes : List ℤ) (c : Zr) (rec : List Zr)
    (n : ℕ) (cs : List Node) (h : ∀ d ∈ cs, SatScales attributes d) :
    ∀ i, (∀ j, i ≤ j → j < i + cs.length → rec.getD j 0 = lagrangeAtZero n (j + 1)) →
      (Node.satisfyingAttributesAnd cs attributes c rec i []).1 = true →
      (Node.satisfyingAttributesAnd cs attributes c rec i []).2 =
        scalePairs c (Node.pathWeightsAnd attributes n cs (i + 1)) := by
  induction cs with
  | nil =>
    intro i _ _
    simp [Node.satisfyingAttributesAnd, Node.pathWeightsAnd, scalePairs]
  | cons child rest ih =>
    intro i hrec hb
    rw [Node.satisfyingAttributesAnd_step] at hb ⊢
    by_cases hs : child.satisfyingAttributes attributes (rec.getD i 0 * c) = []
    · rw [if_pos hs] at hb; simp at hb
    · rw [if_neg hs] at hb ⊢
      simp only at hb ⊢
      rw [ih (fun d hd => h d (List.mem_cons_of_mem _ hd)) (i + 1)
        (fun j hj1 hj2 => hrec j (by omega) (by simp only [List.length_cons]; omega)) hb,
        h child (List.mem_cons_self _ _), Node.pathWeightsAnd, scalePairs_append,
        scalePairs_scalePairs, hrec i (le_refl _) (by simp only [List.length_cons]; omega)]

/-- The `OR` loop in terms of the weighted leaves of the leftmost true child. -/
theorem Node.satisfyingAttributesOr_scales (attributes : List ℤ) (c : Zr) (cs : List Node)
    (h : ∀ d ∈ cs, SatScales attributes d) :
    Node.satisfyingAttributesOr cs attributes (lagrangeAtZero 1 1 * c) =
      scalePairs c (Node.pathWeightsOr attributes cs) := by
  induction cs with
  | nil => simp [Node.satisfyingAttributesOr, Node.pathWeightsOr, scalePairs]
  | cons child rest ih =>
    have hdec := Node.satDecides attributes child (lagrangeAtZero 1 1 * c)
    rw [Node.satisfyingAttributesOr_cons, Node.pathWeightsOr]
    by_cases hs : child.satisfyingAttributes attributes (lagrangeAtZero 1 1 * c) = []
    · have he : ¬ child.eval attributes = true := fun he => hdec.2 he hs
      rw [if_pos hs, if_neg he]
      exact ih (fun d hd => h d (List.mem_cons_of_mem _ hd))
    · rw [if_neg hs, if_pos (hdec.1 hs), h child (List.mem_cons_self _ _),
        scalePairs_scalePairs]

theorem Node.satScales (attributes : List ℤ) (n : Node) : SatScales attributes n := by
  induction n using Node.induct with
  | h a t cs ih =>
    intro c
    cases cs with
    | nil =>
      rw [Node.satisfyingAttributes_leaf, Node.pathWeights]
      by_cases hm : a ∈ attributes
      · rw [if_pos hm, if_pos hm]
        simp [scalePairs]
      · rw [if_neg hm, if_neg hm]
        rfl
    | cons d ds =>
      cases t with
      | AND =>
        rw [Node.satisfyingAttributes_and, Node.pathWeights]
        have hfst := Node.satisfyingAttributesAnd_fst attributes c
          (Node.mk a NodeType.AND (d :: ds)).recoverCoefficients (d :: ds)
          (fun e _ => Node.satDecides attributes e) 0
        by_cases hb : (Node.satisfyingAttributesAnd (d :: ds) attributes c
            (Node.mk a NodeType.AND (d :: ds)).recoverCoefficients 0 []).1 = true
        · rw [if_pos hb, if_pos (hfst.1 hb)]
          exact Node.satisfyingAttributesAnd_scales attributes c _ (d :: ds).length (d :: ds)
            ih 0 (fun j _ hj => Node.recoverCoefficients_getD _ j (by simpa using hj)) hb
        · rw [if_neg hb, if_neg (fun he => hb (hfst.2 he))]
          rfl
      | OR =>
        rw [Node.satisfyingAttributes_or, Node.pathWeights]
        rw [(Node.or_local a (d :: ds) 0 (fun _ => 0)).1, ← lagrangeAtZero_one_one]
        exact Node.satisfyingAttributesOr_scales attributes c (d :: ds) ih

/-- C20. Coefficients are the root-to-leaf product scaled by the starting coefficient: for
every policy, every `attrs` and every scalar `c`, `satisfyingAttributes(attrs, c)` has the
same attributes in the same order as `satisfyingAttributes(attrs, 1)`, each coefficient is `c`
times the corresponding coefficient of `satisfyingAttributes(attrs, 1)`, and that coefficient
is the product of the Lagrange coefficients along the path from the root to the leaf. -/
theorem coefficients_scale (n : Node) (attributes : List ℤ) (c : Zr) :
    (n.satisfyingAttributes attributes c).map Prod.fst =
      (n.satisfyingAttributes attributes 1).map Prod.fst ∧
    n.satisfyingAttributes attributes c =
      (n.satisfyingAttributes attributes 1).map (fun p => (p.1, c * p.2)) ∧
    n.satisfyingAttributes attributes 1 = n.pathWeights attributes := by
  have h1 : n.satisfyingAttributes attributes 1 = n.pathWeights attributes := by
    rw [Node.satScales attributes n 1, scalePairs_one]
  refine ⟨?_, ?_, h1⟩
  · rw [Node.satScales attributes n c, h1, scalePairs_fst]
  · rw [h1, Node.satScales attributes n c]
    rfl

/-! ## `decrypt` on the output of `encrypt` -/

theorem tagSym_hash (x : Multiplicative Zr) : (tagSym.hashElement x).length = 32 := by
  unfold tagSym
  simp only
  split_ifs <;> simp

theorem tagSym_inverts (key input : List Byte) (h : key.length = 32) :
    tagSym.symDecrypt key (tagSym.symEncrypt key input) = input := by
  unfold tagSym
  simp only
  rw [← h, List.take_left', List.drop_left', if_pos rfl] <;> rfl

theorem prefix_takeWhile_of_no_zero (p m : List Byte) (hp : p <+: m) (h0 : (0 : Byte) ∉ p) :
    p <+: m.takeWhile (fun b => b != 0) := by
  obtain ⟨t, rfl⟩ := hp
  induction p with
  | nil => exact List.nil_prefix
  | cons b p ih =>
    have hb : b ≠ 0 := fun h => h0 (h ▸ List.mem_cons_self _ _)
    have hp0 : (0 : Byte) ∉ p := fun h => h0 (List.mem_cons_of_mem _ h)
    have hb' : (b != 0) = true := by simpa using hb
    rw [List.cons_append, List.takeWhile_cons, if_pos hb']
    exact (List.prefix_cons_inj b).2 (ih hp0)

/-- C18 (amended). `decrypt` returns the NUL-terminated prefix: for every message `m`, every
policy whose root is an inner node, whose `AND` nodes have at most 14 children and whose leaf
attributes are pairwise distinct, every `attrs` that satisfies it, parameters from `setup(U)`
with `U` containing the leaves and `attrs` and all sampled `s_a` non-zero, and a symmetric
layer whose decryption under the same 32-byte key inverts its encryption: `encrypt` seals the
`|m| + 1` bytes of `m` followed by `0x00` under the key of `Cs = pk^k`, and `decrypt` on its
output returns the longest prefix of `m` without a `0x00` byte, which is `m` itself exactly
when `m` contains no `0x00` byte, and the empty string when `m` is empty. -/
theorem decrypt_returns_prefix {G : Type} [Monoid G] (sym : SymLayer G) (U : List ℤ)
    (pub0 : PublicParams G) (priv0 : PrivateParams) (mk : Zr) (g : G) (s : Rng)
    (policy : Node) (rnd : Rng) (attributes : List ℤ) (k : Zr) (message : List Byte)
    (hhash : ∀ x, (sym.hashElement x).length = 32)
    (hsym : ∀ key input, key.length = 32 →
      sym.symDecrypt key (sym.symEncrypt key input) = input)
    (hg : g ^ r = 1) (hs : ∀ i, i < U.length → s i ≠ 0)
    (hleafs : ∀ a ∈ policy.getLeafs, a ∈ U) (hattrs : ∀ a ∈ attributes, a ∈ U)
    (hdistinct : policy.DistinctLeaves) (hex : policy.powExact = true)
    (hroot : policy.children ≠ []) (heval : policy.eval attributes = true) :
    ∃ (key : DecryptionKey) (Cw : Cw_t G),
      keyGeneration (setup U pub0 priv0 mk g s).2 policy rnd = Except.ok key ∧
      encrypt sym (setup U pub0 priv0 mk g s).1 attributes message k =
        Except.ok (sym.symEncrypt
          (sym.hashElement (element_pow_zn (setup U pub0 priv0 mk g s).1.pk k))
          (message ++ [0]), Cw) ∧
      (message ++ [0]).length = message.length + 1 ∧
      decrypt sym key Cw attributes (sym.symEncrypt
          (sym.hashElement (element_pow_zn (setup U pub0 priv0 mk g s).1.pk k))
          (message ++ [0])) =
        Except.ok (message.takeWhile (fun b => b != 0)) ∧
      (message.takeWhile (fun b => b != 0) <+: message) ∧
      ((0 : Byte) ∉ message.takeWhile (fun b => b != 0)) ∧
      (∀ p : List Byte, p <+: message → (0 : Byte) ∉ p →
        p <+: message.takeWhile (fun b => b != 0)) ∧
      (message.takeWhile (fun b => b != 0) = message ↔ (0 : Byte) ∉ message) ∧
      (message = [] → message.takeWhile (fun b => b != 0) = []) := by
  obtain ⟨key, Cw, h1, -, h2, h3⟩ := kem_roundtrip U pub0 priv0 mk g s policy rnd attributes k
    hg hs hleafs hattrs ((Node.nodup_getLeafs_iff policy).2 hdistinct) hex hroot heval
  refine ⟨key, Cw, h1, ?_, by simp, ?_, List.takeWhile_prefix _, ?_,
    fun p hp h0 => prefix_takeWhile_of_no_zero p message hp h0, ?_, ?_⟩
  · unfold encrypt
    rw [h2]
  · unfold decrypt
    rw [h3]
    simp only
    rw [hsym _ _ (hhash _), takeWhile_append_zero]
  · intro hmem
    have := List.mem_takeWhile_imp hmem
    simp at this
  · constructor
    · intro h hmem
      rw [← h] at hmem
      have := List.mem_takeWhile_imp hmem
      simp at this
    · exact takeWhile_of_no_zero message
  · intro h
    rw [h]
    rfl

/-- Witness for C18 (amended): the test `encryptAndDecrypt` with the message `[72, 0, 105]`. -/
theorem decrypt_returns_prefix_witness :
    ∃ (key : DecryptionKey) (Cw : Cw_t (Multiplicative Zr)),
      keyGeneration (setup [1, 2, 3, 4] (PublicParams.mk 1 ElementMap.empty)
        (PrivateParams.make 0 ElementMap.empty) 7 unitG (fun _ => 1)).2 orPolicy
        (fun _ => 2) = Except.ok key ∧
      encrypt tagSym (setup [1, 2, 3, 4] (PublicParams.mk 1 ElementMap.empty)
        (PrivateParams.make 0 ElementMap.empty) 7 unitG (fun _ => 1)).1 [1] [72, 0, 105] 5 =
        Except.ok (tagSym.symEncrypt (tagSym.hashElement (element_pow_zn
          (setup [1, 2, 3, 4] (PublicParams.mk 1 ElementMap.empty)
            (PrivateParams.make 0 ElementMap.empty) 7 unitG (fun _ => 1)).1.pk 5))
          ([72, 0, 105] ++ [0]), Cw) ∧
      decrypt tagSym key Cw [1] (tagSym.symEncrypt (tagSym.hashElement (element_pow_zn
          (setup [1, 2, 3, 4] (PublicParams.mk 1 ElementMap.empty)
            (PrivateParams.make 0 ElementMap.empty) 7 unitG (fun _ => 1)).1.pk 5))
          ([72, 0, 105] ++ [0])) =
        Except.ok (([72, 0, 105] : List Byte).takeWhile (fun b => b != 0)) := by
  obtain ⟨key, Cw, h1, h2, -, h3, -⟩ := decrypt_returns_prefix tagSym [1, 2, 3, 4]
    (PublicParams.mk 1 ElementMap.empty) (PrivateParams.make 0 ElementMap.empty) 7 unitG
    (fun _ => 1) orPolicy (fun _ => 2) [1] 5 [72, 0, 105] tagSym_hash tagSym_inverts
    unitG_pow_r (fun _ _ => one_ne_zero) (by decide) (by decide) orPolicy_distinct (by decide)
    (by simp [orPolicy, Node.inner, Node.children]) (by decide)
  exact ⟨key, Cw, h1, h2, h3⟩

/-- C18 (counterexample). With the sampled value `s_1 = 0` (universe `[1]`, policy `OR(1)`,
attributes `[1]`, `mk = 1`, `k = 1`, `g` a generator) and the message `[72]`, `keyGeneration`
returns no key, because `element_div` by `s_1 = 0` has no result; and whatever scalar that
division leaves in `Di[1]`, `decrypt` on the output of `encrypt` returns the empty string, not
the prefix `[72]` of the message: the recovered `Cs` is the neutral element, not `pk^k = g`, so
the symmetric keys differ. -/
theorem decrypt_zero_scalar :
    singlePolicy.eval [1] = true ∧ (∀ a ∈ singlePolicy.getLeafs, a ∈ [(1 : ℤ)]) ∧
    (∀ key input, key.length = 32 →
      tagSym.symDecrypt key (tagSym.symEncrypt key input) = input) ∧
    keyGeneration zeroParams.2 singlePolicy (fun _ => 0) =
      Except.error (Error.zeroDivisor 1) ∧
    ∃ (ciphertext : List Byte) (Cw : Cw_t (Multiplicative Zr)),
      encrypt tagSym zeroParams.1 [1] [72] 1 = Except.ok (ciphertext, Cw) ∧
      (∀ d : Zr, decrypt tagSym { accessPolicy := singlePolicy, Di := ElementMap.empty.set 1 d }
        Cw [1] ciphertext = Except.ok []) ∧
      ([72] : List Byte).takeWhile (fun b => b != 0) = [72] ∧
      ([] : List Byte) ≠ [72] := by
  obtain ⟨-, hk, hc, hr⟩ := zeroParams_run
  refine ⟨by decide, by decide, tagSym_inverts, hk,
    tagSym.symEncrypt (tagSym.hashElement unitG) ([72] ++ [0]), zeroCw, ?_, ?_,
    by decide, by decide⟩
  · unfold encrypt
    rw [hc]
  · intro d
    have hr' := hr d
    unfold zeroKey at hr'
    unfold decrypt
    rw [hr']
    have hne : Multiplicative.toAdd unitG ≠ 0 := by
      unfold unitG
      simp
    simp [tagSym, hne]
    decide

/-- Powers of the generator of the additive model of the group: `g^x` is `x` itself. -/
theorem element_pow_zn_unitG (x : Zr) : element_pow_zn unitG x = Multiplicative.ofAdd x := by
  unfold element_pow_zn unitG
  rw [← ofAdd_nsmul, nsmul_eq_mul, mul_one, ZMod.natCast_zmod_val]

/-- The shares of `mk = 0` at the root of `dupPolicy` with `c_1 = 1`: `q(1) = 1`, `q(2) = 2`. -/
theorem dupPolicy_splits :
    (dupPolicy.splitShares 0 (fun _ => 1)).1 = [1, 2] := by
  have hchild : dupPolicy.children.length = 2 := rfl
  have hdeg : dupPolicy.getPolyDegree = 1 := rfl
  apply list_eq_of_getD
  · rw [Node.splitShares_length, hchild]
  · have h := Node.splitShares_exact dupPolicy (fun _ => by rw [hchild]; decide) 0 (fun _ => 1) 1
      (le_refl _) (by rw [hchild]; decide)
    rw [hdeg] at h
    rw [h]
    simp [Finset.sum_range_succ, Node.splitCoeff, hdeg]
  · have h := Node.splitShares_exact dupPolicy (fun _ => by rw [hchild]; decide) 0 (fun _ => 1) 2
      (by decide) (by rw [hchild])
    rw [hdeg] at h
    rw [h]
    simp [Finset.sum_range_succ, Node.splitCoeff, hdeg]

/-- The shares of the two leaves of `dupPolicy`, in leaf order. -/
theorem dupPolicy_shares :
    (dupPolicy.getSecretShares 0 (fun _ => 1)).1 = [1, 2] := by
  have h : dupPolicy = Node.mk 0 NodeType.AND [Node.mk 1 NodeType.OR [], Node.mk 1 NodeType.OR []] := rfl
  have hs := dupPolicy_splits
  rw [h] at hs ⊢
  rw [Node.getSecretShares_inner, hs]
  simp [Node.getSecretSharesLoop, Node.getSecretShares]

/-- The search on `dupPolicy` returns the repeated attribute twice, with `l_1(0) = 2` and
`l_2(0) = -1`. -/
theorem dupPolicy_sat : dupPolicy.satisfyingAttributes [1] 1 = [(1, 2), (1, -1)] := by
  unfold dupPolicy Node.inner
  rw [Node.satisfyingAttributes_and, Node.recoverCoefficients_and_two,
    Node.satisfyingAttributesAnd_step, Node.satisfyingAttributesAnd_step]
  simp [Node.satisfyingAttributesAnd, Node.leaf, Node.satisfyingAttributes_leaf]

/-- The run on a policy with a repeated leaf attribute (`s_1 = 1`): all three calls return,
`createSecret` returns `Cs = pk^k`, the neutral element, and `recoverSecret` returns `g^2`. -/
theorem duplicate_leaf_run :
    dupPolicy.eval [1] = true ∧
    ∃ (key : DecryptionKey) (Cw : Cw_t (Multiplicative Zr)),
      keyGeneration dupParams.2 dupPolicy (fun _ => 1) = Except.ok key ∧
      createSecret dupParams.1 [1] 1 = Except.ok (Cw, 1) ∧
      recoverSecret key Cw [1] = Except.ok (Multiplicative.ofAdd 2) ∧
      Multiplicative.ofAdd (2 : Zr) ≠ 1 := by
  refine ⟨by decide, { accessPolicy := dupPolicy, Di := ElementMap.empty.set 1 2 },
    ElementMap.empty.set 1 unitG, ?_, ?_, ?_, ?_⟩
  · have hl : dupPolicy.getLeafs = [1, 1] := by decide
    have hmk : dupParams.2.mk = 0 := rfl
    have hSi : dupParams.2.Si 1 = some 1 := by
      simp [dupParams, setup, setupLoop, ElementMap.set]
    have hDi : (ElementMap.empty.set 1 (([1, 2] : List Zr).headD 0 / 1)).set 1
        (([1, 2] : List Zr).tail.headD 0 / 1) = ElementMap.empty.set 1 2 := by
      funext a
      by_cases ha : a = 1 <;> simp [ha, ElementMap.empty, ElementMap.set]
    have hloop : keyGenerationLoop dupParams.2.Si element_div dupPolicy.getLeafs
        (dupPolicy.getSecretShares dupParams.2.mk (fun _ => 1)).1 ElementMap.empty =
        (Except.ok (ElementMap.empty.set 1 2), dupParams.2.Si.slots) := by
      rw [hl, hmk, dupPolicy_shares,
        keyGenerationLoop_step _ element_div 1 [1] _ _ 1 _ hSi
          (element_div_of_ne_zero _ _ one_ne_zero),
        keyGenerationLoop_step _ element_div 1 [] _ _ 1 _ hSi
          (element_div_of_ne_zero _ _ one_ne_zero),
        keyGenerationLoop_nil, hDi]
    exact (keyGeneration_of_loop dupParams.2 dupPolicy (fun _ => 1) _ _ hloop).1
  · simp [createSecret, createSecretLoop, dupParams, setup, setupLoop, ElementMap.set,
      element_pow_zn, ZMod.val_one]
  · unfold recoverSecret
    simp only [dupPolicy_sat]
    simp [dupPolicy, Node.inner, Node.children, recoverSecretLoop, ElementMap.set,
      element_pow_zn_unitG]
    rw [← ofAdd_neg, ← ofAdd_add]
    exact congrArg Multiplicative.ofAdd (by ring)
  · intro h
    exact zr_two_ne_zero (Multiplicative.ofAdd.injective h)

/-! ## The satisfying set as a subsequence of the leaves -/

theorem attrsOf_append (l1 l2 : List (ℤ × Zr)) : attrsOf (l1 ++ l2) = attrsOf l1 ++ attrsOf l2 := by
  simp [attrsOf]

/-- The `AND` loop returns a subsequence of the leaves of the children it ran over. -/
theorem Node.satisfyingAttributesAnd_sublist (attributes : List ℤ) (c : Zr) (rec : List Zr)
    (cs : List Node) (h : ∀ d ∈ cs, SatSublist attributes d) :
    ∀ i, (attrsOf (Node.satisfyingAttributesAnd cs attributes c rec i []).2).Sublist
      (Node.getLeafsLoop cs) := by
  induction cs with
  | nil => intro i; simp [Node.satisfyingAttributesAnd, Node.getLeafsLoop, attrsOf]
  | cons child rest ih =>
    intro i
    have hc := h child (List.mem_cons_self _ _) (rec.getD i 0 * c)
    have ih' := ih (fun d hd => h d (List.mem_cons_of_mem _ hd)) (i + 1)
    rw [Node.satisfyingAttributesAnd_step, Node.getLeafsLoop_cons]
    by_cases hs : child.satisfyingAttributes attributes (rec.getD i 0 * c) = []
    · rw [if_pos hs]
      exact List.nil_sublist _
    · rw [if_neg hs, attrsOf_append]
      exact List.Sublist.append hc ih'

/-- The `OR` loop returns a subsequence of the leaves of the children. -/
theorem Node.satisfyingAttributesOr_sublist (attributes : List ℤ) (c0 : Zr)
    (cs : List Node) (h : ∀ d ∈ cs, SatSublist attributes d) :
    (attrsOf (Node.satisfyingAttributesOr cs attributes c0)).Sublist (Node.getLeafsLoop cs) := by
  induction cs with
  | nil => simp [Node.satisfyingAttributesOr, Node.getLeafsLoop, attrsOf]
  | cons child rest ih =>
    have hc := h child (List.mem_cons_self _ _) c0
    have ih' := ih (fun d hd => h d (List.mem_cons_of_mem _ hd))
    rw [Node.satisfyingAttributesOr_cons, Node.getLeafsLoop_cons]
    by_cases hs : child.satisfyingAttributes attributes c0 = []
    · rw [if_pos hs]
      exact ih'.trans (List.sublist_append_right _ _)
    · rw [if_neg hs]
      exact hc.trans (List.sublist_append_left _ _)

/-- The search result of every node is a subsequence of its leaf enumeration. -/
theorem Node.satSublist (attributes : List ℤ) (n : Node) : SatSublist attributes n := by
  induction n using Node.induct with
  | h a t cs ih =>
    intro c
    cases cs with
    | nil =>
      rw [Node.satisfyingAttributes_leaf, Node.getLeafs_leaf]
      by_cases ha : a ∈ attributes
      · rw [if_pos ha]; exact List.Sublist.refl _
      · rw [if_neg ha]; exact List.nil_sublist _
    | cons d ds =>
      rw [Node.getLeafs_inner]
      cases t with
      | AND =>
        rw [Node.satisfyingAttributes_and]
        by_cases hb : (Node.satisfyingAttributesAnd (d :: ds) attributes c
            (Node.mk a NodeType.AND (d :: ds)).recoverCoefficients 0 []).1 = true
        · rw [if_pos hb]
          exact Node.satisfyingAttributesAnd_sublist attributes c _ _ ih 0
        · rw [if_neg hb]
          exact List.nil_sublist _
      | OR =>
        rw [Node.satisfyingAttributes_or]
        exact Node.satisfyingAttributesOr_sublist attributes _ _ ih

/-- C21. The satisfying set is drawn from the supplied attributes and the leaves of the policy:
for every policy, attribute list and coefficient, the attribute sequence of
`satisfyingAttributes(attrs, currentCoeff)` is a subsequence of `getLeafs()` (same left-to-right
order, no leaf position used twice), every attribute in it is a member of `attrs`, and with
pairwise distinct leaf attributes no attribute is returned twice. -/
theorem satisfyingAttributes_drawn (n : Node) (attributes : List ℤ) (currentCoeff : Zr) :
    (attrsOf (n.satisfyingAttributes attributes currentCoeff)).Sublist n.getLeafs ∧
    (∀ a ∈ attrsOf (n.satisfyingAttributes attributes currentCoeff), a ∈ attributes) ∧
    (n.DistinctLeaves → (attrsOf (n.satisfyingAttributes attributes currentCoeff)).Nodup) := by
  refine ⟨Node.satSublist attributes n currentCoeff, ?_, ?_⟩
  · intro a ha
    obtain ⟨p, hp, rfl⟩ := List.mem_map.1 ha
    exact (Node.satSubset attributes n currentCoeff p hp).2
  · intro hd
    exact (Node.satSublist attributes n currentCoeff).nodup ((Node.nodup_getLeafs_iff n).2 hd)

/-- Witness for C21 on the policy `(1 OR 2) AND (3 OR 4)` with the attributes `[3, 1]`: the
search returns the attributes `[1, 3]`, in leaf order. -/
theorem satisfyingAttributes_drawn_witness :
    examplePolicy.DistinctLeaves ∧
      attrsOf (examplePolicy.satisfyingAttributes [3, 1] 1) = [1, 3] ∧
      (attrsOf (examplePolicy.satisfyingAttributes [3, 1] 1)).Sublist examplePolicy.getLeafs ∧
      (∀ a ∈ attrsOf (examplePolicy.satisfyingAttributes [3, 1] 1), a ∈ ([3, 1] : List ℤ)) ∧
      (attrsOf (examplePolicy.satisfyingAttributes [3, 1] 1)).Nodup :=
  ⟨examplePolicy_distinct, by
      simp [attrsOf, examplePolicy, Node.inner, Node.leaf, Node.satisfyingAttributes,
        Node.satisfyingAttributesAnd, Node.satisfyingAttributesOr],
    (satisfyingAttributes_drawn examplePolicy [3, 1] 1).1,
    (satisfyingAttributes_drawn examplePolicy [3, 1] 1).2.1,
    (satisfyingAttributes_drawn examplePolicy [3, 1] 1).2.2 examplePolicy_distinct⟩

/-! ## Monotonicity of the policy check -/

theorem Node.evalAll_mono (A B : List ℤ) (cs : List Node)
    (h : ∀ d ∈ cs, d.eval A = true → d.eval B = true) :
    Node.evalAll A cs = true → Node.evalAll B cs = true := by
  induction cs with
  | nil => simp [Node.evalAll]
  | cons d ds ih =>
    rw [Node.evalAll, Node.evalAll, Bool.and_eq_true, Bool.and_eq_true]
    intro hA
    exact ⟨h d (List.mem_cons_self _ _) hA.1,
      ih (fun e he => h e (List.mem_cons_of_mem _ he)) hA.2⟩

theorem Node.evalAny_mono (A B : List ℤ) (cs : List Node)
    (h : ∀ d ∈ cs, d.eval A = true → d.eval B = true) :
    Node.evalAny A cs = true → Node.evalAny B cs = true := by
  induction cs with
  | nil => simp [Node.evalAny]
  | cons d ds ih =>
    rw [Node.evalAny, Node.evalAny, Bool.or_eq_true, Bool.or_eq_true]
    intro hA
    rcases hA with hA | hA
    · exact Or.inl (h d (List.mem_cons_self _ _) hA)
    · exact Or.inr (ih (fun e he => h e (List.mem_cons_of_mem _ he)) hA)

/-- The truth value of a policy is monotone in the set of supplied attributes. -/
theorem Node.eval_mono (A B : List ℤ) (hAB : ∀ a ∈ A, a ∈ B) (n : Node) :
    n.eval A = true → n.eval B = true := by
  induction n using Node.induct with
  | h a t cs ih =>
    cases cs with
    | nil =>
      simp only [Node.eval, decide_eq_true_eq]
      exact hAB a
    | cons d ds =>
      cases t with
      | AND =>
        simp only [Node.eval]
        exact Node.evalAll_mono A B _ ih
      | OR =>
        simp only [Node.eval]
        exact Node.evalAny_mono A B _ ih

theorem Node.satisfyingAttributesAnd_agree (A B : List ℤ) (c : Zr) (rec : List Zr)
    (cs : List Node) (h : ∀ d ∈ cs, SatAgree A B d) :
    ∀ (i : ℕ) (total : List (ℤ × Zr)),
      Node.satisfyingAttributesAnd cs A c rec i total =
        Node.satisfyingAttributesAnd cs B c rec i total := by
  induction cs with
  | nil => intro i total; simp [Node.satisfyingAttributesAnd]
  | cons child rest ih =>
    intro i total
    rw [Node.satisfyingAttributesAnd_cons, Node.satisfyingAttributesAnd_cons,
      h child (List.mem_cons_self _ _) (rec.getD i 0 * c),
      ih (fun d hd => h d (List.mem_cons_of_mem _ hd))]

theorem Node.satisfyingAttributesOr_agree (A B : List ℤ) (c0 : Zr)
    (cs : List Node) (h : ∀ d ∈ cs, SatAgree A B d) :
    Node.satisfyingAttributesOr cs A c0 = Node.satisfyingAttributesOr cs B c0 := by
  induction cs with
  | nil => simp [Node.satisfyingAttributesOr]
  | cons child rest ih =>
    rw [Node.satisfyingAttributesOr_cons, Node.satisfyingAttributesOr_cons,
      h child (List.mem_cons_self _ _) c0,
      ih (fun d hd => h d (List.mem_cons_of_mem _ hd))]

/-- The search reads the attribute list only through the membership test at the leaves. -/
theorem Node.satAgree (A B : List ℤ) (hAB : ∀ a, a ∈ A ↔ a ∈ B) (n : Node) :
    SatAgree A B n := by
  induction n using Node.induct with
  | h a t cs ih =>
    intro c
    cases cs with
    | nil =>
      rw [Node.satisfyingAttributes_leaf, Node.satisfyingAttributes_leaf]
      by_cases ha : a ∈ A
      · rw [if_pos ha, if_pos ((hAB a).1 ha)]
      · rw [if_neg ha, if_neg (fun hb => ha ((hAB a).2 hb))]
    | cons d ds =>
      cases t with
      | AND =>
        rw [Node.satisfyingAttributes_and, Node.satisfyingAttributes_and,
          Node.satisfyingAttributesAnd_agree A B c _ _ ih]
      | OR =>
        rw [Node.satisfyingAttributes_or, Node.satisfyingAttributes_or,
          Node.satisfyingAttributesOr_agree A B _ _ ih]

/-- C22. Monotonicity of the policy check: for every policy and every two attribute lists `A`
and `B` such that every member of `A` is a member of `B`, if `satisfyingAttributes(A, c)` is
non-empty then `satisfyingAttributes(B, c)` is non-empty; and the result depends on the
attribute list only through its set of members: if moreover every member of `B` is a member of
`A` (same members, whatever the order and the repetitions), the two results are equal. -/
theorem satisfyingAttributes_monotone (n : Node) (A B : List ℤ) (c : Zr)
    (hAB : ∀ a ∈ A, a ∈ B) :
    (n.satisfyingAttributes A c ≠ [] → n.satisfyingAttributes B c ≠ []) ∧
    ((∀ a ∈ B, a ∈ A) → n.satisfyingAttributes A c = n.satisfyingAttributes B c) := by
  constructor
  · intro hA
    exact (Node.satDecides B n c).2 (Node.eval_mono A B hAB n ((Node.satDecides A n c).1 hA))
  · intro hBA
    exact Node.satAgree A B (fun a => ⟨hAB a, hBA a⟩) n c

/-- Witness for C22 on the policy `(1 OR 2) AND (3 OR 4)`: the attributes `[1, 3]` satisfy it,
so do `[3, 5, 1, 1]`; and `[3, 1, 1]` gives the same result as `[1, 3]`. -/
theorem satisfyingAttributes_monotone_witness :
    (∀ a ∈ ([1, 3] : List ℤ), a ∈ ([3, 5, 1, 1] : List ℤ)) ∧
    examplePolicy.satisfyingAttributes [1, 3] 1 ≠ [] ∧
    examplePolicy.satisfyingAttributes [3, 5, 1, 1] 1 ≠ [] ∧
    (∀ a ∈ ([1, 3] : List ℤ), a ∈ ([3, 1, 1] : List ℤ)) ∧
    (∀ a ∈ ([3, 1, 1] : List ℤ), a ∈ ([1, 3] : List ℤ)) ∧
    examplePolicy.satisfyingAttributes [1, 3] 1 = examplePolicy.satisfyingAttributes [3, 1, 1] 1 :=
  have hsat : examplePolicy.satisfyingAttributes [1, 3] 1 ≠ [] :=
    (Node.satDecides [1, 3] examplePolicy 1).2 (by decide)
  ⟨by decide, hsat,
    (satisfyingAttributes_monotone examplePolicy [1, 3] [3, 5, 1, 1] 1 (by decide)).1 hsat,
    by decide, by decide,
    (satisfyingAttributes_monotone examplePolicy [1, 3] [3, 1, 1] 1 (by decide)).2 (by decide)⟩

/-! ## Index safety -/

theorem writeAt_of_lt {α : Type} (v : List α) (i : ℕ) (x : α) (h : i < v.length) :
    writeAt v i x = some (v.set i x) := by
  unfold writeAt
  rw [if_pos h]

/-- A run of checked writes at the positions `off, off + 1, ..., off + k - 1` that all lie
inside the vector succeeds and changes exactly these slots. -/
theorem foldlM_writeAt {α : Type} (g : ℕ → α) (off : ℕ) :
    ∀ (k : ℕ) (v : List α), off + k ≤ v.length →
      ∃ w, (List.range k).foldlM (fun c i => writeAt c (i + off) (g i)) v = some w ∧
        w.length = v.length ∧
        ∀ j, w[j]? = if off ≤ j ∧ j < off + k then some (g (j - off)) else v[j]? := by
  intro k
  induction k with
  | zero =>
    intro v _
    refine ⟨v, rfl, rfl, ?_⟩
    intro j
    rw [if_neg (by omega)]
  | succ k ih =>
    intro v hv
    obtain ⟨w, hw, hlen, hget⟩ := ih v (by omega)
    refine ⟨w.set (k + off) (g k), ?_, ?_, ?_⟩
    · rw [List.range_succ, List.foldlM_append, hw]
      show List.foldlM (fun c i => writeAt c (i + off) (g i)) w [k] = _
      rw [List.foldlM_cons, writeAt_of_lt w (k + off) (g k) (by omega)]
      rfl
    · rw [List.length_set, hlen]
    · intro j
      rw [List.getElem?_set]
      by_cases hj : k + off = j
      · rw [if_pos hj, if_pos (by omega), if_pos (by omega)]
        congr 2
        omega
      · rw [if_neg hj, hget j]
        by_cases h1 : off ≤ j ∧ j < off + k
        · rw [if_pos h1, if_pos (by omega)]
        · rw [if_neg h1, if_neg (by omega)]

/-- Every read `coeff[power]` of the inner loop of `splitShares` is in bounds. -/
theorem Node.shareAtChecked_eq (coeff : List Zr) (x : ℕ) :
    Node.shareAtChecked coeff x = some (Node.shareAt coeff x) := by
  unfold Node.shareAtChecked Node.shareAt
  have key : ∀ (m : ℕ), m ≤ coeff.length → ∀ init : Zr,
      (List.range m).foldlM
        (fun share power =>
          match coeff[power]? with
          | none => none
          | some c => some (share + element_set_si (doubleToLong (std_pow x power)) * c)) init =
      some ((List.range m).foldl
        (fun share power =>
          share + element_set_si (doubleToLong (std_pow x power)) * coeff.getD power 0) init) := by
    intro m
    induction m with
    | zero => intro _ init; rfl
    | succ m ih =>
      intro hm init
      rw [List.range_succ, List.foldlM_append, ih (by omega) init, List.foldl_append]
      have hlt : m < coeff.length := by omega
      simp [List.foldlM_cons, List.getElem?_eq_getElem hlt, List.getD_eq_getElem _ _ hlt]
  exact key coeff.length (le_refl _) 0

/-- A node with a child has a threshold of at least one. -/
theorem Node.getThreshold_pos (n : Node) (h : n.children ≠ []) : 0 < n.getThreshold := by
  unfold Node.getThreshold
  cases ht : n.type with
  | OR => exact Nat.one_pos
  | AND => exact List.length_pos.2 h

/-- On a node with a child every subscript of `splitShares` is in bounds, and the checked run
returns what `splitShares` returns. -/
theorem Node.splitSharesChecked_eq (n : Node) (h : n.children ≠ []) (s : Zr) (rnd : Rng) :
    n.splitSharesChecked s rnd = some (n.splitShares s rnd) := by
  have hpos := Node.getThreshold_pos n h
  have hdeg : n.getPolyDegree = n.getThreshold - 1 := rfl
  unfold Node.splitSharesChecked
  simp only []
  rw [writeAt_of_lt _ 0 s (by rw [List.length_replicate]; exact hpos)]
  obtain ⟨coeff, hcoeff, hclen, hcget⟩ := foldlM_writeAt rnd 1 n.getPolyDegree
    ((List.replicate n.getThreshold (0 : Zr)).set 0 s)
    (by rw [List.length_set, List.length_replicate]; omega)
  simp only [hcoeff]
  have hc : coeff = n.splitCoeff s rnd := by
    apply List.ext_getElem?
    intro j
    rw [hcget j]
    unfold Node.splitCoeff
    cases j with
    | zero =>
      rw [if_neg (by omega), List.getElem?_set, if_pos rfl, List.length_replicate, if_pos hpos,
        List.getElem?_cons_zero]
    | succ j =>
      rw [List.getElem?_cons_succ, List.getElem?_map]
      by_cases hj : j < n.getPolyDegree
      · rw [if_pos (by omega), List.getElem?_range hj]
        simp
      · rw [if_neg (by omega), List.getElem?_set, if_neg (by omega), List.getElem?_replicate,
          if_neg (by omega), List.getElem?_eq_none (by rw [List.length_range]; omega)]
        rfl
  obtain ⟨shares, hshares, hslen, hsget⟩ := foldlM_writeAt
    (fun x0 => Node.shareAt coeff (x0 + 1)) 0 n.children.length
    (List.replicate n.children.length (0 : Zr)) (by rw [List.length_replicate]; omega)
  simp only [Nat.add_zero] at hshares
  simp only [Node.shareAtChecked_eq, hshares]
  have hs : shares = (n.splitShares s rnd).1 := by
    apply List.ext_getElem?
    intro j
    rw [hsget j]
    unfold Node.splitShares
    simp only []
    rw [List.getElem?_map, ← hc]
    by_cases hj : j < n.children.length
    · rw [if_pos (by omega), List.getElem?_range hj]
      simp
    · rw [if_neg (by omega), List.getElem?_replicate, if_neg hj,
        List.getElem?_eq_none (by rw [List.length_range]; omega)]
      rfl
  rw [hs]
  rfl

/-- A childless node whose gate is `AND` has threshold `0`: the write of `coeff[0]` is out of
bounds, which the checked run reports. -/
theorem Node.splitSharesChecked_childless_and (a : ℤ) (s : Zr) (rnd : Rng) :
    (Node.mk a NodeType.AND []).splitSharesChecked s rnd = none := by
  rfl

/-- The loop of `getSecretShares` consumes one split share per child: with at least as many
split shares as children no step of `childSplitsIter` leaves the vector. -/
theorem Node.getSecretSharesLoopChecked_eq (cs : List Node)
    (h : ∀ d ∈ cs, ∀ (s : Zr) (rnd : Rng),
      d.getSecretSharesChecked s rnd = some (d.getSecretShares s rnd)) :
    ∀ (splits : List Zr) (rnd : Rng), cs.length ≤ splits.length →
      Node.getSecretSharesLoopChecked cs splits rnd =
        some (Node.getSecretSharesLoop cs splits rnd) := by
  induction cs with
  | nil => intro splits rnd _; simp [Node.getSecretSharesLoopChecked, Node.getSecretSharesLoop]
  | cons child rest ih =>
    intro splits rnd hlen
    cases splits with
    | nil => simp at hlen
    | cons x xs =>
      have hx : rest.length ≤ xs.length := by
        simpa using hlen
      rw [Node.getSecretSharesLoop_cons, Node.getSecretSharesLoopChecked]
      simp only [List.head?_cons, List.headD_cons, List.tail_cons]
      rw [h child (List.mem_cons_self _ _) x rnd]
      simp only []
      rw [ih (fun d hd => h d (List.mem_cons_of_mem _ hd)) xs _ hx]

/-- Every subscript and iterator step of `getSecretShares` is in bounds, at every node of the
tree. -/
theorem Node.getSecretSharesChecked_eq (n : Node) :
    ∀ (s : Zr) (rnd : Rng), n.getSecretSharesChecked s rnd = some (n.getSecretShares s rnd) := by
  induction n using Node.induct with
  | h a t cs ih =>
    intro s rnd
    cases cs with
    | nil => simp [Node.getSecretSharesChecked, Node.getSecretShares]
    | cons d ds =>
      rw [Node.getSecretShares_inner, Node.getSecretSharesChecked,
        Node.splitSharesChecked_eq _ (by simp [Node.children]) s rnd]
      simp only []
      exact Node.getSecretSharesLoopChecked_eq _ ih _ _
        (by rw [Node.splitShares_length]; exact le_refl _)

/-- The `AND` loop reads `recCoeffs[i]` for the children `i, i + 1, ...`: in bounds when
`recCoeffs` has a slot for each of them. -/
theorem Node.satisfyingAttributesAndChecked_eq (attributes : List ℤ) (c : Zr) (rec : List Zr)
    (cs : List Node)
    (h : ∀ d ∈ cs, ∀ c0 : Zr,
      d.satisfyingAttributesChecked attributes c0 = some (d.satisfyingAttributes attributes c0)) :
    ∀ (i : ℕ) (total : List (ℤ × Zr)), i + cs.length ≤ rec.length →
      Node.satisfyingAttributesAndChecked cs attributes c rec i total =
        some (Node.satisfyingAttributesAnd cs attributes c rec i total) := by
  induction cs with
  | nil =>
    intro i total _
    simp [Node.satisfyingAttributesAndChecked, Node.satisfyingAttributesAnd]
  | cons child rest ih =>
    intro i total hlen
    have hi : i < rec.length := by
      simp only [List.length_cons] at hlen
      omega
    have hrest : i + 1 + rest.length ≤ rec.length := by
      simp only [List.length_cons] at hlen
      omega
    rw [Node.satisfyingAttributesAnd_cons, Node.satisfyingAttributesAndChecked,
      List.getElem?_eq_getElem hi, List.getD_eq_getElem _ _ hi]
    simp only []
    rw [h child (List.mem_cons_self _ _)]
    simp only []
    by_cases hs : child.satisfyingAttributes attributes (rec[i] * c) = []
    · rw [if_pos hs, if_pos (by rw [hs]; rfl)]
    · rw [if_neg hs, if_neg (by simpa [List.isEmpty_iff] using hs)]
      exact ih (fun d hd => h d (List.mem_cons_of_mem _ hd)) (i + 1) _ hrest

theorem Node.satisfyingAttributesOrChecked_eq (attributes : List ℤ) (c0 : Zr)
    (cs : List Node)
    (h : ∀ d ∈ cs, ∀ c : Zr,
      d.satisfyingAttributesChecked attributes c = some (d.satisfyingAttributes attributes c)) :
    Node.satisfyingAttributesOrChecked cs attributes c0 =
      some (Node.satisfyingAttributesOr cs attributes c0) := by
  induction cs with
  | nil => simp [Node.satisfyingAttributesOrChecked, Node.satisfyingAttributesOr]
  | cons child rest ih =>
    rw [Node.satisfyingAttributesOr_cons, Node.satisfyingAttributesOrChecked,
      h child (List.mem_cons_self _ _)]
    simp only []
    by_cases hs : child.satisfyingAttributes attributes c0 = []
    · rw [if_pos hs, if_neg (by rw [hs]; simp)]
      exact ih (fun d hd => h d (List.mem_cons_of_mem _ hd))
    · rw [if_neg hs, if_pos (by simpa [List.isEmpty_iff] using hs)]

/-- Every subscript of `satisfyingAttributes` is in bounds, at every node of the tree:
`recCoeffs` has `threshold` slots, one per child at an `AND` node and one at an `OR` node. -/
theorem Node.satisfyingAttributesChecked_eq (attributes : List ℤ) (n : Node) :
    ∀ c : Zr, n.satisfyingAttributesChecked attributes c =
      some (n.satisfyingAttributes attributes c) := by
  induction n using Node.induct with
  | h a t cs ih =>
    intro c
    cases cs with
    | nil => simp [Node.satisfyingAttributesChecked, Node.satisfyingAttributes]
    | cons d ds =>
      cases t with
      | AND =>
        rw [Node.satisfyingAttributes_and, Node.satisfyingAttributesChecked]
        rw [Node.satisfyingAttributesAndChecked_eq attributes c _ _ ih 0 []
          (by rw [Node.recoverCoefficients_length]; simp [Node.getThreshold, Node.type,
            Node.children])]
      | OR =>
        have hlen : 0 < (Node.mk a NodeType.OR (d :: ds)).recoverCoefficients.length := by
          rw [Node.recoverCoefficients_length]
          exact Nat.one_pos
        rw [Node.satisfyingAttributes_or, Node.satisfyingAttributesChecked]
        rw [List.getElem?_eq_getElem hlen, List.getD_eq_getElem _ _ hlen]
        exact Node.satisfyingAttributesOrChecked_eq attributes _ _ ih

/-- The loop of `_keyGeneration` steps `sharesIter` once per leaf: with at least as many shares
as leaves no step leaves the vector. -/
theorem keyGenerationLoopChecked_eq (K : ElementMap Zr) (f : Zr → Zr → Option Zr) :
    ∀ (leafs : List ℤ) (shares : List Zr) (Di : ElementMap Zr), leafs.length ≤ shares.length →
      keyGenerationLoopChecked K f leafs shares Di = some (keyGenerationLoop K f leafs shares Di) := by
  intro leafs
  induction leafs with
  | nil =>
    intro shares Di _
    rw [keyGenerationLoop_nil]
    rfl
  | cons attr leafs ih =>
    intro shares Di hlen
    cases shares with
    | nil => simp at hlen
    | cons x xs =>
      have hx : leafs.length ≤ xs.length := by
        simpa using hlen
      rw [keyGenerationLoopChecked]
      simp only [List.head?_cons, List.tail_cons]
      cases hk : K attr with
      | none =>
        rw [keyGenerationLoop_absent_head K f attr leafs (x :: xs) Di hk]
      | some key =>
        cases hf : f x key with
        | none =>
          rw [keyGenerationLoop_undefined_head K f attr leafs (x :: xs) Di key hk hf]
          simp only [hf]
        | some attrDi =>
          rw [keyGenerationLoop_step K f attr leafs (x :: xs) Di key attrDi hk hf]
          simp only [hf, List.tail_cons]
          exact ih xs _ hx

/-- Every subscript and iterator step of `_keyGeneration` is in bounds: `shares` has one entry
per entry of `getLeafs()`. -/
theorem _keyGenerationChecked_eq (rootSecret : Zr) (K : ElementMap Zr)
    (f : Zr → Zr → Option Zr) (accessPolicy : Node) (rnd : Rng) :
    _keyGenerationChecked rootSecret K f accessPolicy rnd =
      some (_keyGeneration rootSecret K f accessPolicy rnd) := by
  unfold _keyGenerationChecked _keyGeneration
  simp only []
  rw [Node.getSecretSharesChecked_eq accessPolicy rootSecret rnd]
  simp only []
  rw [keyGenerationLoopChecked_eq K f _ _ _
    (le_of_eq (Node.sharesSpec accessPolicy rootSecret rnd).1.symm)]
  simp only []
  cases (keyGenerationLoop K f accessPolicy.getLeafs
      (accessPolicy.getSecretShares rootSecret rnd).1 ElementMap.empty).1 with
  | error e => rfl
  | ok Di => rfl

/-- C23. Index safety: for every policy tree (a node is a leaf when it has no children and an
inner node when it has at least one), every subscript used by `splitShares` on an inner node
(`coeff[0 .. threshold-1]`, `shares[x-1]`), by `getSecretShares` (one split share consumed per
child), by `satisfyingAttributes` (`recCoeffs[i]` for every child `i` of an `AND` node,
`recCoeffs[0]` at an `OR` node) and by `_keyGeneration` (shares walked in step with
`getLeafs()`) is within the bounds of the list it indexes: the runs that check every subscript
return a value, the one the functions return. -/
theorem index_safety (policy : Node) (rootSecret : Zr) (rnd : Rng) (attributes : List ℤ)
    (currentCoeff : Zr) (scramblingKeys : ElementMap Zr)
    (scramblingFunc : Zr → Zr → Option Zr) :
    (policy.children ≠ [] →
      policy.splitSharesChecked rootSecret rnd = some (policy.splitShares rootSecret rnd)) ∧
    policy.getSecretSharesChecked rootSecret rnd =
      some (policy.getSecretShares rootSecret rnd) ∧
    policy.satisfyingAttributesChecked attributes currentCoeff =
      some (policy.satisfyingAttributes attributes currentCoeff) ∧
    _keyGenerationChecked rootSecret scramblingKeys scramblingFunc policy rnd =
      some (_keyGeneration rootSecret scramblingKeys scramblingFunc policy rnd) :=
  ⟨fun h => Node.splitSharesChecked_eq policy h rootSecret rnd,
    Node.getSecretSharesChecked_eq policy rootSecret rnd,
    Node.satisfyingAttributesChecked_eq attributes policy currentCoeff,
    _keyGenerationChecked_eq rootSecret scramblingKeys scramblingFunc policy rnd⟩

/-- Witness for C23 on the policy `(1 OR 2) AND (3 OR 4)`, whose root has two children. -/
theorem index_safety_witness :
    examplePolicy.children ≠ [] ∧
    examplePolicy.splitSharesChecked 5 (fun _ => 1) =
      some (examplePolicy.splitShares 5 (fun _ => 1)) ∧
    examplePolicy.getSecretSharesChecked 5 (fun _ => 1) =
      some (examplePolicy.getSecretShares 5 (fun _ => 1)) ∧
    examplePolicy.satisfyingAttributesChecked [1, 3] 1 =
      some (examplePolicy.satisfyingAttributes [1, 3] 1) ∧
    _keyGenerationChecked 5 samplePrivate.Si element_div examplePolicy (fun _ => 1) =
      some (_keyGeneration 5 samplePrivate.Si element_div examplePolicy (fun _ => 1)) :=
  have hne : examplePolicy.children ≠ [] := by
    simp [examplePolicy, Node.inner, Node.children]
  ⟨hne,
    (index_safety examplePolicy 5 (fun _ => 1) [1, 3] 1 samplePrivate.Si element_div).1 hne,
    (index_safety examplePolicy 5 (fun _ => 1) [1, 3] 1 samplePrivate.Si element_div).2⟩

end KPABE
